import Mathlib

/-! Word-frequency hash table (`htable.c`, `mylib.c`).

A shallow embedding of the open-addressing hash table of `src/asgn/htable.c`
and of the prime helpers of `src/asgn/mylib.c`, followed by theorems about them.

Modelling conventions.
* A C string is the list of its characters before the terminating NUL.
* `unsigned int` values are naturals reduced modulo `2 ^ 32` where the C
  arithmetic can wrap (the string hash).
* `int` is the 32-bit signed type, with `INT_MAX = 2 ^ 31 - 1`.  The `int`
  values that the table code keeps non-negative (capacity, indices, counters,
  frequencies) are naturals, and the functions `htable_insert`,
  `htable_search`, `print_stats_line`, `htable_print_stats` compute on them
  without a bound.  They agree with the C code as long as no `int` result
  exceeds `INT_MAX`.  The sums and products that can exceed it are
  `index + step` of the probe walk, `freqs[index] + 1` of a repeated key,
  `h->capacity * percent_full` and `100 * i` of the statistics.  The functions
  named `..._checked` test each of them and return `none` where the C
  arithmetic overflows (undefined behaviour); the theorems about the
  unbounded functions carry the range in which the two agree.
* The three parallel arrays `keys`, `freqs`, `stats` are lists; a NULL key is
  `none`.  Reads are `List.getD`, writes are `List.set`.
* A `while` loop becomes a recursive function on a fuel argument that equals
  the number of iterations the loop guard still allows.
* `emalloc` is taken to succeed for a positive capacity; for a capacity that
  is not positive `main_run` models the exit of the program in `htable_new`.
* `htable_step` and the home index `i_key % capacity` divide by `capacity - 1`
  and `capacity`; the theorems about them assume `capacity > 1`.
* Of `main` the option loop, the choice of the capacity, the exit in
  `htable_new` and the choice of the reporting calls are embedded; output is
  the list of calls or of lines.
* An input stream is the finite list of the characters that `getc` returns
  before `EOF`; `isalnum` and `tolower` are those of the C locale.
-/

namespace Htable

/-- A C string: its characters up to the terminating NUL. -/
abbrev Word := List Char

/-- The enumerated type `hashing_t` of `htable.h`. -/
inductive hashing_t where
  | LINEAR_P
  | DOUBLE_H
  deriving DecidableEq, Repr

/-- The record `struct htablerec` of `htable.c`. -/
structure htablerec where
  capacity : Nat
  num_keys : Nat
  keys : List (Option Word)
  freqs : List Nat
  stats : List Nat
  method : hashing_t
  deriving DecidableEq, Repr

/-- The constant `INT_MAX` of `limits.h` for the 32-bit `int`, `2 ^ 31 - 1`. -/
def INT_MAX : Nat := 2147483647

/-- The function `htable_word_to_int`: fold `result = c + 31 * result` over the
characters, in `unsigned int` arithmetic. -/
def htable_word_to_int (word : Word) : Nat :=
  word.foldl (fun result c => (c.toNat + 31 * result) % 2 ^ 32) 0

/-- The function `htable_step`: `1 + (i_key % (h->capacity - 1))`. -/
def htable_step (h : htablerec) (i_key : Nat) : Nat :=
  1 + i_key % (h.capacity - 1)

/-- The function `htable_new`: every slot starts with `stats = 0`, `freqs = 0`,
`keys = NULL`, and `num_keys = 0`. -/
def htable_new (ht : hashing_t) (capacity : Nat) : htablerec :=
  { capacity := capacity
    num_keys := 0
    keys := List.replicate capacity none
    freqs := List.replicate capacity 0
    stats := List.replicate capacity 0
    method := ht }

/-- The first branch of the loop of `htable_insert` (the slot at `index` is
free): copy the key, set the frequency to `freqs[index] + 1`, log the
collisions at `stats[num_keys]`, increment `num_keys`. -/
def place (h : htablerec) (str : Word) (index collisions : Nat) : htablerec :=
  { h with
    keys := h.keys.set index (some str)
    freqs := h.freqs.set index (h.freqs.getD index 0 + 1)
    stats := h.stats.set h.num_keys collisions
    num_keys := h.num_keys + 1 }

/-- The second branch of the loop of `htable_insert` (the slot at `index` holds
the key): `freqs[index] = freqs[index] + 1`.  The sum is that of the naturals;
it is the `int` sum while `freqs[index] < INT_MAX` (`insert_loop_checked` has
the test). -/
def bump (h : htablerec) (index : Nat) : htablerec :=
  { h with freqs := h.freqs.set index (h.freqs.getD index 0 + 1) }

/-- The loop `while (collisions < h->capacity)` of `htable_insert`, with the
`return 0` that follows it.  The fuel is `h->capacity - collisions`.  The result
is the table after the call and the returned integer.  The sums `index + step`
and `freqs[index] + 1` are those of the naturals; they are the `int` sums while
they stay at or below `INT_MAX` (`insert_loop_checked` has the tests). -/
def insert_loop (h : htablerec) (str : Word) (step : Nat) :
    Nat → Nat → Nat → htablerec × Nat
  | 0, _, _ => (h, 0)
  | fuel + 1, index, collisions =>
    if h.freqs.getD index 0 = 0 then
      (place h str index collisions, 1)
    else if h.keys.getD index none = some str then
      (bump h index, h.freqs.getD index 0 + 1)
    else
      insert_loop h str step fuel ((index + step) % h.capacity) (collisions + 1)

/-- The step chosen at the head of `htable_insert` and `htable_search`:
`htable_step` for double hashing, `1` otherwise. -/
def step_of (h : htablerec) (i_key : Nat) : Nat :=
  if h.method = hashing_t.DOUBLE_H then htable_step h i_key else 1

/-- The function `htable_insert`: the table after the call and the value
returned. -/
def htable_insert (h : htablerec) (str : Word) : htablerec × Nat :=
  let i_key := htable_word_to_int str
  let step := step_of h i_key
  insert_loop h str step h.capacity (i_key % h.capacity) 0

/-- The loop `while (h->freqs[index] != 0 && collisions < h->capacity)` of
`htable_search`; the fuel is `h->capacity - collisions`.  The result is the
pair `(index, collisions)` on leaving the loop.  The sum `index + step` is that
of the naturals; it is the `int` sum while it stays at or below `INT_MAX`
(`search_loop_checked` has the test). -/
def search_loop (h : htablerec) (str : Word) (step : Nat) :
    Nat → Nat → Nat → Nat × Nat
  | 0, index, collisions => (index, collisions)
  | fuel + 1, index, collisions =>
    if h.freqs.getD index 0 ≠ 0 then
      if h.keys.getD index none = some str then
        (index, collisions)
      else
        search_loop h str step fuel ((index + step) % h.capacity) (collisions + 1)
    else
      (index, collisions)

/-- The function `htable_search`. -/
def htable_search (h : htablerec) (str : Word) : Nat :=
  let i_key := htable_word_to_int str
  let step := step_of h i_key
  let r := search_loop h str step h.capacity (i_key % h.capacity) 0
  if r.2 ≥ h.capacity then 0 else h.freqs.getD r.1 0

/-- The loop of `main` that feeds every word to `htable_insert`, ignoring the
returned value. -/
def insert_all (h : htablerec) (ws : List Word) : htablerec :=
  ws.foldl (fun t w => (htable_insert t w).1) h

/-- The indices visited by the probe walk: start at `index`, then repeat
`index = (index + step) % capacity`. -/
def probe_seq (cap step : Nat) : Nat → Nat → Nat
  | index, 0 => index
  | index, j + 1 => probe_seq cap step ((index + step) % cap) j

/-- The `j`-th index of the probe walk of `str` in table `h`. -/
def probe_index (h : htablerec) (str : Word) (j : Nat) : Nat :=
  probe_seq h.capacity (step_of h (htable_word_to_int str))
    (htable_word_to_int str % h.capacity) j

/-- The loop `for (i = 2; i < n / 2; i++)` of `is_prime`, returning `flag`; the
fuel is `n / 2 - i`. -/
def is_prime_loop (n : Int) : Nat → Int → Int
  | 0, _ => 0
  | fuel + 1, i => if Int.tmod n i = 0 then 1 else is_prime_loop n fuel (i + 1)

/-- The function `is_prime` of `mylib.c`. -/
def is_prime (n : Int) : Int :=
  if is_prime_loop n (Int.tdiv n 2 - 2).toNat 2 = 0 then 1 else 0

/-- The function `gen_prime` of `mylib.c`: `while (is_prime(n++) == 0) {}` then
`return n - 1`.  `none` means the fuel ran out before the loop ended. -/
def gen_prime (fuel : Nat) (n : Int) : Option Int :=
  match fuel with
  | 0 => none
  | fuel + 1 => if is_prime n = 0 then gen_prime fuel (n + 1) else some (n + 1 - 1)

/-- Slot `i` is occupied by a key other than `str`: the case in which the probe
walk of `htable_insert` and `htable_search` counts a collision and moves on. -/
def blocked (h : htablerec) (str : Word) (i : Nat) : Prop :=
  h.freqs.getD i 0 ≠ 0 ∧ h.keys.getD i none ≠ some str

instance (h : htablerec) (str : Word) (i : Nat) : Decidable (blocked h str i) := by
  unfold blocked; infer_instance

/-- Slot `i` of the table is occupied and holds the key `w`. -/
def stored (h : htablerec) (w : Word) (i : Nat) : Prop :=
  i < h.capacity ∧ h.freqs.getD i 0 ≠ 0 ∧ h.keys.getD i none = some w

/-- The arrays of the table have `capacity` entries each. -/
def well_sized (h : htablerec) : Prop :=
  h.keys.length = h.capacity ∧ h.freqs.length = h.capacity ∧ h.stats.length = h.capacity

/-- Every occupied slot holds a key that sits on its own probe walk, behind
slots that are all occupied by other keys. -/
def on_path (h : htablerec) : Prop :=
  ∀ i, i < h.capacity → h.freqs.getD i 0 ≠ 0 →
    ∃ w c, h.keys.getD i none = some w ∧ c < h.capacity ∧ probe_index h w c = i ∧
      ∀ j, j < c → blocked h w (probe_index h w j)

/-- The number of slots whose frequency is positive. -/
def occupied_count (h : htablerec) : Nat :=
  h.freqs.countP (fun f => decide (0 < f))

/-- The invariant of the tables that `htable_insert` builds from `htable_new`. -/
def table_inv (h : htablerec) : Prop :=
  well_sized h ∧ on_path h ∧ h.num_keys = occupied_count h

/-- The table `h` counts the words of `ws`: a slot that holds `w` has the
number of occurrences of `w` as its frequency, every word of `ws` is in a slot,
and no more slots are occupied than `ws` has distinct words. -/
def counts_words (h : htablerec) (ws : List Word) : Prop :=
  (∀ w i, stored h w i → h.freqs.getD i 0 = ws.count w) ∧
  (∀ w, w ∈ ws → ∃ i, stored h w i) ∧
  occupied_count h ≤ ws.dedup.length

/-- A linear-probing table of capacity 3 in which the keys `a` and `d` share
the home slot 1. -/
def crowded_table : htablerec :=
  insert_all (htable_new hashing_t.LINEAR_P 3) [['a'], ['d']]

/-- A double-hashing table of capacity 3 whose three slots are occupied. -/
def full_table : htablerec :=
  insert_all (htable_new hashing_t.DOUBLE_H 3) [['a'], ['b'], ['c']]

/-- The constant `DEFAULT_TABLE_SIZE` of `asgn1.c`. -/
def DEFAULT_TABLE_SIZE : Int := 113

/-- The constant `DEFAULT_SNAPSHOT` of `asgn1.c`. -/
def DEFAULT_SNAPSHOT : Int := 10

/-- One option met by the `getopt` loop of `main`.  For `-s` and `-t` the
payload is the integer that `sscanf(optarg, "%d", ...)` converts, `none` when
it converts nothing.  The options `-h` and the unknown ones leave the program
and are not listed. -/
inductive cli_option where
  | d
  | e
  | p
  | s (snapshot : Option Int)
  | t (tablesize : Option Int)
  deriving DecidableEq, Repr

/-- The local variables of `main` that the option loop sets. -/
structure main_flags where
  collision_resolution_strategy : hashing_t
  e : Int
  p : Int
  s : Int
  snapshot : Int
  t : Int
  tablesize : Int
  deriving DecidableEq, Repr

/-- The values of the locals of `main` before the option loop. -/
def initial_flags : main_flags :=
  { collision_resolution_strategy := hashing_t.LINEAR_P
    e := 0
    p := 0
    s := 0
    snapshot := -1
    t := 0
    tablesize := -1 }

/-- The `switch (option)` of `main`. -/
def read_option (f : main_flags) : cli_option → main_flags
  | cli_option.d => { f with collision_resolution_strategy := hashing_t.DOUBLE_H }
  | cli_option.e => { f with e := 1 }
  | cli_option.p => { f with p := 1 }
  | cli_option.s n => { f with s := 1, snapshot := n.getD f.snapshot }
  | cli_option.t n => { f with t := 1, tablesize := n.getD f.tablesize }

/-- The option loop of `main`. -/
def parse_options (opts : List cli_option) : main_flags :=
  opts.foldl read_option initial_flags

/-- The capacity that `main` hands to `htable_new` (lines 119-134 of `asgn1.c`);
`none` when `gen_prime` has not ended within the fuel. -/
def main_tablesize (fuel : Nat) (f : main_flags) : Option Int :=
  let tablesize := if f.t ≠ 1 then DEFAULT_TABLE_SIZE else f.tablesize
  if f.t = 1 ∧ tablesize ≠ -1 then
    if tablesize = 1 ∨ tablesize = 0 then some 2 else gen_prime fuel tablesize
  else some tablesize

/-- A reporting call made by `main` after the words are read. -/
inductive report where
  /-- the call `htable_print_entire_table(h, stderr)` -/
  | entire_table
  /-- the call `htable_print(h, stdout)` -/
  | frequencies
  /-- the call `htable_print_stats(h, stdout, num_stats)` -/
  | stats (num_stats : Int)
  deriving DecidableEq, Repr

/-- The reporting calls that the block at lines 140-152 of `asgn1.c` makes, in
order, when `main` reaches it.  Whether `main` reaches the block is decided
before it, in `htable_new`: see `main_run`. -/
def main_reports (f : main_flags) : List report :=
  (if f.e = 1 then
      report.entire_table :: (if f.p = 0 then [report.frequencies] else [])
    else []) ++
  (if f.s = 1 ∧ f.snapshot ≠ 0 ∧ f.p = 1 then [report.stats f.snapshot]
    else if f.p = 1 then [report.stats DEFAULT_SNAPSHOT]
    else [])

/-- The run of `main` after the option loop (lines 119-152 of `asgn1.c`): the
capacity is chosen and handed to `htable_new`, the words are inserted, the
reporting calls are made.  With a capacity that is not positive `htable_new`
asks `emalloc` for `capacity * sizeof ...` bytes, a size that `malloc` refuses
(for capacity 0 it may), and the program leaves through `exit(EXIT_FAILURE)`
before any report.  The result is the list of the reporting calls made, `none`
when the reporting block is not reached: the program has left in `htable_new`,
or `gen_prime` has not ended within the fuel. -/
def main_run (fuel : Nat) (f : main_flags) : Option (List report) :=
  match main_tablesize fuel f with
  | none => none
  | some tablesize => if 0 < tablesize then some (main_reports f) else none

/-- The loop of `htable_insert` with every array access and every `int` sum
checked.  The arrays `keys`, `freqs` and `stats` have `capacity` entries; `none`
stands for a read or write at an index outside `0 .. capacity - 1`, for `strcmp`
on a NULL key, or for an `int` sum above `INT_MAX`: `freqs[index] + 1` of the
second branch, `index + step` of the third. -/
def insert_loop_checked (h : htablerec) (str : Word) (step : Nat) :
    Nat → Nat → Nat → Option (htablerec × Nat)
  | 0, _, _ => some (h, 0)
  | fuel + 1, index, collisions =>
    if index < h.capacity then
      if h.freqs.getD index 0 = 0 then
        if h.num_keys < h.capacity then some (place h str index collisions, 1) else none
      else if h.keys.getD index none = none then none
      else if h.keys.getD index none = some str then
        if h.freqs.getD index 0 + 1 ≤ INT_MAX then
          some (bump h index, h.freqs.getD index 0 + 1)
        else none
      else if index + step ≤ INT_MAX then
        insert_loop_checked h str step fuel ((index + step) % h.capacity) (collisions + 1)
      else none
    else none

/-- The function `htable_insert` with every array access and every `int` sum
checked. -/
def htable_insert_checked (h : htablerec) (str : Word) : Option (htablerec × Nat) :=
  let i_key := htable_word_to_int str
  let step := step_of h i_key
  insert_loop_checked h str step h.capacity (i_key % h.capacity) 0

/-- The loop of `htable_search` with every array access and the `int` sum
`index + step` checked; the guard reads `freqs[index]` before it tests
`collisions`, also on the last round.  `none` stands for an access outside the
arrays, for `strcmp` on a NULL key, or for a sum above `INT_MAX`. -/
def search_loop_checked (h : htablerec) (str : Word) (step : Nat) :
    Nat → Nat → Nat → Option (Nat × Nat)
  | 0, index, collisions => if index < h.capacity then some (index, collisions) else none
  | fuel + 1, index, collisions =>
    if index < h.capacity then
      if h.freqs.getD index 0 ≠ 0 then
        if h.keys.getD index none = none then none
        else if h.keys.getD index none = some str then some (index, collisions)
        else if index + step ≤ INT_MAX then
          search_loop_checked h str step fuel ((index + step) % h.capacity) (collisions + 1)
        else none
      else some (index, collisions)
    else none

/-- The function `htable_search` with every array access and the `int` sum
checked. -/
def htable_search_checked (h : htablerec) (str : Word) : Option Nat :=
  let i_key := htable_word_to_int str
  let step := step_of h i_key
  match search_loop_checked h str step h.capacity (i_key % h.capacity) 0 with
  | none => none
  | some r =>
    if r.2 ≥ h.capacity then some 0
    else if r.1 < h.capacity then some (h.freqs.getD r.1 0) else none

/-- The loop of `main` that feeds every word to `htable_insert`, over the
checked function: `none` as soon as one call is `none`. -/
def insert_all_checked (h : htablerec) (ws : List Word) : Option htablerec :=
  ws.foldl (fun t w => t.bind (fun u => (htable_insert_checked u w).map Prod.fst)) (some h)

/-- One data line printed by `print_stats_line`: the five printed values.  The
two `double` values are kept as exact rationals; the rounding of `double`
arithmetic and of `printf` is not modelled. -/
structure stats_line where
  percent_full : Nat
  current_entries : Nat
  percent_at_home : ℚ
  average_collisions : ℚ
  max_collisions : Nat
  deriving DecidableEq

/-- The `for` loop of `print_stats_line`, on the state `(at_home,
max_collisions, average_collisions)`; the fuel is `current_entries - i`. -/
def stats_loop (h : htablerec) : Nat → Nat → Nat × Nat × ℚ → Nat × Nat × ℚ
  | 0, _, acc => acc
  | fuel + 1, i, (at_home, max_collisions, average_collisions) =>
    stats_loop h fuel (i + 1)
      (if h.stats.getD i 0 = 0 then at_home + 1 else at_home,
        if h.stats.getD i 0 > max_collisions then h.stats.getD i 0 else max_collisions,
        average_collisions + (h.stats.getD i 0 : ℚ))

/-- The function `print_stats_line`: the line printed, `none` when nothing is
printed.  The product `h->capacity * percent_full` is that of the naturals; it
is the `int` product while it stays at or below `INT_MAX`
(`print_stats_line_checked` has the test). -/
def print_stats_line (h : htablerec) (percent_full : Nat) : Option stats_line :=
  let current_entries := h.capacity * percent_full / 100
  if current_entries > 0 ∧ current_entries ≤ h.num_keys then
    let r := stats_loop h current_entries 0 (0, 0, 0)
    some
      { percent_full := percent_full
        current_entries := current_entries
        percent_at_home := (r.1 : ℚ) * 100 / (current_entries : ℚ)
        average_collisions := r.2.2 / (current_entries : ℚ)
        max_collisions := r.2.1 }
  else none

/-- The function `htable_print_stats`: the data lines printed between the
header and the footer, in the order of the loop `for (i = 1; i <= num_stats;
i++)`.  The product `100 * i` is that of the naturals; it is the `int` product
while it stays at or below `INT_MAX` (`htable_print_stats_checked` has the
test). -/
def htable_print_stats (h : htablerec) (num_stats : Nat) : List stats_line :=
  (List.range' 1 num_stats).filterMap (fun i => print_stats_line h (100 * i / num_stats))

/-- The function `print_stats_line` with the `int` product checked: the outer
`none` stands for a product `h->capacity * percent_full` above `INT_MAX`, the
inner one for a call that prints nothing. -/
def print_stats_line_checked (h : htablerec) (percent_full : Nat) :
    Option (Option stats_line) :=
  if h.capacity * percent_full ≤ INT_MAX then some (print_stats_line h percent_full)
  else none

/-- The loop `for (i = 1; i <= num_stats; i++)` of `htable_print_stats` with the
`int` products checked; the fuel is `num_stats + 1 - i`.  `none` stands for a
product `100 * i` above `INT_MAX` or for a call of `print_stats_line` that
overflows. -/
def print_stats_loop_checked (h : htablerec) (num_stats : Nat) :
    Nat → Nat → Option (List stats_line)
  | 0, _ => some []
  | fuel + 1, i =>
    if 100 * i ≤ INT_MAX then
      match print_stats_line_checked h (100 * i / num_stats) with
      | none => none
      | some line =>
        match print_stats_loop_checked h num_stats fuel (i + 1) with
        | none => none
        | some lines => some (line.toList ++ lines)
    else none

/-- The function `htable_print_stats` with the `int` products checked. -/
def htable_print_stats_checked (h : htablerec) (num_stats : Nat) : Option (List stats_line) :=
  print_stats_loop_checked h num_stats num_stats 1

/-- The first `n` entries of the placement-cost log. -/
def log_first (h : htablerec) (n : Nat) : List Nat :=
  (List.range n).map (fun i => h.stats.getD i 0)

/-- The line of snapshot `i` of `N` as the specification words it: statistics
over the first `currentEntries` log entries, when `currentEntries` lies in
`(0, keyCount]`. -/
def spec_stats_line (h : htablerec) (N i : Nat) : Option stats_line :=
  let percentFull := 100 * i / N
  let currentEntries := h.capacity * percentFull / 100
  if 0 < currentEntries ∧ currentEntries ≤ h.num_keys then
    some
      { percent_full := percentFull
        current_entries := currentEntries
        percent_at_home :=
          100 * ((log_first h currentEntries).count 0 : ℚ) / (currentEntries : ℚ)
        average_collisions := ((log_first h currentEntries).sum : ℚ) / (currentEntries : ℚ)
        max_collisions := (log_first h currentEntries).foldr max 0 }
  else none

/-- The report as the specification words it: the lines of the snapshots
`i = 1 .. N` that satisfy the range condition, in increasing order of `i`. -/
def spec_print_stats (h : htablerec) (N : Nat) : List stats_line :=
  (List.range' 1 N).filterMap (spec_stats_line h N)

/-- A linear-probing table of capacity 7 that holds the single key `a`. -/
def one_key_table : htablerec :=
  insert_all (htable_new hashing_t.LINEAR_P 7) [['a']]

/-- The macro `EOF` of `stdio.h`. -/
def EOF : Int := -1

/-- The library function `isalnum`, in the C locale: letters and digits of
ASCII. -/
def isalnum (c : Char) : Bool := c.isAlphanum

/-- The library function `tolower`, in the C locale. -/
def tolower (c : Char) : Char := c.toLower

/-- The apostrophe character. -/
def apostrophe : Char := Char.ofNat 39

/-- The first loop of `getword`, `while(!isalnum(c = getc(stream)) && EOF != c)`:
the alphanumeric character that ends it and the rest of the stream, `none` when
it ends on `EOF`. -/
def skip_to_alnum : List Char → Option (Char × List Char)
  | [] => none
  | c :: cs => if isalnum c then some (c, cs) else skip_to_alnum cs

/-- The second loop of `getword`, `while(--limit > 0)`.  The arguments are the
stream, the value of `limit` before the decrement and the characters written so
far; the result is the characters written and the rest of the stream. -/
def getword_loop : List Char → Int → List Char → List Char × List Char
  | [], _, w => (w, [])
  | c :: cs, limit, w =>
    if limit - 1 > 0 then
      if isalnum c then getword_loop cs (limit - 1) (w ++ [tolower c])
      else if c = apostrophe then getword_loop cs (limit - 1 + 1) w
      else (w, cs)
    else (w, c :: cs)

/-- What a call of `getword` leaves: the returned value, the string in the
buffer `s` and the rest of the stream. -/
structure getword_result where
  value : Int
  word : List Char
  rest : List Char
  deriving DecidableEq, Repr

/-- The function `getword` of `mylib.c`; `s` is the string in the buffer before
the call. -/
def getword (s : List Char) (limit : Int) (stream : List Char) : getword_result :=
  match skip_to_alnum stream with
  | none => { value := EOF, word := s, rest := [] }
  | some (c, cs) =>
    let r := getword_loop cs (limit - 1) (if limit - 1 > 0 then [tolower c] else [])
    { value := (r.1.length : Int), word := r.1, rest := r.2 }

/-- The token as the specification words it: skip to the first alphanumeric
character, take the run of alphanumeric characters and apostrophes, drop the
apostrophes, keep at most `limit - 1` characters, in lower case. -/
def spec_token (limit : Nat) (stream : List Char) : List Char :=
  ((((stream.dropWhile (fun c => !isalnum c)).takeWhile
    (fun c => isalnum c || decide (c = apostrophe))).filter isalnum).take (limit - 1)).map tolower

/-- The function `htable_print`: the lines printed, one pair `(freqs[i],
keys[i])` for every slot `i = 0 .. capacity - 1` with `freqs[i] > 0`, in slot
order. -/
def htable_print (h : htablerec) : List (Nat × Option Word) :=
  (List.range h.capacity).filterMap
    (fun i => if h.freqs.getD i 0 > 0 then some (h.freqs.getD i 0, h.keys.getD i none) else none)

/-- Trial division over the `2 ^ k` candidates `lo, lo + 1, ...`: none of them
divides `p`.  It serves to prove that a capacity is a prime. -/
def no_divisor (p lo : Nat) : Nat → Bool
  | 0 => p % lo != 0
  | k + 1 => no_divisor p lo k && no_divisor p (lo + 2 ^ k) k

/-! ## The probe walk -/

theorem getD_set_self {α : Type} (l : List α) (i : Nat) (a d : α) (hi : i < l.length) :
    (l.set i a).getD i d = a := by
  simp [List.getD_eq_getElem?_getD, List.getElem?_set, hi]

theorem getD_set_other {α : Type} (l : List α) (i j : Nat) (a d : α) (hij : i ≠ j) :
    (l.set i a).getD j d = l.getD j d := by
  simp [List.getD_eq_getElem?_getD, List.getElem?_set, hij]

theorem getD_replicate_lt {α : Type} (n i : Nat) (a d : α) (hi : i < n) :
    (List.replicate n a).getD i d = a := by
  simp [List.getD_eq_getElem?_getD, List.getElem?_replicate, hi]

theorem first_unblocked (P : Nat → Prop) (n : Nat) :
    (∀ j, j < n → P j) ∨ ∃ c, c < n ∧ (∀ j, j < c → P j) ∧ ¬ P c := by
  induction n with
  | zero => exact Or.inl (fun j hj => absurd hj (Nat.not_lt_zero j))
  | succ n ih =>
    rcases ih with hall | ⟨c, hc, hlt, hn⟩
    · by_cases hP : P n
      · left
        intro j hj
        rcases Nat.lt_succ_iff_lt_or_eq.mp hj with h1 | h1
        · exact hall j h1
        · exact h1 ▸ hP
      · exact Or.inr ⟨n, Nat.lt_succ_self n, hall, hP⟩
    · exact Or.inr ⟨c, Nat.lt_succ_of_lt hc, hlt, hn⟩

theorem probe_seq_succ (cap step : Nat) (index j : Nat) :
    probe_seq cap step index (j + 1) = probe_seq cap step ((index + step) % cap) j := rfl

theorem probe_seq_closed (cap step : Nat) : ∀ (j index : Nat), index < cap →
    probe_seq cap step index j = (index + j * step) % cap := by
  intro j
  induction j with
  | zero => intro index hi; simp [probe_seq, Nat.mod_eq_of_lt hi]
  | succ j ih =>
    intro index hi
    have hcap : 0 < cap := Nat.lt_of_le_of_lt (Nat.zero_le _) hi
    rw [probe_seq_succ, ih _ (Nat.mod_lt _ hcap)]
    rw [Nat.add_mod, Nat.mod_mod, ← Nat.add_mod]
    congr 1
    ring

theorem probe_seq_lt (cap step : Nat) (hcap : 0 < cap) : ∀ (j index : Nat), index < cap →
    probe_seq cap step index j < cap := by
  intro j index hi
  rw [probe_seq_closed cap step j index hi]
  exact Nat.mod_lt _ hcap

theorem insert_loop_blocked (h : htablerec) (str : Word) (step : Nat) :
    ∀ (fuel index coll : Nat),
      (∀ j, j < fuel → blocked h str (probe_seq h.capacity step index j)) →
      insert_loop h str step fuel index coll = (h, 0) := by
  intro fuel
  induction fuel with
  | zero => intro index coll _; rfl
  | succ fuel ih =>
    intro index coll hb
    have h0 := hb 0 (Nat.succ_pos fuel)
    simp only [probe_seq, blocked] at h0
    rw [insert_loop, if_neg h0.1, if_neg h0.2]
    exact ih _ _ (fun j hj => hb (j + 1) (Nat.succ_lt_succ hj))

theorem insert_loop_hit (h : htablerec) (str : Word) (step : Nat) :
    ∀ (fuel index coll c : Nat), c < fuel →
      (∀ j, j < c → blocked h str (probe_seq h.capacity step index j)) →
      ¬ blocked h str (probe_seq h.capacity step index c) →
      insert_loop h str step fuel index coll =
        if h.freqs.getD (probe_seq h.capacity step index c) 0 = 0 then
          (place h str (probe_seq h.capacity step index c) (coll + c), 1)
        else
          (bump h (probe_seq h.capacity step index c),
            h.freqs.getD (probe_seq h.capacity step index c) 0 + 1) := by
  intro fuel
  induction fuel with
  | zero => intro index coll c hc; exact absurd hc (Nat.not_lt_zero c)
  | succ fuel ih =>
    intro index coll c hc hb hn
    cases c with
    | zero =>
      simp only [probe_seq, blocked, not_and_or, not_not] at hn ⊢
      rw [insert_loop]
      by_cases hf : h.freqs.getD index 0 = 0
      · rw [if_pos hf, if_pos hf]; rfl
      · rcases hn with hn | hn
        · exact absurd hn hf
        · rw [if_neg hf, if_pos hn, if_neg hf]
    | succ c =>
      have h0 := hb 0 (Nat.succ_pos c)
      simp only [probe_seq, blocked] at h0
      rw [insert_loop, if_neg h0.1, if_neg h0.2]
      rw [ih _ _ c (Nat.lt_of_succ_lt_succ hc)
        (fun j hj => hb (j + 1) (Nat.succ_lt_succ hj)) hn]
      simp only [probe_seq_succ, Nat.add_assoc, Nat.add_comm 1 c]

theorem search_loop_blocked (h : htablerec) (str : Word) (step : Nat) :
    ∀ (fuel index coll : Nat),
      (∀ j, j < fuel → blocked h str (probe_seq h.capacity step index j)) →
      (search_loop h str step fuel index coll).2 = coll + fuel := by
  intro fuel
  induction fuel with
  | zero => intro index coll _; rfl
  | succ fuel ih =>
    intro index coll hb
    have h0 := hb 0 (Nat.succ_pos fuel)
    simp only [probe_seq, blocked] at h0
    rw [search_loop, if_pos h0.1, if_neg h0.2]
    rw [ih _ _ (fun j hj => hb (j + 1) (Nat.succ_lt_succ hj))]
    omega

theorem search_loop_hit (h : htablerec) (str : Word) (step : Nat) :
    ∀ (fuel index coll c : Nat), c < fuel →
      (∀ j, j < c → blocked h str (probe_seq h.capacity step index j)) →
      ¬ blocked h str (probe_seq h.capacity step index c) →
      search_loop h str step fuel index coll =
        (probe_seq h.capacity step index c, coll + c) := by
  intro fuel
  induction fuel with
  | zero => intro index coll c hc; exact absurd hc (Nat.not_lt_zero c)
  | succ fuel ih =>
    intro index coll c hc hb hn
    cases c with
    | zero =>
      simp only [probe_seq, blocked, not_and_or, not_not] at hn ⊢
      rw [search_loop]
      by_cases hf : h.freqs.getD index 0 = 0
      · rw [if_neg (not_not.mpr hf)]; rfl
      · rcases hn with hn | hn
        · exact absurd hn hf
        · rw [if_pos hf, if_pos hn]; rfl
    | succ c =>
      have h0 := hb 0 (Nat.succ_pos c)
      simp only [probe_seq, blocked] at h0
      rw [search_loop, if_pos h0.1, if_neg h0.2]
      rw [ih _ _ c (Nat.lt_of_succ_lt_succ hc)
        (fun j hj => hb (j + 1) (Nat.succ_lt_succ hj)) hn]
      simp only [probe_seq_succ, Nat.add_assoc, Nat.add_comm 1 c]

theorem probe_index_lt (h : htablerec) (str : Word) (j : Nat) (hcap : 0 < h.capacity) :
    probe_index h str j < h.capacity :=
  probe_seq_lt h.capacity _ hcap j _ (Nat.mod_lt _ hcap)

/-- The three ways a call of `htable_insert` can end, in terms of the probe walk. -/
theorem insert_cases (h : htablerec) (str : Word) :
    ((∀ j, j < h.capacity → blocked h str (probe_index h str j)) ∧
        htable_insert h str = (h, 0)) ∨
    (∃ c, c < h.capacity ∧ (∀ j, j < c → blocked h str (probe_index h str j)) ∧
        h.freqs.getD (probe_index h str c) 0 = 0 ∧
        htable_insert h str = (place h str (probe_index h str c) c, 1)) ∨
    (∃ c, c < h.capacity ∧ (∀ j, j < c → blocked h str (probe_index h str j)) ∧
        h.freqs.getD (probe_index h str c) 0 ≠ 0 ∧
        h.keys.getD (probe_index h str c) none = some str ∧
        htable_insert h str =
          (bump h (probe_index h str c), h.freqs.getD (probe_index h str c) 0 + 1)) := by
  rcases first_unblocked (fun j => blocked h str (probe_index h str j)) h.capacity with
    hall | ⟨c, hc, hlt, hn⟩
  · exact Or.inl ⟨hall, insert_loop_blocked h str _ _ _ 0 hall⟩
  · right
    have hrun := insert_loop_hit h str (step_of h (htable_word_to_int str)) h.capacity
      (htable_word_to_int str % h.capacity) 0 c hc hlt hn
    by_cases hf : h.freqs.getD (probe_index h str c) 0 = 0
    · left
      refine ⟨c, hc, hlt, hf, ?_⟩
      have hf2 : h.freqs.getD (probe_seq h.capacity (step_of h (htable_word_to_int str))
          (htable_word_to_int str % h.capacity) c) 0 = 0 := hf
      rw [if_pos hf2, Nat.zero_add] at hrun
      exact hrun
    · right
      have hk : h.keys.getD (probe_index h str c) none = some str := by
        have hn2 : ¬ (h.freqs.getD (probe_index h str c) 0 ≠ 0 ∧
            h.keys.getD (probe_index h str c) none ≠ some str) := hn
        by_contra hk
        exact hn2 ⟨hf, hk⟩
      refine ⟨c, hc, hlt, hf, hk, ?_⟩
      have hf2 : ¬ h.freqs.getD (probe_seq h.capacity (step_of h (htable_word_to_int str))
          (htable_word_to_int str % h.capacity) c) 0 = 0 := hf
      rw [if_neg hf2] at hrun
      exact hrun

/-- The two ways a call of `htable_search` can end, in terms of the probe walk. -/
theorem search_cases (h : htablerec) (str : Word) :
    ((∀ j, j < h.capacity → blocked h str (probe_index h str j)) ∧
        htable_search h str = 0) ∨
    (∃ c, c < h.capacity ∧ (∀ j, j < c → blocked h str (probe_index h str j)) ∧
        ¬ blocked h str (probe_index h str c) ∧
        htable_search h str = h.freqs.getD (probe_index h str c) 0) := by
  rcases first_unblocked (fun j => blocked h str (probe_index h str j)) h.capacity with
    hall | ⟨c, hc, hlt, hn⟩
  · left
    refine ⟨hall, ?_⟩
    have hrun := search_loop_blocked h str (step_of h (htable_word_to_int str)) h.capacity
      (htable_word_to_int str % h.capacity) 0 hall
    unfold htable_search
    simp only [hrun, Nat.zero_add, ge_iff_le, Nat.le_refl, if_true]
  · right
    refine ⟨c, hc, hlt, hn, ?_⟩
    have hrun := search_loop_hit h str (step_of h (htable_word_to_int str)) h.capacity
      (htable_word_to_int str % h.capacity) 0 c hc hlt hn
    unfold htable_search
    simp only [hrun, Nat.zero_add, ge_iff_le]
    rw [if_neg (Nat.not_le.mpr hc)]
    rfl

/-! ## Table updates and the table invariant -/

theorem place_freqs (h : htablerec) (str : Word) (p c i : Nat) (hp : p < h.freqs.length) :
    (place h str p c).freqs.getD i 0 =
      if i = p then h.freqs.getD p 0 + 1 else h.freqs.getD i 0 := by
  by_cases hi : i = p
  · subst hi
    rw [if_pos rfl]
    exact getD_set_self h.freqs i _ 0 hp
  · rw [if_neg hi]
    exact getD_set_other h.freqs p i _ 0 (Ne.symm hi)

theorem place_keys (h : htablerec) (str : Word) (p c i : Nat) (hp : p < h.keys.length) :
    (place h str p c).keys.getD i none =
      if i = p then some str else h.keys.getD i none := by
  by_cases hi : i = p
  · subst hi
    rw [if_pos rfl]
    exact getD_set_self h.keys i _ none hp
  · rw [if_neg hi]
    exact getD_set_other h.keys p i _ none (Ne.symm hi)

theorem bump_freqs (h : htablerec) (p i : Nat) (hp : p < h.freqs.length) :
    (bump h p).freqs.getD i 0 =
      if i = p then h.freqs.getD p 0 + 1 else h.freqs.getD i 0 := by
  by_cases hi : i = p
  · subst hi
    rw [if_pos rfl]
    exact getD_set_self h.freqs i _ 0 hp
  · rw [if_neg hi]
    exact getD_set_other h.freqs p i _ 0 (Ne.symm hi)

theorem probe_index_congr (h h' : htablerec) (w : Word) (j : Nat)
    (hc : h'.capacity = h.capacity) (hm : h'.method = h.method) :
    probe_index h' w j = probe_index h w j := by
  unfold probe_index step_of htable_step
  rw [hc, hm]

theorem blocked_mono (h h' : htablerec) (w : Word) (i : Nat)
    (hold : h.freqs.getD i 0 ≠ 0 →
      h'.freqs.getD i 0 ≠ 0 ∧ h'.keys.getD i none = h.keys.getD i none) :
    blocked h w i → blocked h' w i := by
  intro hb
  have h1 := hold hb.1
  exact ⟨h1.1, by rw [h1.2]; exact hb.2⟩

/-- A table change that keeps every occupied slot as it was, and only adds
slots sitting on their own probe walk, keeps `on_path`. -/
theorem on_path_step (h h' : htablerec)
    (hc : h'.capacity = h.capacity) (hm : h'.method = h.method)
    (hold : ∀ i, h.freqs.getD i 0 ≠ 0 →
      h'.freqs.getD i 0 ≠ 0 ∧ h'.keys.getD i none = h.keys.getD i none)
    (hnew : ∀ i, i < h.capacity → h'.freqs.getD i 0 ≠ 0 → h.freqs.getD i 0 ≠ 0 ∨
      ∃ w c, h'.keys.getD i none = some w ∧ c < h.capacity ∧ probe_index h w c = i ∧
        ∀ j, j < c → blocked h w (probe_index h w j))
    (hp : on_path h) : on_path h' := by
  intro i hi hf
  rw [hc] at hi
  have key : ∃ w c, h'.keys.getD i none = some w ∧ c < h.capacity ∧ probe_index h w c = i ∧
      ∀ j, j < c → blocked h w (probe_index h w j) := by
    rcases hnew i hi hf with hocc | hex
    · obtain ⟨w, c, hk, hclt, hpi, hb⟩ := hp i hi hocc
      exact ⟨w, c, by rw [(hold i hocc).2]; exact hk, hclt, hpi, hb⟩
    · exact hex
  obtain ⟨w, c, hk, hclt, hpi, hb⟩ := key
  refine ⟨w, c, hk, by rw [hc]; exact hclt, ?_, ?_⟩
  · rw [probe_index_congr h h' w c hc hm]; exact hpi
  · intro j hj
    rw [probe_index_congr h h' w j hc hm]
    exact blocked_mono h h' w _ (hold _) (hb j hj)

theorem on_path_place (h : htablerec) (str : Word) (c : Nat) (hs : well_sized h)
    (hcap : 0 < h.capacity) (hc : c < h.capacity)
    (hb : ∀ j, j < c → blocked h str (probe_index h str j))
    (hfree : h.freqs.getD (probe_index h str c) 0 = 0)
    (hp : on_path h) : on_path (place h str (probe_index h str c) c) := by
  have hlt := probe_index_lt h str c hcap
  have hlf : probe_index h str c < h.freqs.length := by rw [hs.2.1]; exact hlt
  have hlk : probe_index h str c < h.keys.length := by rw [hs.1]; exact hlt
  refine on_path_step h _ rfl rfl ?_ ?_ hp
  · intro i hocc
    have hne : i ≠ probe_index h str c := by
      intro he; rw [he] at hocc; exact hocc hfree
    rw [place_freqs h str _ c i hlf, place_keys h str _ c i hlk, if_neg hne, if_neg hne]
    exact ⟨hocc, rfl⟩
  · intro i _ hf
    by_cases hi : i = probe_index h str c
    · right
      refine ⟨str, c, ?_, hc, hi.symm, hb⟩
      rw [place_keys h str _ c i hlk, if_pos hi]
    · left
      rw [place_freqs h str _ c i hlf, if_neg hi] at hf
      exact hf

theorem on_path_bump (h : htablerec) (p : Nat) (hs : well_sized h) (hlt : p < h.capacity)
    (hoccp : h.freqs.getD p 0 ≠ 0) (hp : on_path h) : on_path (bump h p) := by
  have hlf : p < h.freqs.length := by rw [hs.2.1]; exact hlt
  refine on_path_step h _ rfl rfl ?_ ?_ hp
  · intro i hocc
    refine ⟨?_, rfl⟩
    rw [bump_freqs h p i hlf]
    by_cases hi : i = p
    · rw [if_pos hi]; exact Nat.succ_ne_zero _
    · rw [if_neg hi]; exact hocc
  · intro i _ hf
    left
    rw [bump_freqs h p i hlf] at hf
    by_cases hi : i = p
    · rw [hi]; exact hoccp
    · rw [if_neg hi] at hf; exact hf

theorem occupied_count_place (h : htablerec) (str : Word) (p c : Nat)
    (hp : p < h.freqs.length) (hfree : h.freqs.getD p 0 = 0) :
    occupied_count (place h str p c) = occupied_count h + 1 := by
  unfold occupied_count place
  simp only
  rw [List.countP_set _ _ _ _ hp]
  have h1 : h.freqs[p] = 0 := by
    rw [← List.getD_eq_getElem h.freqs 0 hp]; exact hfree
  simp [h1, hfree]

theorem occupied_count_bump (h : htablerec) (p : Nat)
    (hp : p < h.freqs.length) (hocc : h.freqs.getD p 0 ≠ 0) :
    occupied_count (bump h p) = occupied_count h := by
  unfold occupied_count bump
  simp only
  rw [List.countP_set _ _ _ _ hp]
  have h1 : h.freqs[p] ≠ 0 := by
    rw [← List.getD_eq_getElem h.freqs 0 hp]; exact hocc
  have hpos : 0 < List.countP (fun f => decide (0 < f)) h.freqs := by
    rw [List.countP_pos_iff]
    exact ⟨h.freqs[p], List.getElem_mem _, by simpa using Nat.pos_of_ne_zero h1⟩
  have h2 : decide (0 < h.freqs[p]) = true := by simpa using Nat.pos_of_ne_zero h1
  simp [h2]
  omega

theorem occupied_count_le (h : htablerec) : occupied_count h ≤ h.freqs.length :=
  List.countP_le_length _

/-- A free slot keeps the count of occupied slots below the capacity. -/
theorem occupied_count_lt_of_free (h : htablerec) (p : Nat)
    (hp : p < h.freqs.length) (hfree : h.freqs.getD p 0 = 0) :
    occupied_count h < h.freqs.length := by
  refine Nat.lt_of_le_of_ne (occupied_count_le h) ?_
  intro heq
  unfold occupied_count at heq
  rw [List.countP_eq_length] at heq
  have h1 : h.freqs[p] = 0 := by
    rw [← List.getD_eq_getElem h.freqs 0 hp]; exact hfree
  have := heq h.freqs[p] (List.getElem_mem _)
  rw [h1] at this
  simp at this

/-- When fewer slots are occupied than the table has, some slot is free. -/
theorem free_of_occupied_count_lt (h : htablerec)
    (hlt : occupied_count h < h.freqs.length) :
    ∃ p, p < h.freqs.length ∧ h.freqs.getD p 0 = 0 := by
  by_contra hno
  have hall : ∀ a ∈ h.freqs, decide (0 < a) = true := by
    intro a ha
    obtain ⟨n, hn, hna⟩ := List.getElem_of_mem ha
    have hne : h.freqs.getD n 0 ≠ 0 := fun h0 => hno ⟨n, hn, h0⟩
    rw [List.getD_eq_getElem h.freqs 0 hn, hna] at hne
    simpa using Nat.pos_of_ne_zero hne
  have := (List.countP_eq_length (p := fun f => decide (0 < f)) (l := h.freqs)).mpr hall
  unfold occupied_count at hlt
  omega

theorem table_inv_new (ht : hashing_t) (cap : Nat) : table_inv (htable_new ht cap) := by
  refine ⟨⟨?_, ?_, ?_⟩, ?_, ?_⟩
  · simp [htable_new]
  · simp [htable_new]
  · simp [htable_new]
  · intro i hi hf
    exact absurd (getD_replicate_lt cap i 0 0 hi) hf
  · simp [htable_new, occupied_count, List.countP_replicate]

theorem table_inv_place (h : htablerec) (str : Word) (c : Nat) (hinv : table_inv h)
    (hcap : 0 < h.capacity) (hc : c < h.capacity)
    (hb : ∀ j, j < c → blocked h str (probe_index h str j))
    (hfree : h.freqs.getD (probe_index h str c) 0 = 0) :
    table_inv (place h str (probe_index h str c) c) := by
  obtain ⟨hs, hp, hn⟩ := hinv
  have hlt := probe_index_lt h str c hcap
  have hlf : probe_index h str c < h.freqs.length := by rw [hs.2.1]; exact hlt
  refine ⟨⟨?_, ?_, ?_⟩, on_path_place h str c hs hcap hc hb hfree hp, ?_⟩
  · simp [place, hs.1]
  · simp [place, hs.2.1]
  · simp [place, hs.2.2]
  · rw [occupied_count_place h str _ c hlf hfree, ← hn]
    rfl

theorem table_inv_bump (h : htablerec) (p : Nat) (hinv : table_inv h)
    (hlt : p < h.capacity) (hocc : h.freqs.getD p 0 ≠ 0) :
    table_inv (bump h p) := by
  obtain ⟨hs, hp, hn⟩ := hinv
  have hlf : p < h.freqs.length := by rw [hs.2.1]; exact hlt
  refine ⟨⟨?_, ?_, ?_⟩, on_path_bump h p hs hlt hocc hp, ?_⟩
  · simp [bump, hs.1]
  · simp [bump, hs.2.1]
  · simp [bump, hs.2.2]
  · rw [occupied_count_bump h p hlf hocc, ← hn]
    rfl

theorem insert_capacity (h : htablerec) (str : Word) :
    (htable_insert h str).1.capacity = h.capacity ∧
      (htable_insert h str).1.method = h.method := by
  rcases insert_cases h str with ⟨_, he⟩ | ⟨c, _, _, _, he⟩ | ⟨c, _, _, _, _, he⟩ <;>
    rw [he] <;> exact ⟨rfl, rfl⟩

theorem table_inv_insert (h : htablerec) (str : Word) (hcap : 0 < h.capacity)
    (hinv : table_inv h) : table_inv (htable_insert h str).1 := by
  rcases insert_cases h str with ⟨_, he⟩ | ⟨c, hc, hb, hfree, he⟩ | ⟨c, hc, hb, hocc, _, he⟩
  · rw [he]; exact hinv
  · rw [he]; exact table_inv_place h str c hinv hcap hc hb hfree
  · rw [he]; exact table_inv_bump h _ hinv (probe_index_lt h str c hcap) hocc

theorem insert_all_append (h : htablerec) (ws : List Word) (w : Word) :
    insert_all h (ws ++ [w]) = (htable_insert (insert_all h ws) w).1 := by
  simp [insert_all, List.foldl_append]

theorem insert_all_capacity (ht : hashing_t) (cap : Nat) (ws : List Word) :
    (insert_all (htable_new ht cap) ws).capacity = cap ∧
      (insert_all (htable_new ht cap) ws).method = ht := by
  induction ws using List.reverseRecOn with
  | nil => exact ⟨rfl, rfl⟩
  | append_singleton ws w ih =>
    rw [insert_all_append]
    have := insert_capacity (insert_all (htable_new ht cap) ws) w
    exact ⟨this.1.trans ih.1, this.2.trans ih.2⟩

theorem table_inv_insert_all (ht : hashing_t) (cap : Nat) (hcap : 0 < cap) (ws : List Word) :
    table_inv (insert_all (htable_new ht cap) ws) := by
  induction ws using List.reverseRecOn with
  | nil => exact table_inv_new ht cap
  | append_singleton ws w ih =>
    rw [insert_all_append]
    refine table_inv_insert _ w ?_ ih
    rw [(insert_all_capacity ht cap ws).1]; exact hcap

/-! ## Stored keys -/

theorem first_hit_unique (P : Nat → Prop) (c d : Nat)
    (hc : ∀ j, j < c → P j) (hnc : ¬ P c) (hd : ∀ j, j < d → P j) (hnd : ¬ P d) : c = d := by
  rcases Nat.lt_trichotomy c d with hlt | heq | hgt
  · exact absurd (hd c hlt) hnc
  · exact heq
  · exact absurd (hc d hgt) hnd

/-- A stored key is the first slot of its own probe walk that does not collide. -/
theorem stored_hit (h : htablerec) (w : Word) (i : Nat) (hp : on_path h)
    (hst : stored h w i) :
    ∃ c, c < h.capacity ∧ probe_index h w c = i ∧
      (∀ j, j < c → blocked h w (probe_index h w j)) ∧
      ¬ blocked h w (probe_index h w c) := by
  obtain ⟨hi, hocc, hk⟩ := hst
  obtain ⟨w', c, hk', hc, hpi, hb⟩ := hp i hi hocc
  have hw : w' = w := by
    rw [hk] at hk'; exact (Option.some.inj hk').symm
  subst hw
  refine ⟨c, hc, hpi, hb, ?_⟩
  rw [hpi]
  exact fun hbl => hbl.2 hk

/-- Searching a stored key returns the frequency of its slot. -/
theorem search_of_stored (h : htablerec) (w : Word) (i : Nat) (hp : on_path h)
    (hst : stored h w i) : htable_search h w = h.freqs.getD i 0 := by
  obtain ⟨c, hc, hpi, hb, hnb⟩ := stored_hit h w i hp hst
  rcases search_cases h w with ⟨hall, _⟩ | ⟨d, _, hbd, hnd, hres⟩
  · exact absurd (hall c hc) hnb
  · have hcd := first_hit_unique (fun j => blocked h w (probe_index h w j)) c d hb hnb hbd hnd
    rw [hres, ← hcd, hpi]

/-- A search that returns a positive value has found the key in a slot. -/
theorem stored_of_search_ne_zero (h : htablerec) (w : Word) (hcap : 0 < h.capacity)
    (hne : htable_search h w ≠ 0) :
    ∃ i, stored h w i ∧ htable_search h w = h.freqs.getD i 0 := by
  rcases search_cases h w with ⟨_, h0⟩ | ⟨d, _, _, hnd, hres⟩
  · exact absurd h0 hne
  · refine ⟨probe_index h w d, ⟨probe_index_lt h w d hcap, ?_, ?_⟩, hres⟩
    · rw [← hres]; exact hne
    · by_contra hk
      exact hnd ⟨by rw [← hres]; exact hne, hk⟩

/-- Searching a key that no slot holds returns 0. -/
theorem search_of_not_stored (h : htablerec) (w : Word) (hcap : 0 < h.capacity)
    (hno : ∀ i, ¬ stored h w i) : htable_search h w = 0 := by
  by_contra hne
  obtain ⟨i, hst, _⟩ := stored_of_search_ne_zero h w hcap hne
  exact hno i hst

/-- Inserting a stored key increments the frequency of its slot. -/
theorem insert_of_stored (h : htablerec) (w : Word) (i : Nat) (hp : on_path h)
    (hst : stored h w i) :
    htable_insert h w = (bump h i, h.freqs.getD i 0 + 1) := by
  obtain ⟨c, hc, hpi, hb, hnb⟩ := stored_hit h w i hp hst
  rcases insert_cases h w with ⟨hall, _⟩ | ⟨d, _, hbd, hfree, _⟩ | ⟨d, _, hbd, hocc, hk, he⟩
  · exact absurd (hall c hc) hnb
  · have hnd : ¬ blocked h w (probe_index h w d) := fun hbl => hbl.1 hfree
    have hcd := first_hit_unique (fun j => blocked h w (probe_index h w j)) c d hb hnb hbd hnd
    rw [← hcd, hpi] at hfree
    exact absurd hfree hst.2.1
  · have hnd : ¬ blocked h w (probe_index h w d) := fun hbl => hbl.2 hk
    have hcd := first_hit_unique (fun j => blocked h w (probe_index h w j)) c d hb hnb hbd hnd
    rw [← hcd, hpi] at he
    exact he

/-- Inserting a key that no slot holds either fails, leaving the table as it
was, or places the key in the first free slot of its probe walk. -/
theorem insert_of_not_stored (h : htablerec) (w : Word) (hcap : 0 < h.capacity)
    (hno : ∀ i, ¬ stored h w i) :
    ((∀ j, j < h.capacity → blocked h w (probe_index h w j)) ∧
        htable_insert h w = (h, 0)) ∨
    (∃ c, c < h.capacity ∧ (∀ j, j < c → blocked h w (probe_index h w j)) ∧
        h.freqs.getD (probe_index h w c) 0 = 0 ∧
        htable_insert h w = (place h w (probe_index h w c) c, 1)) := by
  rcases insert_cases h w with hA | hB | ⟨d, _, _, hocc, hk, _⟩
  · exact Or.inl hA
  · exact Or.inr hB
  · exact absurd ⟨probe_index_lt h w d hcap, hocc, hk⟩ (hno _)

theorem stored_place_self (h : htablerec) (str : Word) (p c : Nat) (hs : well_sized h)
    (hp : p < h.capacity) :
    stored (place h str p c) str p ∧ (place h str p c).freqs.getD p 0 = h.freqs.getD p 0 + 1 := by
  have hlf : p < h.freqs.length := by rw [hs.2.1]; exact hp
  have hlk : p < h.keys.length := by rw [hs.1]; exact hp
  have hf := place_freqs h str p c p hlf
  rw [if_pos rfl] at hf
  have hk := place_keys h str p c p hlk
  rw [if_pos rfl] at hk
  exact ⟨⟨hp, by rw [hf]; exact Nat.succ_ne_zero _, hk⟩, hf⟩

theorem stored_bump (h : htablerec) (w : Word) (p i : Nat) (hs : well_sized h)
    (hp : p < h.capacity) (hst : stored h w i) : stored (bump h p) w i := by
  have hlf : p < h.freqs.length := by rw [hs.2.1]; exact hp
  refine ⟨hst.1, ?_, hst.2.2⟩
  rw [bump_freqs h p i hlf]
  by_cases hi : i = p
  · rw [if_pos hi]; exact Nat.succ_ne_zero _
  · rw [if_neg hi]; exact hst.2.1

theorem new_freqs (ht : hashing_t) (cap i : Nat) (hi : i < cap) :
    (htable_new ht cap).freqs.getD i 0 = 0 :=
  getD_replicate_lt cap i 0 0 hi

theorem not_stored_new (ht : hashing_t) (cap : Nat) (w : Word) (i : Nat) :
    ¬ stored (htable_new ht cap) w i :=
  fun hst => hst.2.1 (new_freqs ht cap i hst.1)

/-- A slot that holds `w` after inserting `x` held `w` before, unless `w = x`. -/
theorem stored_insert_inv (h : htablerec) (x w : Word) (i : Nat) (hs : well_sized h)
    (hcap : 0 < h.capacity) (hst : stored (htable_insert h x).1 w i) :
    w = x ∨ stored h w i := by
  rcases insert_cases h x with ⟨_, he⟩ | ⟨c, _, _, _, he⟩ | ⟨c, _, _, hocc, _, he⟩
  · rw [he] at hst; exact Or.inr hst
  · rw [he] at hst
    have hlt := probe_index_lt h x c hcap
    have hlf : probe_index h x c < h.freqs.length := by rw [hs.2.1]; exact hlt
    have hlk : probe_index h x c < h.keys.length := by rw [hs.1]; exact hlt
    obtain ⟨hi, hf, hk⟩ := hst
    rw [place_freqs h x _ c i hlf] at hf
    rw [place_keys h x _ c i hlk] at hk
    by_cases hip : i = probe_index h x c
    · rw [if_pos hip] at hk
      exact Or.inl (Option.some.inj hk).symm
    · rw [if_neg hip] at hf hk
      exact Or.inr ⟨hi, hf, hk⟩
  · rw [he] at hst
    have hlt := probe_index_lt h x c hcap
    have hlf : probe_index h x c < h.freqs.length := by rw [hs.2.1]; exact hlt
    obtain ⟨hi, hf, hk⟩ := hst
    rw [bump_freqs h _ i hlf] at hf
    by_cases hip : i = probe_index h x c
    · exact Or.inr ⟨hi, by rw [hip]; exact hocc, hk⟩
    · rw [if_neg hip] at hf
      exact Or.inr ⟨hi, hf, hk⟩

/-- Every key held by a table built by `insert_all` is one of the inserted words. -/
theorem stored_mem_inserted (ht : hashing_t) (cap : Nat) (hcap : 0 < cap) (ws : List Word)
    (w : Word) (i : Nat) (hst : stored (insert_all (htable_new ht cap) ws) w i) : w ∈ ws := by
  induction ws using List.reverseRecOn generalizing i with
  | nil => exact absurd hst (not_stored_new ht cap w i)
  | append_singleton ws x ih =>
    rw [insert_all_append] at hst
    have hc : 0 < (insert_all (htable_new ht cap) ws).capacity := by
      rw [(insert_all_capacity ht cap ws).1]; exact hcap
    rcases stored_insert_inv _ x w i (table_inv_insert_all ht cap hcap ws).1 hc hst with
      hwx | hold
    · rw [hwx]; exact List.mem_append_right _ (List.mem_singleton_self x)
    · exact List.mem_append_left _ (ih i hold)

/-- The state after `k + 1` insertions of one key into a new table: the next
insertion returns `k + 1` and leaves the key in a slot of frequency `k + 1`. -/
theorem same_key_state (ht : hashing_t) (cap : Nat) (hcap : 0 < cap) (key : Word) (k : Nat) :
    (htable_insert (insert_all (htable_new ht cap) (List.replicate k key)) key).2 = k + 1 ∧
    ∃ i, stored (htable_insert (insert_all (htable_new ht cap) (List.replicate k key)) key).1
        key i ∧
      (htable_insert (insert_all (htable_new ht cap) (List.replicate k key)) key).1.freqs.getD
        i 0 = k + 1 := by
  induction k with
  | zero =>
    have hnew : insert_all (htable_new ht cap) (List.replicate 0 key) = htable_new ht cap := rfl
    rw [hnew]
    have hc : 0 < (htable_new ht cap).capacity := hcap
    rcases insert_cases (htable_new ht cap) key with
      ⟨hall, _⟩ | ⟨c, _, _, hfree, he⟩ | ⟨c, _, _, hocc, _, _⟩
    · exact absurd (new_freqs ht cap _ (probe_index_lt _ key 0 hc)) (hall 0 hc).1
    · rw [he]
      have hsp := stored_place_self (htable_new ht cap) key
        (probe_index (htable_new ht cap) key c) c (table_inv_new ht cap).1
        (probe_index_lt _ key c hc)
      refine ⟨rfl, _, hsp.1, ?_⟩
      rw [hsp.2, hfree]
    · exact absurd (new_freqs ht cap _ (probe_index_lt _ key c hc)) hocc
  | succ k ih =>
    rw [List.replicate_succ', insert_all_append]
    obtain ⟨_, i, hst, hf⟩ := ih
    have hinv := table_inv_insert_all ht cap hcap (List.replicate k key ++ [key])
    rw [insert_all_append] at hinv
    rw [insert_of_stored _ key i hinv.2.1 hst, hf]
    refine ⟨rfl, i, stored_bump _ key i i hinv.1 hst.1 hst, ?_⟩
    have hlf : i < (htable_insert (insert_all (htable_new ht cap) (List.replicate k key))
        key).1.freqs.length := by
      rw [hinv.1.2.1]; exact hst.1
    rw [bump_freqs _ i i hlf, if_pos rfl, hf]

theorem countP_getD_range (p : Nat → Bool) (l : List Nat) :
    (List.range l.length).countP (fun i => p (l.getD i 0)) = l.countP p := by
  induction l with
  | nil => rfl
  | cons a l ih =>
    rw [List.length_cons, List.range_succ_eq_map, List.countP_cons, List.countP_cons,
      List.countP_map]
    have : ((fun i => p ((a :: l).getD i 0)) ∘ Nat.succ) = fun i => p (l.getD i 0) := by
      funext i; simp [List.getD_cons_succ]
    rw [this, ih]
    simp

/-! ## Coverage of the probe walk -/

theorem surj_of_inj_lt (f : Nat → Nat) (n : Nat) (hlt : ∀ j, j < n → f j < n)
    (hinj : ∀ j k, j < n → k < n → f j = f k → j = k) :
    ∀ i, i < n → ∃ j, j < n ∧ f j = i := by
  intro i hi
  let g : Fin n → Fin n := fun j => ⟨f j.val, hlt j.val j.isLt⟩
  have hg : Function.Injective g := by
    intro a b hab
    have hv : f a.val = f b.val := congrArg Fin.val hab
    exact Fin.ext (hinj a.val b.val a.isLt b.isLt hv)
  obtain ⟨j, hj⟩ := (Finite.injective_iff_surjective.mp hg) ⟨i, hi⟩
  exact ⟨j.val, j.isLt, congrArg Fin.val hj⟩

/-- With a step coprime to the capacity, the first `cap` indices of a probe
walk are pairwise distinct. -/
theorem probe_seq_inj (cap step index : Nat) (hi : index < cap)
    (hco : Nat.Coprime cap step) (j k : Nat) (hj : j < cap) (hk : k < cap)
    (heq : probe_seq cap step index j = probe_seq cap step index k) : j = k := by
  rw [probe_seq_closed cap step j index hi, probe_seq_closed cap step k index hi] at heq
  have h1 : index + j * step ≡ index + k * step [MOD cap] := heq
  have h2 : j * step ≡ k * step [MOD cap] := Nat.ModEq.add_left_cancel' index h1
  have h3 : j ≡ k [MOD cap] := Nat.ModEq.cancel_right_of_coprime hco h2
  have h4 : j % cap = k % cap := h3
  rwa [Nat.mod_eq_of_lt hj, Nat.mod_eq_of_lt hk] at h4

/-- The step is coprime to the capacity for linear probing, and for double
hashing when the capacity is prime. -/
theorem step_coprime (h : htablerec) (i_key : Nat)
    (hcap : (h.method = hashing_t.LINEAR_P ∧ 1 < h.capacity) ∨
      (h.method = hashing_t.DOUBLE_H ∧ Nat.Prime h.capacity)) :
    Nat.Coprime h.capacity (step_of h i_key) := by
  rcases hcap with ⟨hm, _⟩ | ⟨hm, hp⟩
  · have : step_of h i_key = 1 := by
      unfold step_of; rw [hm]; rfl
    rw [this]
    exact Nat.coprime_one_right _
  · have hs : step_of h i_key = 1 + i_key % (h.capacity - 1) := by
      unfold step_of; rw [if_pos hm]; rfl
    have h2 : 2 ≤ h.capacity := hp.two_le
    have hm2 : i_key % (h.capacity - 1) < h.capacity - 1 := Nat.mod_lt _ (by omega)
    rw [Nat.Prime.coprime_iff_not_dvd hp]
    intro hd
    have := Nat.le_of_dvd (by omega) hd
    omega

theorem probe_index_inj (h : htablerec) (str : Word)
    (hcap : (h.method = hashing_t.LINEAR_P ∧ 1 < h.capacity) ∨
      (h.method = hashing_t.DOUBLE_H ∧ Nat.Prime h.capacity))
    (j k : Nat) (hj : j < h.capacity) (hk : k < h.capacity)
    (heq : probe_index h str j = probe_index h str k) : j = k := by
  have hpos : 0 < h.capacity := Nat.lt_of_le_of_lt (Nat.zero_le _) hj
  exact probe_seq_inj h.capacity _ _ (Nat.mod_lt _ hpos) (step_coprime h _ hcap) j k hj hk heq

theorem probe_index_surj (h : htablerec) (str : Word)
    (hcap : (h.method = hashing_t.LINEAR_P ∧ 1 < h.capacity) ∨
      (h.method = hashing_t.DOUBLE_H ∧ Nat.Prime h.capacity))
    (i : Nat) (hi : i < h.capacity) :
    ∃ j, j < h.capacity ∧ probe_index h str j = i := by
  have hpos : 0 < h.capacity := Nat.lt_of_le_of_lt (Nat.zero_le _) hi
  exact surj_of_inj_lt (probe_index h str) h.capacity
    (fun j _ => probe_index_lt h str j hpos) (probe_index_inj h str hcap) i hi

/-- When the probe walk covers the table, `htable_insert` returns 0 exactly when
every slot is occupied by another key. -/
theorem insert_zero_iff_full (h : htablerec) (str : Word)
    (hcap : (h.method = hashing_t.LINEAR_P ∧ 1 < h.capacity) ∨
      (h.method = hashing_t.DOUBLE_H ∧ Nat.Prime h.capacity)) :
    (htable_insert h str).2 = 0 ↔
      ∀ i, i < h.capacity → h.freqs.getD i 0 ≠ 0 ∧ h.keys.getD i none ≠ some str := by
  have hpos : 0 < h.capacity := by
    rcases hcap with ⟨_, h1⟩ | ⟨_, hp⟩
    · omega
    · exact hp.pos
  constructor
  · intro h0 i hi
    obtain ⟨j, hj, hji⟩ := probe_index_surj h str hcap i hi
    rcases insert_cases h str with ⟨hall, _⟩ | ⟨c, _, _, _, he⟩ | ⟨c, _, _, _, _, he⟩
    · have := hall j hj
      rw [hji] at this
      exact this
    · rw [he] at h0; exact absurd h0 Nat.one_ne_zero
    · rw [he] at h0; exact absurd h0 (Nat.succ_ne_zero _)
  · intro hfull
    have hall : ∀ j, j < h.capacity → blocked h str (probe_index h str j) :=
      fun j _ => hfull _ (probe_index_lt h str j hpos)
    rcases insert_cases h str with ⟨_, he⟩ | ⟨c, hc, _, hfree, _⟩ | ⟨c, hc, _, _, hk, _⟩
    · rw [he]
    · exact absurd hfree (hall c hc).1
    · exact absurd hk (hall c hc).2

/-! ## Word counts -/

theorem dedup_length_append_mem (x : Word) (ws : List Word) (hx : x ∈ ws) :
    (ws ++ [x]).dedup.length = ws.dedup.length := by
  rw [← List.card_toFinset, ← List.card_toFinset]
  rw [List.toFinset_append, List.toFinset_cons, List.toFinset_nil, Finset.union_comm,
    Finset.insert_union, Finset.empty_union, Finset.insert_eq_of_mem (List.mem_toFinset.mpr hx)]

theorem dedup_length_append_not_mem (x : Word) (ws : List Word) (hx : x ∉ ws) :
    (ws ++ [x]).dedup.length = ws.dedup.length + 1 := by
  rw [← List.card_toFinset, ← List.card_toFinset]
  rw [List.toFinset_append, List.toFinset_cons, List.toFinset_nil, Finset.union_comm,
    Finset.insert_union, Finset.empty_union,
    Finset.card_insert_of_not_mem (fun hm => hx (List.mem_toFinset.mp hm))]

theorem count_append_other (x w : Word) (ws : List Word) (hw : w ≠ x) :
    (ws ++ [x]).count w = ws.count w := by
  rw [List.count_append, List.count_cons, List.count_nil]
  simp [Ne.symm hw]

theorem count_append_self (x : Word) (ws : List Word) :
    (ws ++ [x]).count x = ws.count x + 1 := by
  rw [List.count_append, List.count_cons, List.count_nil]
  simp

/-- No two slots hold the same key. -/
theorem stored_unique (h : htablerec) (w : Word) (i k : Nat) (hp : on_path h)
    (hi : stored h w i) (hk : stored h w k) : i = k := by
  obtain ⟨c, _, hpi, hb, hnb⟩ := stored_hit h w i hp hi
  obtain ⟨d, _, hpk, hbd, hnd⟩ := stored_hit h w k hp hk
  have hcd := first_hit_unique (fun j => blocked h w (probe_index h w j)) c d hb hnb hbd hnd
  rw [← hpi, ← hpk, hcd]

theorem stored_place_other (h : htablerec) (x w : Word) (p c i : Nat) (hs : well_sized h)
    (hp : p < h.capacity) (hfree : h.freqs.getD p 0 = 0) (hst : stored h w i) :
    stored (place h x p c) w i ∧ (place h x p c).freqs.getD i 0 = h.freqs.getD i 0 := by
  have hlf : p < h.freqs.length := by rw [hs.2.1]; exact hp
  have hlk : p < h.keys.length := by rw [hs.1]; exact hp
  have hne : i ≠ p := by
    intro he; rw [he] at hst; exact hst.2.1 hfree
  have hf := place_freqs h x p c i hlf
  rw [if_neg hne] at hf
  have hk := place_keys h x p c i hlk
  rw [if_neg hne] at hk
  exact ⟨⟨hst.1, by rw [hf]; exact hst.2.1, by rw [hk]; exact hst.2.2⟩, hf⟩

theorem counts_words_new (ht : hashing_t) (cap : Nat) : counts_words (htable_new ht cap) [] :=
  ⟨fun w i hst => absurd hst (not_stored_new ht cap w i),
    fun w hw => absurd hw (List.not_mem_nil w),
    by simp [htable_new, occupied_count, List.countP_replicate]⟩

/-- One more word keeps `counts_words`, as long as the probe walk covers the
table and the distinct words fit in it. -/
theorem counts_words_insert (h : htablerec) (ws : List Word) (x : Word)
    (hcap : (h.method = hashing_t.LINEAR_P ∧ 1 < h.capacity) ∨
      (h.method = hashing_t.DOUBLE_H ∧ Nat.Prime h.capacity))
    (hinv : table_inv h) (hsub : ∀ w i, stored h w i → w ∈ ws)
    (hfit : (ws ++ [x]).dedup.length ≤ h.capacity)
    (hcw : counts_words h ws) : counts_words (htable_insert h x).1 (ws ++ [x]) := by
  obtain ⟨hs, hp, _⟩ := hinv
  obtain ⟨hcnt, hin, hocc⟩ := hcw
  have hpos : 0 < h.capacity := by
    rcases hcap with ⟨_, h1⟩ | ⟨_, hpr⟩
    · omega
    · exact hpr.pos
  by_cases hx : x ∈ ws
  · obtain ⟨i, hst⟩ := hin x hx
    have hlf : i < h.freqs.length := by rw [hs.2.1]; exact hst.1
    rw [insert_of_stored h x i hp hst]
    refine ⟨?_, ?_, ?_⟩
    · intro w k hk
      have hk0 : stored h w k := by
        refine ⟨hk.1, ?_, hk.2.2⟩
        have hf := hk.2.1
        rw [bump_freqs h i k hlf] at hf
        by_cases hki : k = i
        · rw [hki]; exact hst.2.1
        · rw [if_neg hki] at hf; exact hf
      rw [bump_freqs h i k hlf]
      by_cases hki : k = i
      · rw [if_pos hki]
        have hwx : w = x := by
          have h1 := hk0.2.2
          rw [hki, hst.2.2] at h1
          exact (Option.some.inj h1).symm
        rw [hwx, count_append_self, hcnt x i hst]
      · rw [if_neg hki]
        have hwx : w ≠ x := by
          intro he
          rw [he] at hk0
          exact hki (stored_unique h x k i hp hk0 hst)
        rw [count_append_other x w ws hwx, hcnt w k hk0]
    · intro w hw
      have hw' : w ∈ ws := by
        rcases List.mem_append.mp hw with h1 | h1
        · exact h1
        · rw [List.mem_singleton.mp h1]; exact hx
      obtain ⟨k, hk⟩ := hin w hw'
      exact ⟨k, stored_bump h w i k hs hst.1 hk⟩
    · rw [occupied_count_bump h i hlf hst.2.1, dedup_length_append_mem x ws hx]
      exact hocc
  · have hno : ∀ i, ¬ stored h x i := fun i hst => hx (hsub x i hst)
    have hlen := dedup_length_append_not_mem x ws hx
    rcases insert_of_not_stored h x hpos hno with ⟨hall, _⟩ | ⟨c, _, _, hfree, he⟩
    · exfalso
      have hlt : occupied_count h < h.freqs.length := by rw [hs.2.1]; omega
      obtain ⟨p, hpl, hpf⟩ := free_of_occupied_count_lt h hlt
      rw [hs.2.1] at hpl
      obtain ⟨j, hj, hjp⟩ := probe_index_surj h x hcap p hpl
      have := (hall j hj).1
      rw [hjp] at this
      exact this hpf
    · have hplt := probe_index_lt h x c hpos
      have hlf : probe_index h x c < h.freqs.length := by rw [hs.2.1]; exact hplt
      have hlk : probe_index h x c < h.keys.length := by rw [hs.1]; exact hplt
      rw [he]
      refine ⟨?_, ?_, ?_⟩
      · intro w k hk
        by_cases hkp : k = probe_index h x c
        · have hwx : w = x := by
            have h1 := hk.2.2
            rw [place_keys h x _ c k hlk, if_pos hkp] at h1
            exact (Option.some.inj h1).symm
          rw [hwx, hkp, (stored_place_self h x _ c hs hplt).2, hfree, count_append_self,
            List.count_eq_zero_of_not_mem hx]
        · have hk0 : stored h w k := by
            obtain ⟨h1, h2, h3⟩ := hk
            rw [place_freqs h x _ c k hlf, if_neg hkp] at h2
            rw [place_keys h x _ c k hlk, if_neg hkp] at h3
            exact ⟨h1, h2, h3⟩
          have hwx : w ≠ x := fun he => hno k (he ▸ hk0)
          rw [(stored_place_other h x w _ c k hs hplt hfree hk0).2,
            count_append_other x w ws hwx, hcnt w k hk0]
      · intro w hw
        rcases List.mem_append.mp hw with h1 | h1
        · obtain ⟨k, hk⟩ := hin w h1
          exact ⟨k, (stored_place_other h x w _ c k hs hplt hfree hk).1⟩
        · rw [List.mem_singleton.mp h1]
          exact ⟨_, (stored_place_self h x _ c hs hplt).1⟩
      · rw [occupied_count_place h x _ c hlf hfree, hlen]
        omega

theorem counts_words_insert_all (ht : hashing_t) (cap : Nat) (ws : List Word)
    (hcap : (ht = hashing_t.LINEAR_P ∧ 1 < cap) ∨ (ht = hashing_t.DOUBLE_H ∧ Nat.Prime cap))
    (hfit : ws.dedup.length ≤ cap) :
    counts_words (insert_all (htable_new ht cap) ws) ws := by
  have hpos : 0 < cap := by
    rcases hcap with ⟨_, h1⟩ | ⟨_, hpr⟩
    · omega
    · exact hpr.pos
  induction ws using List.reverseRecOn with
  | nil => exact counts_words_new ht cap
  | append_singleton ws x ih =>
    have hle : ws.dedup.length ≤ (ws ++ [x]).dedup.length := by
      by_cases hx : x ∈ ws
      · rw [dedup_length_append_mem x ws hx]
      · rw [dedup_length_append_not_mem x ws hx]; omega
    have hc := insert_all_capacity ht cap ws
    rw [insert_all_append]
    refine counts_words_insert _ ws x ?_ (table_inv_insert_all ht cap hpos ws)
      (fun w i hst => stored_mem_inserted ht cap hpos ws w i hst) ?_ (ih (Nat.le_trans hle hfit))
    · rw [hc.1, hc.2]; exact hcap
    · rw [hc.1]; exact hfit

/-! ## Primes -/

/-- The loop of `is_prime` leaves `flag = 0` exactly when none of the `fuel`
candidates `i, i + 1, ...` divides `n`. -/
theorem is_prime_loop_eq_zero (m : Nat) : ∀ (fuel i : Nat), 0 < i →
    (is_prime_loop (m : Int) fuel (i : Int) = 0 ↔ ∀ k, k < fuel → ¬ (i + k) ∣ m) := by
  intro fuel
  induction fuel with
  | zero => intro i _; simp [is_prime_loop]
  | succ fuel ih =>
    intro i hi
    have hmod : Int.tmod (m : Int) (i : Int) = ((m % i : Nat) : Int) := rfl
    have hnext : ((i : Int) + 1) = ((i + 1 : Nat) : Int) := rfl
    rw [is_prime_loop, hmod, hnext]
    by_cases hd : m % i = 0
    · rw [if_pos (by rw [hd]; rfl)]
      constructor
      · intro h1; exact absurd h1 (by decide)
      · intro hall
        exact absurd (Nat.dvd_of_mod_eq_zero hd) (hall 0 (Nat.succ_pos fuel))
    · rw [if_neg (by intro h0; exact hd (Int.ofNat.inj h0))]
      rw [ih (i + 1) (Nat.succ_pos i)]
      constructor
      · intro hall k hk
        cases k with
        | zero => exact fun hdv => hd (Nat.mod_eq_zero_of_dvd hdv)
        | succ k =>
          have := hall k (Nat.lt_of_succ_lt_succ hk)
          rwa [Nat.add_assoc, Nat.add_comm 1 k] at this
      · intro hall k hk
        have := hall (k + 1) (Nat.succ_lt_succ hk)
        rwa [Nat.add_assoc, Nat.add_comm 1 k]

/-- The function `is_prime` returns 1 exactly when no `d` with `2 ≤ d < n / 2`
divides `n`, and 0 otherwise. -/
theorem is_prime_eq_one_iff (m : Nat) :
    (is_prime (m : Int) = 1 ↔ ∀ d, 2 ≤ d → d < m / 2 → ¬ d ∣ m) ∧
    (is_prime (m : Int) = 0 ∨ is_prime (m : Int) = 1) := by
  have hfuel : (Int.tdiv (m : Int) 2 - 2).toNat = m / 2 - 2 := by
    have : Int.tdiv (m : Int) 2 = ((m / 2 : Nat) : Int) := rfl
    rw [this]
    omega
  have hloop := is_prime_loop_eq_zero m (m / 2 - 2) 2 (by decide)
  have htwo : ((2 : Nat) : Int) = 2 := rfl
  rw [htwo] at hloop
  unfold is_prime
  rw [hfuel]
  by_cases h0 : is_prime_loop (m : Int) (m / 2 - 2) 2 = 0
  · rw [if_pos h0]
    refine ⟨⟨fun _ d hd2 hdm => ?_, fun _ => rfl⟩, Or.inr rfl⟩
    have := hloop.mp h0 (d - 2) (by omega)
    rwa [show 2 + (d - 2) = d by omega] at this
  · rw [if_neg h0]
    refine ⟨⟨fun h1 => absurd h1 (by decide), fun hall => ?_⟩, Or.inl rfl⟩
    exact absurd (hloop.mpr (fun k hk => hall (2 + k) (by omega) (by omega))) h0

/-- Trial division over `2 ≤ d < n / 2` decides primality for every `n ≥ 2`
other than 4. -/
theorem no_small_divisor_iff_prime (m : Nat) (hm : 2 ≤ m) (h4 : m ≠ 4) :
    (∀ d, 2 ≤ d → d < m / 2 → ¬ d ∣ m) ↔ Nat.Prime m := by
  constructor
  · intro hall
    rw [Nat.prime_def_lt']
    refine ⟨hm, fun d hd2 hdm hdvd => ?_⟩
    obtain ⟨e, he⟩ := hdvd
    by_cases hsmall : d < m / 2
    · exact hall d hd2 hsmall ⟨e, he⟩
    · have he2 : 2 ≤ e := by
        rcases e with _ | _ | e
        · omega
        · omega
        · omega
      have he3 : e < 3 := by
        by_contra hge
        have h3 : d * 3 ≤ d * e := Nat.mul_le_mul_left d (by omega)
        omega
      have hed : e = 2 := by omega
      subst hed
      have hd3 : 2 < d := by
        by_contra hle
        have : d = 2 := by omega
        subst this
        omega
      exact hall 2 (le_refl 2) (by omega) ⟨d, by rw [he, Nat.mul_comm]⟩
  · intro hp d hd2 hdm hdvd
    rcases (Nat.dvd_prime hp).mp hdvd with h1 | h1
    · omega
    · have := Nat.div_le_self m 2
      omega

/-- For every `n ≥ 2` other than 4, `is_prime` returns 1 if `n` is prime and 0
if it is not. -/
theorem is_prime_correct_except_four (m : Nat) (hm : 2 ≤ m) (h4 : m ≠ 4) :
    (Nat.Prime m → is_prime (m : Int) = 1) ∧ (¬ Nat.Prime m → is_prime (m : Int) = 0) := by
  obtain ⟨hiff, hor⟩ := is_prime_eq_one_iff m
  rw [no_small_divisor_iff_prime m hm h4] at hiff
  refine ⟨hiff.mpr, fun hnp => ?_⟩
  rcases hor with h0 | h1
  · exact h0
  · exact absurd (hiff.mp h1) hnp

/-- The loop of `gen_prime` returns the first candidate that `is_prime` accepts. -/
theorem gen_prime_run (k : Nat) : ∀ (n : Int),
    (∀ j : Nat, j < k → is_prime (n + j) = 0) → is_prime (n + k) ≠ 0 →
    gen_prime (k + 1) n = some (n + k) := by
  induction k with
  | zero =>
    intro n _ hk
    have hk' : is_prime n ≠ 0 := by simpa using hk
    rw [gen_prime, if_neg hk']
    simp
  | succ k ih =>
    intro n hall hk
    have h0 : is_prime n = 0 := by simpa using hall 0 (Nat.succ_pos k)
    rw [gen_prime, if_pos h0]
    have hshift : ∀ j : Nat, n + 1 + (j : Int) = n + ((j + 1 : Nat) : Int) := by
      intro j; push_cast; ring
    rw [ih (n + 1) (fun j hj => by rw [hshift]; exact hall (j + 1) (Nat.succ_lt_succ hj))
      (by rw [hshift]; exact hk)]
    rw [hshift]

/-- More fuel does not change a result of `gen_prime`. -/
theorem gen_prime_fuel_mono (fuel : Nat) : ∀ (n p : Int) (extra : Nat),
    gen_prime fuel n = some p → gen_prime (fuel + extra) n = some p := by
  induction fuel with
  | zero => intro n p extra h; exact absurd h (by simp [gen_prime])
  | succ fuel ih =>
    intro n p extra h
    rw [Nat.add_right_comm, gen_prime]
    rw [gen_prime] at h
    by_cases h0 : is_prime n = 0
    · rw [if_pos h0] at h ⊢
      exact ih (n + 1) p extra h
    · rw [if_neg h0] at h ⊢
      exact h

/-- For every `n ≥ 2` other than 4, `gen_prime` ends and returns the smallest
prime `p ≥ n`. -/
theorem gen_prime_correct_except_four (n : Nat) (hn : 2 ≤ n) (h4 : n ≠ 4) :
    ∃ p : Nat, Nat.Prime p ∧ n ≤ p ∧ (∀ q, Nat.Prime q → n ≤ q → p ≤ q) ∧
      ∀ extra, gen_prime (p - n + 1 + extra) (n : Int) = some (p : Int) := by
  have hex := Nat.exists_infinite_primes n
  have hspec := Nat.find_spec hex
  have hmin : ∀ q, Nat.Prime q → n ≤ q → Nat.find hex ≤ q :=
    fun q hq hnq => Nat.find_min' hex ⟨hnq, hq⟩
  refine ⟨Nat.find hex, hspec.2, hspec.1, hmin, fun extra => ?_⟩
  apply gen_prime_fuel_mono
  have hp4 : Nat.find hex ≠ 4 := by
    intro h; have := hspec.2; rw [h] at this; exact absurd this (by decide)
  have hlast : is_prime ((n : Int) + ((Nat.find hex - n : Nat) : Int)) ≠ 0 := by
    have hcast : (n : Int) + ((Nat.find hex - n : Nat) : Int) = ((Nat.find hex : Nat) : Int) := by
      have := hspec.1; omega
    rw [hcast, (is_prime_correct_except_four _ hspec.2.two_le hp4).1 hspec.2]
    decide
  have hbefore : ∀ j : Nat, j < Nat.find hex - n → is_prime ((n : Int) + (j : Int)) = 0 := by
    intro j hj
    have hnp : ¬ Nat.Prime (n + j) := fun hpr => by
      have := hmin (n + j) hpr (Nat.le_add_right n j); omega
    have hn5 : 5 ≤ n := by
      by_contra hlt
      have hcases : n = 2 ∨ n = 3 := by omega
      have hpn : Nat.Prime n := by
        rcases hcases with h | h <;> rw [h] <;> decide
      have := hmin n hpn (le_refl n)
      omega
    have hcast : (n : Int) + (j : Int) = ((n + j : Nat) : Int) := by push_cast; rfl
    rw [hcast]
    exact (is_prime_correct_except_four (n + j) (by omega) (by omega)).2 hnp
  have hrun := gen_prime_run (Nat.find hex - n) (n : Int) hbefore hlast
  rw [hrun]
  congr 1
  have := hspec.1
  omega

/-! ## A table of capacity 2 -/

theorem step_of_capacity_two (h : htablerec) (hc : h.capacity = 2) (i_key : Nat) :
    step_of h i_key = 1 := by
  unfold step_of htable_step
  rw [hc]
  by_cases hm : h.method = hashing_t.DOUBLE_H
  · rw [if_pos hm]; simp [Nat.mod_one]
  · rw [if_neg hm]

/-- The table after inserting two distinct keys with the same home index into a
new table of capacity 2. -/
theorem same_home_table (ht : hashing_t) (x y : Word) (hxy : x ≠ y)
    (hhome : htable_word_to_int x % 2 = htable_word_to_int y % 2) :
    insert_all (htable_new ht 2) [x, y] =
      place (place (htable_new ht 2) x (htable_word_to_int x % 2) 0) y
        ((htable_word_to_int x % 2 + 1) % 2) 1 := by
  have hp : htable_word_to_int x % 2 = 0 ∨ htable_word_to_int x % 2 = 1 := by omega
  have h1 : htable_insert (htable_new ht 2) x =
      (place (htable_new ht 2) x (htable_word_to_int x % 2) 0, 1) := by
    show insert_loop (htable_new ht 2) x _ 2 (htable_word_to_int x % 2) 0 = _
    rw [insert_loop, if_pos (new_freqs ht 2 _ (by omega))]
  have h2 : htable_insert (place (htable_new ht 2) x (htable_word_to_int x % 2) 0) y =
      (place (place (htable_new ht 2) x (htable_word_to_int x % 2) 0) y
        ((htable_word_to_int x % 2 + 1) % 2) 1, 1) := by
    show insert_loop _ y (step_of _ _) 2 (htable_word_to_int y % 2) 0 = _
    rw [step_of_capacity_two _ rfl, ← hhome]
    have hne : some x ≠ some y := fun h => hxy (Option.some.inj h)
    rcases hp with hp | hp <;> rw [hp] <;>
      simp [insert_loop, place, htable_new, hne]
  show (htable_insert (htable_insert (htable_new ht 2) x).1 y).1 = _
  rw [h1, h2]

/-! ## The options of main -/

/-- For a negative `n` the loop of `is_prime` does not run and `is_prime`
returns 1. -/
theorem is_prime_of_neg (n : Int) (hn : n < 0) : is_prime n = 1 := by
  have hfuel : (Int.tdiv n 2 - 2).toNat = 0 := by
    have h1 : Int.tdiv n 2 ≤ 0 := by
      obtain ⟨m, rfl⟩ : ∃ m : Int, n = -m := ⟨-n, by omega⟩
      rw [Int.neg_tdiv]
      have : 0 ≤ Int.tdiv m 2 := Int.tdiv_nonneg (by omega) (by decide)
      omega
    omega
  unfold is_prime
  rw [hfuel]
  rfl

/-- With `-t n` for a negative `n`, `main` hands `n` itself to `htable_new`. -/
theorem main_tablesize_negative (n : Int) (hn : n < 0) (fuel : Nat) :
    main_tablesize (fuel + 1) (parse_options [cli_option.t (some n)]) = some n := by
  have hflags : parse_options [cli_option.t (some n)] =
      { initial_flags with t := 1, tablesize := n } := rfl
  rw [hflags]
  unfold main_tablesize
  simp only [ne_eq, not_true_eq_false, if_false, true_and]
  by_cases h1 : n = -1
  · rw [if_neg (not_not.mpr h1)]
  · rw [if_pos h1, if_neg (by omega), gen_prime, if_neg (by rw [is_prime_of_neg n hn]; decide)]
    simp

/-- With `-t n` for `n ≥ 0`, `main` hands 2 (for `n ≤ 1`) or the result of
`gen_prime(n)` to `htable_new`, a value above 1. -/
theorem main_tablesize_nonneg (n : Nat) :
    ∃ fuel c, main_tablesize fuel (parse_options [cli_option.t (some (n : Int))]) = some c ∧
      1 < c ∧ (n ≤ 1 → c = 2) ∧ (2 ≤ n → gen_prime fuel (n : Int) = some c) := by
  have hform : ∀ fuel, main_tablesize fuel (parse_options [cli_option.t (some (n : Int))]) =
      if (n : Int) = 1 ∨ (n : Int) = 0 then some 2 else gen_prime fuel (n : Int) := by
    intro fuel
    have hflags : parse_options [cli_option.t (some (n : Int))] =
        { initial_flags with t := 1, tablesize := (n : Int) } := rfl
    rw [hflags]
    unfold main_tablesize
    simp only [ne_eq, not_true_eq_false, if_false, true_and]
    rw [if_pos (by omega)]
  by_cases hle : n ≤ 1
  · refine ⟨1, 2, ?_, by decide, fun _ => rfl, fun h2 => by omega⟩
    rw [hform, if_pos (by omega)]
  · by_cases h4 : n = 4
    · subst h4
      exact ⟨1, 4, rfl, by decide, fun h => by omega, fun _ => rfl⟩
    · obtain ⟨p, _, hnp, _, hrun⟩ := gen_prime_correct_except_four n (by omega) h4
      refine ⟨p - n + 1 + 0, (p : Int), ?_, by omega, fun h => by omega, fun _ => hrun 0⟩
      rw [hform, if_neg (by omega)]
      exact hrun 0

/-- The call `htable_print(h, stdout)` is made exactly when `-e` is given and
`-p` is not. -/
theorem frequencies_reported_iff (f : main_flags) :
    report.frequencies ∈ main_reports f ↔ f.e = 1 ∧ f.p = 0 := by
  unfold main_reports
  split_ifs <;> simp_all

/-! ## Checked array accesses -/

/-- In a table that satisfies `on_path`, an occupied slot has a key. -/
theorem key_present_of_occupied (h : htablerec) (hp : on_path h) (i : Nat)
    (hi : i < h.capacity) (hocc : h.freqs.getD i 0 ≠ 0) : h.keys.getD i none ≠ none := by
  obtain ⟨w, _, hk, _⟩ := hp i hi hocc
  rw [hk]
  exact Option.some_ne_none w

/-- On a table that satisfies the invariant, whose frequencies are below
`INT_MAX` and whose probe walk stays at or below `INT_MAX`, no access of the
loop of `htable_insert` is out of bounds, no sum overflows, and the checked
loop computes what the loop computes. -/
theorem insert_loop_checked_eq (h : htablerec) (str : Word) (step : Nat)
    (hinv : table_inv h) (hcap : 0 < h.capacity)
    (hwalk : ∀ i, i < h.capacity → i + step ≤ INT_MAX)
    (hfreq : ∀ i, i < h.capacity → h.keys.getD i none = some str →
      h.freqs.getD i 0 + 1 ≤ INT_MAX) :
    ∀ (fuel index coll : Nat), index < h.capacity →
      insert_loop_checked h str step fuel index coll =
        some (insert_loop h str step fuel index coll) := by
  obtain ⟨hs, hp, hn⟩ := hinv
  intro fuel
  induction fuel with
  | zero => intro index coll _; rfl
  | succ fuel ih =>
    intro index coll hi
    rw [insert_loop_checked, insert_loop, if_pos hi]
    by_cases hf : h.freqs.getD index 0 = 0
    · have hnk : h.num_keys < h.capacity := by
        have hlf : index < h.freqs.length := by rw [hs.2.1]; exact hi
        have := occupied_count_lt_of_free h index hlf hf
        rw [hs.2.1] at this
        rw [hn]; exact this
      rw [if_pos hf, if_pos hf, if_pos hnk]
    · rw [if_neg hf, if_neg hf, if_neg (key_present_of_occupied h hp index hi hf)]
      by_cases hk : h.keys.getD index none = some str
      · rw [if_pos hk, if_pos hk, if_pos (hfreq index hi hk)]
      · rw [if_neg hk, if_neg hk, if_pos (hwalk index hi)]
        exact ih _ _ (Nat.mod_lt _ hcap)

/-- The same for the loop of `htable_search`. -/
theorem search_loop_checked_eq (h : htablerec) (str : Word) (step : Nat)
    (hinv : table_inv h) (hcap : 0 < h.capacity)
    (hwalk : ∀ i, i < h.capacity → i + step ≤ INT_MAX) :
    ∀ (fuel index coll : Nat), index < h.capacity →
      search_loop_checked h str step fuel index coll =
          some (search_loop h str step fuel index coll) ∧
        (search_loop h str step fuel index coll).1 < h.capacity := by
  obtain ⟨_, hp, _⟩ := hinv
  intro fuel
  induction fuel with
  | zero =>
    intro index coll hi
    rw [search_loop_checked, search_loop, if_pos hi]
    exact ⟨rfl, hi⟩
  | succ fuel ih =>
    intro index coll hi
    rw [search_loop_checked, search_loop, if_pos hi]
    by_cases hf : h.freqs.getD index 0 ≠ 0
    · rw [if_pos hf, if_pos hf, if_neg (key_present_of_occupied h hp index hi hf)]
      by_cases hk : h.keys.getD index none = some str
      · rw [if_pos hk, if_pos hk]
        exact ⟨rfl, hi⟩
      · rw [if_neg hk, if_neg hk, if_pos (hwalk index hi)]
        exact ih _ _ (Nat.mod_lt _ hcap)
    · rw [if_neg hf, if_neg hf]
      exact ⟨rfl, hi⟩

theorem htable_insert_checked_eq (h : htablerec) (str : Word)
    (hinv : table_inv h) (hcap : 0 < h.capacity)
    (hwalk : ∀ i, i < h.capacity → i + step_of h (htable_word_to_int str) ≤ INT_MAX)
    (hfreq : ∀ i, i < h.capacity → h.keys.getD i none = some str →
      h.freqs.getD i 0 + 1 ≤ INT_MAX) :
    htable_insert_checked h str = some (htable_insert h str) :=
  insert_loop_checked_eq h str _ hinv hcap hwalk hfreq _ _ _ (Nat.mod_lt _ hcap)

theorem htable_search_checked_eq (h : htablerec) (str : Word)
    (hinv : table_inv h) (hcap : 0 < h.capacity)
    (hwalk : ∀ i, i < h.capacity → i + step_of h (htable_word_to_int str) ≤ INT_MAX) :
    htable_search_checked h str = some (htable_search h str) := by
  have hrun := search_loop_checked_eq h str (step_of h (htable_word_to_int str)) hinv hcap
    hwalk h.capacity (htable_word_to_int str % h.capacity) 0 (Nat.mod_lt _ hcap)
  unfold htable_search_checked htable_search
  simp only [hrun.1]
  by_cases hge : (search_loop h str (step_of h (htable_word_to_int str)) h.capacity
      (htable_word_to_int str % h.capacity) 0).2 ≥ h.capacity
  · rw [if_pos hge, if_pos hge]
  · rw [if_neg hge, if_neg hge, if_pos hrun.2]

/-! ## The statistics report -/

/-- The loop of `print_stats_line` counts the zero entries, takes the maximum
and sums the log entries `i, i + 1, ..., i + fuel - 1`. -/
theorem stats_loop_eq (h : htablerec) : ∀ (fuel i a m : Nat) (s : ℚ),
    stats_loop h fuel i (a, m, s) =
      (a + ((List.range' i fuel).map (fun k => h.stats.getD k 0)).count 0,
        max m (((List.range' i fuel).map (fun k => h.stats.getD k 0)).foldr max 0),
        s + ((((List.range' i fuel).map (fun k => h.stats.getD k 0)).sum : Nat) : ℚ)) := by
  intro fuel
  induction fuel with
  | zero => intro i a m s; simp [stats_loop]
  | succ fuel ih =>
    intro i a m s
    rw [stats_loop, ih, List.range'_succ, List.map_cons, List.count_cons, List.foldr_cons,
      List.sum_cons]
    refine Prod.ext ?_ (Prod.ext ?_ ?_)
    · show _ = _
      by_cases h0 : h.stats.getD i 0 = 0
      · simp only [h0, if_true, beq_self_eq_true]; omega
      · have hb : (h.stats.getD i 0 == 0) = false := by simpa using h0
        simp only [h0, hb, if_false, Bool.false_eq_true]; omega
    · show _ = _
      by_cases hgt : h.stats.getD i 0 > m
      · simp only [hgt, if_true]
        rw [← Nat.max_assoc, Nat.max_eq_right (Nat.le_of_lt hgt)]
      · simp only [hgt, if_false]
        rw [← Nat.max_assoc, Nat.max_eq_left (Nat.le_of_not_gt hgt)]
    · show _ = _
      push_cast
      ring

theorem stats_loop_log_first (h : htablerec) (n : Nat) :
    stats_loop h n 0 (0, 0, 0) =
      ((log_first h n).count 0, (log_first h n).foldr max 0,
        (((log_first h n).sum : Nat) : ℚ)) := by
  rw [stats_loop_eq, log_first, List.range_eq_range']
  simp

/-- The line printed by `print_stats_line` for snapshot `i` of `N` is the line
of the specification. -/
theorem print_stats_line_eq_spec (h : htablerec) (N i : Nat) :
    print_stats_line h (100 * i / N) = spec_stats_line h N i := by
  unfold print_stats_line spec_stats_line
  simp only [stats_loop_log_first]
  by_cases hc : h.capacity * (100 * i / N) / 100 > 0 ∧
      h.capacity * (100 * i / N) / 100 ≤ h.num_keys
  · rw [if_pos hc, if_pos hc]
    congr 2
    ring
  · rw [if_neg hc, if_neg hc]

theorem htable_print_stats_eq_spec (h : htablerec) (N : Nat) :
    htable_print_stats h N = spec_print_stats h N := by
  unfold htable_print_stats spec_print_stats
  congr 1
  funext i
  exact print_stats_line_eq_spec h N i

/-- The maximum of a list of naturals, by `foldr max 0`, bounds every entry
and, for a non-empty list, is one of the entries. -/
theorem foldr_max_spec (l : List Nat) :
    (∀ x, x ∈ l → x ≤ l.foldr max 0) ∧ (l ≠ [] → l.foldr max 0 ∈ l) := by
  induction l with
  | nil => exact ⟨fun x hx => absurd hx (List.not_mem_nil x), fun hne => absurd rfl hne⟩
  | cons a l ih =>
    rw [List.foldr_cons]
    constructor
    · intro x hx
      rcases List.mem_cons.mp hx with hxa | hxl
      · rw [hxa]; exact Nat.le_max_left _ _
      · exact Nat.le_trans (ih.1 x hxl) (Nat.le_max_right _ _)
    · intro _
      by_cases hl : l = []
      · subst hl
        simp
      · rcases Nat.le_total a (l.foldr max 0) with hle | hle
        · rw [Nat.max_eq_right hle]
          exact List.mem_cons_of_mem _ (ih.2 hl)
        · rw [Nat.max_eq_left hle]
          exact List.mem_cons_self _ _

theorem log_first_eq_take (h : htablerec) (n : Nat) (hn : n ≤ h.stats.length) :
    log_first h n = h.stats.take n := by
  apply List.ext_getElem
  · simp [log_first, hn]
  · intro i h1 h2
    simp only [log_first, List.length_map, List.length_range] at h1
    simp [log_first, List.getD_eq_getElem?_getD, List.getElem?_eq_getElem (Nat.lt_of_lt_of_le h1 hn)]

/-- On a full table the snapshot with `percentFull = 100` is printed, with the
statistics over all `capacity` log entries. -/
theorem spec_stats_line_full (h : htablerec) (N : Nat) (hN : 1 ≤ N) (hcap : 0 < h.capacity)
    (hfull : h.num_keys = h.capacity) :
    spec_stats_line h N N = some
      { percent_full := 100
        current_entries := h.capacity
        percent_at_home :=
          100 * ((log_first h h.capacity).count 0 : ℚ) / (h.capacity : ℚ)
        average_collisions := ((log_first h h.capacity).sum : ℚ) / (h.capacity : ℚ)
        max_collisions := (log_first h h.capacity).foldr max 0 } := by
  have h100 : 100 * N / N = 100 := Nat.mul_div_cancel 100 hN
  have hce : h.capacity * 100 / 100 = h.capacity := Nat.mul_div_cancel _ (by decide)
  unfold spec_stats_line
  simp only [h100, hce]
  rw [if_pos ⟨hcap, by rw [hfull]⟩]

/-- A line is printed by `print_stats_line` exactly when `current_entries` lies
in `(0, num_keys]`. -/
theorem print_stats_line_isSome (h : htablerec) (percent_full : Nat) :
    (print_stats_line h percent_full).isSome = true ↔
      0 < h.capacity * percent_full / 100 ∧ h.capacity * percent_full / 100 ≤ h.num_keys := by
  unfold print_stats_line
  by_cases hc : h.capacity * percent_full / 100 > 0 ∧
      h.capacity * percent_full / 100 ≤ h.num_keys
  · rw [if_pos hc]
    exact ⟨fun _ => hc, fun _ => rfl⟩
  · rw [if_neg hc]
    exact ⟨fun hf => absurd hf (by decide), fun hh => absurd hh hc⟩

/-! ## The tokenizer -/

theorem ofNat_upper_add_isLower (n : Nat) (h1 : 65 ≤ n) (h2 : n ≤ 90) :
    (Char.ofNat (n + 32)).isLower = true := by
  interval_cases n <;> rfl

/-- The lower case of an alphanumeric character is a lower-case letter or a
digit. -/
theorem tolower_lower_or_digit (c : Char) (hc : isalnum c = true) :
    (tolower c).isLower = true ∨ (tolower c).isDigit = true := by
  unfold tolower Char.toLower
  unfold isalnum at hc
  by_cases hu : c.toNat ≥ 65 ∧ c.toNat ≤ 90
  · simp only [hu, and_self, if_true]
    exact Or.inl (ofNat_upper_add_isLower c.toNat hu.1 hu.2)
  · simp only [hu, if_false]
    simp only [Char.isAlphanum, Char.isAlpha, Char.isUpper, Bool.or_eq_true, Bool.and_eq_true,
      decide_eq_true_eq] at hc
    rcases hc with (hc | hc) | hc
    · exfalso
      apply hu
      have h1 : (65 : UInt32) ≤ c.val := hc.1
      have h2 : c.val ≤ (90 : UInt32) := hc.2
      rw [UInt32.le_def] at h1 h2
      exact ⟨h1, h2⟩
    · exact Or.inl hc
    · exact Or.inr hc

/-- The second loop of `getword` appends the lower case of the first
`limit - 1` alphanumeric characters of the run of alphanumeric characters and
apostrophes that starts the stream. -/
theorem getword_loop_word : ∀ (cs : List Char) (limit : Int) (w : List Char),
    (getword_loop cs limit w).1 =
      w ++ ((((cs.takeWhile (fun c => isalnum c || decide (c = apostrophe))).filter
        isalnum).take (limit - 1).toNat).map tolower) := by
  intro cs
  induction cs with
  | nil => intro limit w; simp [getword_loop]
  | cons c cs ih =>
    intro limit w
    rw [getword_loop]
    by_cases hl : limit - 1 > 0
    · rw [if_pos hl]
      by_cases ha : isalnum c = true
      · rw [if_pos ha, ih]
        obtain ⟨k, hk⟩ : ∃ k : Nat, (limit - 1).toNat = k + 1 := ⟨(limit - 1).toNat - 1, by omega⟩
        have hk' : (limit - 1 - 1).toNat = k := by omega
        rw [hk, hk', List.takeWhile_cons, if_pos (by simp [ha]), List.filter_cons, if_pos ha,
          List.take_succ_cons, List.map_cons]
        simp
      · rw [if_neg ha]
        by_cases hq : c = apostrophe
        · rw [if_pos hq, ih]
          have hlim : (limit - 1 + 1 - 1) = limit - 1 := by omega
          rw [hlim, List.takeWhile_cons, if_pos (by simp [hq]), List.filter_cons, if_neg ha]
        · rw [if_neg hq, List.takeWhile_cons, if_neg (by simp [ha, hq])]
          simp
    · rw [if_neg hl]
      have h0 : (limit - 1).toNat = 0 := by omega
      rw [h0]
      simp

/-- The first loop of `getword` stops at the first alphanumeric character. -/
theorem skip_to_alnum_spec : ∀ (stream : List Char),
    (skip_to_alnum stream = none ∧ stream.dropWhile (fun c => !isalnum c) = []) ∨
    (∃ c cs, skip_to_alnum stream = some (c, cs) ∧ isalnum c = true ∧
      stream.dropWhile (fun c => !isalnum c) = c :: cs) := by
  intro stream
  induction stream with
  | nil => exact Or.inl ⟨rfl, rfl⟩
  | cons c cs ih =>
    rw [skip_to_alnum, List.dropWhile_cons]
    by_cases ha : isalnum c = true
    · rw [if_pos ha, if_neg (by simp [ha])]
      exact Or.inr ⟨c, cs, rfl, ha, rfl⟩
    · rw [if_neg ha, if_pos (by simp [ha])]
      exact ih

/-- A call of `getword` with `limit ≥ 2` that meets an alphanumeric character
leaves the token of the specification and returns its length. -/
theorem getword_eq_spec (s stream : List Char) (limit : Int) (hlimit : 2 ≤ limit)
    (c : Char) (cs : List Char) (hskip : skip_to_alnum stream = some (c, cs))
    (ha : isalnum c = true) (hdrop : stream.dropWhile (fun c => !isalnum c) = c :: cs) :
    (getword s limit stream).word = spec_token limit.toNat stream ∧
    (getword s limit stream).value = ((getword s limit stream).word.length : Int) ∧
    (getword s limit stream).word =
      tolower c :: ((((cs.takeWhile (fun c => isalnum c || decide (c = apostrophe))).filter
        isalnum).take (limit.toNat - 2)).map tolower) := by
  have hw : (getword s limit stream).word =
      (getword_loop cs (limit - 1) (if limit - 1 > 0 then [tolower c] else [])).1 := by
    unfold getword; rw [hskip]
  have hv : (getword s limit stream).value =
      (((getword_loop cs (limit - 1) (if limit - 1 > 0 then [tolower c] else [])).1.length :
        Nat) : Int) := by
    unfold getword; rw [hskip]
  have hform : (getword s limit stream).word =
      tolower c :: ((((cs.takeWhile (fun c => isalnum c || decide (c = apostrophe))).filter
        isalnum).take (limit.toNat - 2)).map tolower) := by
    rw [hw, getword_loop_word, if_pos (by omega)]
    have hk : (limit - 1 - 1).toNat = limit.toNat - 2 := by omega
    rw [hk]
    rfl
  refine ⟨?_, by rw [hv, hw], hform⟩
  rw [hform]
  unfold spec_token
  obtain ⟨k, hk⟩ : ∃ k : Nat, limit.toNat - 1 = k + 1 := ⟨limit.toNat - 2, by omega⟩
  have hk' : limit.toNat - 2 = k := by omega
  rw [hdrop, hk, hk', List.takeWhile_cons, if_pos (by simp [ha]), List.filter_cons, if_pos ha,
    List.take_succ_cons, List.map_cons]

/-! ## The frequency dump -/

/-- In a table that satisfies `on_path`, two occupied slots with equal keys are
the same slot. -/
theorem occupied_keys_inj (h : htablerec) (hp : on_path h) (i k : Nat)
    (hi : i < h.capacity) (hk : k < h.capacity)
    (hoi : 0 < h.freqs.getD i 0) (hok : 0 < h.freqs.getD k 0)
    (heq : h.keys.getD i none = h.keys.getD k none) : i = k := by
  have hni : h.freqs.getD i 0 ≠ 0 := Nat.pos_iff_ne_zero.mp hoi
  have hnk : h.freqs.getD k 0 ≠ 0 := Nat.pos_iff_ne_zero.mp hok
  obtain ⟨w, _, hw, _⟩ := hp i hi hni
  exact stored_unique h w i k hp ⟨hi, hni, hw⟩ ⟨hk, hnk, by rw [← heq]; exact hw⟩

theorem htable_print_keys (h : htablerec) :
    (htable_print h).map Prod.snd =
      (List.range h.capacity).filterMap
        (fun i => if h.freqs.getD i 0 > 0 then some (h.keys.getD i none) else none) := by
  unfold htable_print
  rw [List.map_filterMap]
  congr 1
  funext i
  by_cases hf : h.freqs.getD i 0 > 0
  · rw [if_pos hf, if_pos hf]; rfl
  · rw [if_neg hf, if_neg hf]; rfl

/-- A word is among the keys printed by `htable_print` exactly when a slot
holds it. -/
theorem mem_htable_print_keys (h : htablerec) (w : Word) :
    some w ∈ (htable_print h).map Prod.snd ↔ ∃ i, stored h w i := by
  rw [htable_print_keys, List.mem_filterMap]
  constructor
  · rintro ⟨i, hi, hres⟩
    by_cases hf : h.freqs.getD i 0 > 0
    · rw [if_pos hf] at hres
      exact ⟨i, List.mem_range.mp hi, Nat.pos_iff_ne_zero.mp hf, Option.some.inj hres⟩
    · rw [if_neg hf] at hres
      exact absurd hres (by simp)
  · rintro ⟨i, hi, hf, hk⟩
    refine ⟨i, List.mem_range.mpr hi, ?_⟩
    rw [if_pos (Nat.pos_iff_ne_zero.mpr hf), hk]

/-- In a table that satisfies the invariant, the keys printed by `htable_print`
are pairwise distinct. -/
theorem htable_print_keys_nodup (h : htablerec) (hinv : table_inv h) :
    ((htable_print h).map Prod.snd).Nodup := by
  obtain ⟨hs, hp, _⟩ := hinv
  rw [htable_print_keys]
  refine List.Nodup.filterMap ?_ (List.nodup_range h.capacity)
  intro i k b hbi hbk
  have hocc : ∀ j, b ∈ (if h.freqs.getD j 0 > 0 then some (h.keys.getD j none) else none) →
      j < h.capacity ∧ 0 < h.freqs.getD j 0 ∧ h.keys.getD j none = b := by
    intro j hj
    by_cases hf : h.freqs.getD j 0 > 0
    · rw [if_pos hf] at hj
      refine ⟨?_, hf, Option.some.inj hj⟩
      by_contra hge
      have hlen : h.freqs.length ≤ j := by rw [hs.2.1]; omega
      have h0 : h.freqs.getD j 0 = 0 := by
        rw [List.getD_eq_getElem?_getD, List.getElem?_eq_none hlen]; rfl
      omega
    · rw [if_neg hf] at hj
      exact absurd hj (by simp)
  obtain ⟨hi, hoi, hki⟩ := hocc i hbi
  obtain ⟨hk, hok, hkk⟩ := hocc k hbk
  exact occupied_keys_inj h hp i k hi hk hoi hok (hki.trans hkk.symm)

/-! ## The range of int -/

/-- The step of a probe walk is below the capacity. -/
theorem step_of_lt (h : htablerec) (i_key : Nat) (hcap : 1 < h.capacity) :
    step_of h i_key < h.capacity := by
  unfold step_of htable_step
  split_ifs
  · have := Nat.mod_lt i_key (show 0 < h.capacity - 1 by omega)
    omega
  · exact hcap

/-- The step of double hashing. -/
theorem step_of_double (h : htablerec) (i_key : Nat) (hm : h.method = hashing_t.DOUBLE_H) :
    step_of h i_key = 1 + i_key % (h.capacity - 1) := by
  unfold step_of htable_step
  rw [if_pos hm]

/-- With linear probing in a capacity below `2 ^ 31`, and with either strategy
in a capacity of at most `2 ^ 30`, the sum `index + step` of the probe walk is
at most `INT_MAX`. -/
theorem walk_fits (h : htablerec) (i_key : Nat) (hcap : 1 < h.capacity)
    (hrange : (h.method = hashing_t.LINEAR_P ∧ h.capacity < 2 ^ 31) ∨
      2 * h.capacity ≤ 2 ^ 31) :
    ∀ i, i < h.capacity → i + step_of h i_key ≤ INT_MAX := by
  intro i hi
  unfold INT_MAX
  rcases hrange with ⟨hm, hlt⟩ | hle
  · have hs : step_of h i_key = 1 := by
      unfold step_of
      rw [if_neg (by rw [hm]; decide)]
    rw [hs]
    norm_num at hlt
    omega
  · have := step_of_lt h i_key hcap
    norm_num at hle
    omega

/-- The frequency of a stored key is at most the number of its insertions. -/
theorem freq_le_count (ht : hashing_t) (cap : Nat) (hcap : 0 < cap) (ws : List Word)
    (w : Word) (i : Nat) (hst : stored (insert_all (htable_new ht cap) ws) w i) :
    (insert_all (htable_new ht cap) ws).freqs.getD i 0 ≤ ws.count w := by
  induction ws using List.reverseRecOn generalizing i with
  | nil => exact absurd hst (not_stored_new ht cap w i)
  | append_singleton ws x ih =>
    rw [insert_all_append] at hst ⊢
    have hc : 0 < (insert_all (htable_new ht cap) ws).capacity := by
      rw [(insert_all_capacity ht cap ws).1]; exact hcap
    have hs := (table_inv_insert_all ht cap hcap ws).1
    rw [List.count_append]
    generalize insert_all (htable_new ht cap) ws = T at hst hc hs ih ⊢
    rcases insert_cases T x with ⟨_, he⟩ | ⟨c, _, _, hfree, he⟩ | ⟨c, _, _, hocc, hkey, he⟩
    · rw [he] at hst ⊢
      exact le_trans (ih i hst) (Nat.le_add_right _ _)
    · rw [he] at hst ⊢
      have hlt := probe_index_lt T x c hc
      have hlf : probe_index T x c < T.freqs.length := by rw [hs.2.1]; exact hlt
      have hlk : probe_index T x c < T.keys.length := by rw [hs.1]; exact hlt
      obtain ⟨hi, hf, hk⟩ := hst
      rw [place_freqs T x _ c i hlf] at hf ⊢
      rw [place_keys T x _ c i hlk] at hk
      by_cases hip : i = probe_index T x c
      · rw [if_pos hip] at hk ⊢
        have hxw : x = w := Option.some.inj hk
        rw [hfree, hxw]
        simp
      · rw [if_neg hip] at hf hk ⊢
        exact le_trans (ih i ⟨hi, hf, hk⟩) (Nat.le_add_right _ _)
    · rw [he] at hst ⊢
      have hlt := probe_index_lt T x c hc
      have hlf : probe_index T x c < T.freqs.length := by rw [hs.2.1]; exact hlt
      obtain ⟨hi, hf, hk⟩ := hst
      rw [bump_freqs T _ i hlf] at hf ⊢
      by_cases hip : i = probe_index T x c
      · rw [if_pos hip]
        have hk2 : T.keys.getD i none = some w := hk
        rw [hip] at hk2
        have hxw : x = w := Option.some.inj (hkey.symm.trans hk2)
        have hold := ih (probe_index T x c) ⟨hlt, hocc, hk2⟩
        have hone : List.count w [x] = 1 := by rw [hxw]; simp
        rw [hone]
        exact Nat.succ_le_succ hold
      · rw [if_neg hip] at hf ⊢
        exact le_trans (ih i ⟨hi, hf, hk⟩) (Nat.le_add_right _ _)

/-- A call of `htable_insert` on a table built from a new one is free of
overflow when the capacity is in the range of `walk_fits` and the inserted
word, this call included, has fewer than `2 ^ 31` insertions. -/
theorem insert_checked_reachable (ht : hashing_t) (cap : Nat) (ws : List Word) (str : Word)
    (hcap : 1 < cap)
    (hrange : (ht = hashing_t.LINEAR_P ∧ cap < 2 ^ 31) ∨ 2 * cap ≤ 2 ^ 31)
    (hcount : (ws ++ [str]).count str < 2 ^ 31) :
    htable_insert_checked (insert_all (htable_new ht cap) ws) str =
      some (htable_insert (insert_all (htable_new ht cap) ws) str) := by
  have hc := (insert_all_capacity ht cap ws).1
  have hm := (insert_all_capacity ht cap ws).2
  have hinv := table_inv_insert_all ht cap (by omega) ws
  refine htable_insert_checked_eq _ str hinv (by rw [hc]; omega)
    (walk_fits _ _ (by rw [hc]; exact hcap) (by rw [hc, hm]; exact hrange)) ?_
  intro i hi hk
  unfold INT_MAX
  by_cases hf : (insert_all (htable_new ht cap) ws).freqs.getD i 0 = 0
  · rw [hf]; norm_num
  · have hle := freq_le_count ht cap (by omega) ws str i ⟨hi, hf, hk⟩
    rw [List.count_append] at hcount
    simp at hcount
    omega

/-- A call of `htable_search` on a table built from a new one is free of
overflow when the capacity is in the range of `walk_fits`. -/
theorem search_checked_reachable (ht : hashing_t) (cap : Nat) (ws : List Word) (str : Word)
    (hcap : 1 < cap)
    (hrange : (ht = hashing_t.LINEAR_P ∧ cap < 2 ^ 31) ∨ 2 * cap ≤ 2 ^ 31) :
    htable_search_checked (insert_all (htable_new ht cap) ws) str =
      some (htable_search (insert_all (htable_new ht cap) ws) str) := by
  have hc := (insert_all_capacity ht cap ws).1
  have hm := (insert_all_capacity ht cap ws).2
  have hinv := table_inv_insert_all ht cap (by omega) ws
  exact htable_search_checked_eq _ str hinv (by rw [hc]; omega)
    (walk_fits _ _ (by rw [hc]; exact hcap) (by rw [hc, hm]; exact hrange))

theorem insert_all_checked_append (h : htablerec) (ws : List Word) (w : Word) :
    insert_all_checked h (ws ++ [w]) =
      (insert_all_checked h ws).bind (fun u => (htable_insert_checked u w).map Prod.fst) := by
  unfold insert_all_checked
  rw [List.foldl_append]
  rfl

/-- A run of insertions from a new table is free of overflow when the capacity
is in the range of `walk_fits` and no word is inserted `2 ^ 31` times. -/
theorem insert_all_checked_eq (ht : hashing_t) (cap : Nat) (ws : List Word)
    (hcap : 1 < cap)
    (hrange : (ht = hashing_t.LINEAR_P ∧ cap < 2 ^ 31) ∨ 2 * cap ≤ 2 ^ 31)
    (hcount : ∀ w, ws.count w < 2 ^ 31) :
    insert_all_checked (htable_new ht cap) ws = some (insert_all (htable_new ht cap) ws) := by
  induction ws using List.reverseRecOn with
  | nil => rfl
  | append_singleton ws x ih =>
    have hpre : ∀ w, ws.count w < 2 ^ 31 := by
      intro w
      have := hcount w
      rw [List.count_append] at this
      omega
    rw [insert_all_checked_append, ih hpre, insert_all_append, Option.some_bind,
      insert_checked_reachable ht cap ws x hcap hrange (hcount x)]
    rfl

/-- The checked loop of `htable_insert`, when it has a result, has the result
of the loop, and the returned value is an `int`. -/
theorem insert_loop_checked_sound (h : htablerec) (str : Word) (step : Nat) :
    ∀ (fuel index coll : Nat) (r : htablerec × Nat),
      insert_loop_checked h str step fuel index coll = some r →
      insert_loop h str step fuel index coll = r ∧ r.2 ≤ INT_MAX := by
  intro fuel
  induction fuel with
  | zero =>
    intro index coll r hr
    rw [insert_loop_checked] at hr
    rw [insert_loop, ← Option.some.inj hr]
    exact ⟨rfl, Nat.zero_le _⟩
  | succ fuel ih =>
    intro index coll r hr
    rw [insert_loop_checked] at hr
    rw [insert_loop]
    split_ifs at hr with h1 h2 h3 h4 h5 h6 h7
    · rw [if_pos h2, ← Option.some.inj hr]
      exact ⟨rfl, by unfold INT_MAX; norm_num⟩
    · rw [if_neg h2, if_pos h5, ← Option.some.inj hr]
      exact ⟨rfl, h6⟩
    · rw [if_neg h2, if_neg h5]
      exact ih _ _ r hr

theorem htable_insert_checked_sound (h : htablerec) (str : Word) (r : htablerec × Nat)
    (hr : htable_insert_checked h str = some r) :
    htable_insert h str = r ∧ r.2 ≤ INT_MAX :=
  insert_loop_checked_sound h str _ _ _ _ r hr

theorem insert_all_checked_sound (h : htablerec) (ws : List Word) (t : htablerec)
    (ht : insert_all_checked h ws = some t) : insert_all h ws = t := by
  induction ws using List.reverseRecOn generalizing t with
  | nil =>
    exact Option.some.inj ht
  | append_singleton ws x ih =>
    rw [insert_all_checked_append] at ht
    rw [insert_all_append]
    cases hpre : insert_all_checked h ws with
    | none => rw [hpre] at ht; exact absurd ht (by simp)
    | some u =>
      rw [hpre, Option.some_bind] at ht
      rw [ih u hpre]
      cases hins : htable_insert_checked u x with
      | none => rw [hins] at ht; exact absurd ht (by simp)
      | some r =>
        rw [hins] at ht
        rw [(htable_insert_checked_sound u x r hins).1]
        exact Option.some.inj ht

/-- A call of `htable_insert` whose result in the naturals is above `INT_MAX`
overflows. -/
theorem insert_checked_none_of_gt (h : htablerec) (str : Word)
    (hgt : INT_MAX < (htable_insert h str).2) : htable_insert_checked h str = none := by
  cases hr : htable_insert_checked h str with
  | none => rfl
  | some r =>
    have := htable_insert_checked_sound h str r hr
    rw [this.1] at hgt
    omega

/-- A list shorter than `2 ^ 31` has fewer than `2 ^ 31` copies of any word. -/
theorem count_lt_of_length (ws : List Word) (hlen : ws.length < 2 ^ 31) :
    ∀ w, ws.count w < 2 ^ 31 :=
  fun w => lt_of_le_of_lt (List.count_le_length w ws) hlen

/-- Every frequency of a table built from a new one is an `int` when no word
is inserted `2 ^ 31` times. -/
theorem freqs_in_range (ht : hashing_t) (cap : Nat) (hcap : 0 < cap) (ws : List Word)
    (hcount : ∀ w, ws.count w < 2 ^ 31) :
    ∀ i, i < cap → (insert_all (htable_new ht cap) ws).freqs.getD i 0 ≤ INT_MAX := by
  intro i hi
  have hc := (insert_all_capacity ht cap ws).1
  by_cases hf : (insert_all (htable_new ht cap) ws).freqs.getD i 0 = 0
  · rw [hf]; exact Nat.zero_le _
  · obtain ⟨w, _, hk, _⟩ := (table_inv_insert_all ht cap hcap ws).2.1 i (by rw [hc]; exact hi) hf
    have hle := freq_le_count ht cap hcap ws w i ⟨by rw [hc]; exact hi, hf, hk⟩
    have := hcount w
    unfold INT_MAX
    norm_num at this
    omega

/-- A new table takes its first key at the home slot of the key, without a
collision. -/
theorem insert_new (ht : hashing_t) (cap : Nat) (x : Word) (hcap : 0 < cap) :
    htable_insert (htable_new ht cap) x =
        (place (htable_new ht cap) x (htable_word_to_int x % cap) 0, 1) ∧
      htable_insert_checked (htable_new ht cap) x =
        some (place (htable_new ht cap) x (htable_word_to_int x % cap) 0, 1) := by
  obtain ⟨n, rfl⟩ : ∃ n, cap = n + 1 := ⟨cap - 1, by omega⟩
  have hlt : htable_word_to_int x % (n + 1) < n + 1 := Nat.mod_lt _ hcap
  have hfree := new_freqs ht (n + 1) _ hlt
  constructor
  · show insert_loop (htable_new ht (n + 1)) x _ (n + 1) (htable_word_to_int x % (n + 1)) 0 = _
    rw [insert_loop, if_pos hfree]
  · show insert_loop_checked (htable_new ht (n + 1)) x _ (n + 1)
      (htable_word_to_int x % (n + 1)) 0 = _
    rw [insert_loop_checked, if_pos (show _ < (htable_new ht (n + 1)).capacity from hlt),
      if_pos hfree, if_pos (show (htable_new ht (n + 1)).num_keys <
        (htable_new ht (n + 1)).capacity from hcap)]

/-- The probe walk overflows: in a table that holds the single key `x`, a call
for another key `y` with the same home slot computes `index + step` at that
slot; when the sum is above `INT_MAX`, neither `htable_insert` nor
`htable_search` has a defined result. -/
theorem walk_overflow (ht : hashing_t) (cap : Nat) (x y : Word) (hcap : 0 < cap)
    (hxy : x ≠ y)
    (hhome : htable_word_to_int x % cap = htable_word_to_int y % cap)
    (hsum : INT_MAX <
      htable_word_to_int y % cap + step_of (htable_new ht cap) (htable_word_to_int y)) :
    insert_all_checked (htable_new ht cap) [x] = some (insert_all (htable_new ht cap) [x]) ∧
      htable_insert_checked (insert_all (htable_new ht cap) [x]) y = none ∧
      htable_search_checked (insert_all (htable_new ht cap) [x]) y = none := by
  obtain ⟨hins, hchk⟩ := insert_new ht cap x hcap
  have hT : insert_all (htable_new ht cap) [x] =
      place (htable_new ht cap) x (htable_word_to_int x % cap) 0 := by
    show (htable_insert (htable_new ht cap) x).1 = _
    rw [hins]
  have hrun : insert_all_checked (htable_new ht cap) [x] =
      some (insert_all (htable_new ht cap) [x]) := by
    show (Option.bind (some (htable_new ht cap)) (fun u =>
      (htable_insert_checked u x).map Prod.fst)) = _
    rw [Option.some_bind, hchk, hT]
    rfl
  refine ⟨hrun, ?_, ?_⟩
  all_goals
    rw [hT, hhome]
    obtain ⟨n, rfl⟩ : ∃ n, cap = n + 1 := ⟨cap - 1, by omega⟩
    have hlt : htable_word_to_int y % (n + 1) < n + 1 := Nat.mod_lt _ hcap
    have hlf : htable_word_to_int y % (n + 1) < (htable_new ht (n + 1)).freqs.length := by
      simp [htable_new, hlt]
    have hlk : htable_word_to_int y % (n + 1) < (htable_new ht (n + 1)).keys.length := by
      simp [htable_new, hlt]
    have hf : (place (htable_new ht (n + 1)) x (htable_word_to_int y % (n + 1)) 0).freqs.getD
        (htable_word_to_int y % (n + 1)) 0 ≠ 0 := by
      rw [place_freqs _ x _ 0 _ hlf, if_pos rfl]
      exact Nat.succ_ne_zero _
    have hk : (place (htable_new ht (n + 1)) x (htable_word_to_int y % (n + 1)) 0).keys.getD
        (htable_word_to_int y % (n + 1)) none = some x := by
      rw [place_keys _ x _ 0 _ hlk, if_pos rfl]
    have hltc : htable_word_to_int y % (n + 1) <
        (place (htable_new ht (n + 1)) x (htable_word_to_int y % (n + 1)) 0).capacity := hlt
    have hover : ¬ htable_word_to_int y % (n + 1) +
        step_of (place (htable_new ht (n + 1)) x (htable_word_to_int y % (n + 1)) 0)
          (htable_word_to_int y) ≤ INT_MAX := by
      have : step_of (place (htable_new ht (n + 1)) x (htable_word_to_int y % (n + 1)) 0)
          (htable_word_to_int y) = step_of (htable_new ht (n + 1)) (htable_word_to_int y) := rfl
      rw [this]
      omega
  · show insert_loop_checked _ y _ (n + 1) (htable_word_to_int y % (n + 1)) 0 = none
    rw [insert_loop_checked, if_pos hltc, if_neg hf,
      if_neg (by rw [hk]; exact Option.some_ne_none x),
      if_neg (by rw [hk]; exact fun e => hxy (Option.some.inj e)), if_neg hover]
  · have hloop : search_loop_checked
        (place (htable_new ht (n + 1)) x (htable_word_to_int y % (n + 1)) 0) y
        (step_of (place (htable_new ht (n + 1)) x (htable_word_to_int y % (n + 1)) 0)
          (htable_word_to_int y)) (n + 1) (htable_word_to_int y % (n + 1)) 0 = none := by
      rw [search_loop_checked, if_pos hltc, if_pos hf,
        if_neg (by rw [hk]; exact Option.some_ne_none x),
        if_neg (by rw [hk]; exact fun e => hxy (Option.some.inj e)), if_neg hover]
    show (match search_loop_checked _ y _ (n + 1) (htable_word_to_int y % (n + 1)) 0 with
      | none => none
      | some r => _) = none
    rw [hloop]

/-- The run of `k` insertions of one key, for `k` up to `INT_MAX`: no call
overflows, a search then finds the count `k`, and the next insertion has a
defined result, `k + 1`, exactly when `k < INT_MAX`. -/
theorem same_key_checked (ht : hashing_t) (cap : Nat) (key : Word) (k : Nat)
    (hcap : 1 < cap)
    (hrange : (ht = hashing_t.LINEAR_P ∧ cap < 2 ^ 31) ∨ 2 * cap ≤ 2 ^ 31)
    (hk : k ≤ INT_MAX) :
    insert_all_checked (htable_new ht cap) (List.replicate k key) =
        some (insert_all (htable_new ht cap) (List.replicate k key)) ∧
      htable_search_checked (insert_all (htable_new ht cap) (List.replicate k key)) key =
        some k ∧
      (k < INT_MAX →
        htable_insert_checked (insert_all (htable_new ht cap) (List.replicate k key)) key =
          some (htable_insert (insert_all (htable_new ht cap) (List.replicate k key)) key)) ∧
      (k = INT_MAX →
        htable_insert_checked (insert_all (htable_new ht cap) (List.replicate k key)) key =
          none) := by
  have hcnt : ∀ w, (List.replicate k key).count w ≤ k := by
    intro w
    have := List.count_le_length w (List.replicate k key)
    rwa [List.length_replicate] at this
  have hpos : 0 < cap := by omega
  refine ⟨?_, ?_, ?_, ?_⟩
  · refine insert_all_checked_eq ht cap _ hcap hrange ?_
    intro w
    have := hcnt w
    unfold INT_MAX at hk
    norm_num
    omega
  · rw [search_checked_reachable ht cap _ key hcap hrange]
    congr 1
    cases k with
    | zero =>
      exact search_of_not_stored _ key (by rw [(insert_all_capacity ht cap _).1]; exact hpos)
        (fun i => not_stored_new ht cap key i)
    | succ k =>
      obtain ⟨_, i, hst, hfr⟩ := same_key_state ht cap hpos key k
      rw [List.replicate_succ', insert_all_append,
        search_of_stored _ key i (table_inv_insert _ key
          (by rw [(insert_all_capacity ht cap _).1]; exact hpos)
          (table_inv_insert_all ht cap hpos _)).2.1 hst, hfr]
  · intro hlt
    refine insert_checked_reachable ht cap _ key hcap hrange ?_
    have := hcnt key
    rw [List.count_append]
    unfold INT_MAX at hlt
    simp
    omega
  · intro he
    refine insert_checked_none_of_gt _ key ?_
    rw [(same_key_state ht cap hpos key k).1, he]
    exact Nat.lt_succ_self _

/-- A run that inserts one key more than `INT_MAX` times overflows. -/
theorem replicate_overflow (ht : hashing_t) (cap : Nat) (key : Word) (hcap : 1 < cap)
    (hrange : (ht = hashing_t.LINEAR_P ∧ cap < 2 ^ 31) ∨ 2 * cap ≤ 2 ^ 31) :
    ∀ k, INT_MAX ≤ k →
      insert_all_checked (htable_new ht cap) (List.replicate (k + 1) key) = none := by
  intro k hk
  induction k, hk using Nat.le_induction with
  | base =>
    obtain ⟨hrun, _, _, hnone⟩ := same_key_checked ht cap key INT_MAX hcap hrange le_rfl
    rw [List.replicate_succ', insert_all_checked_append, hrun, Option.some_bind, hnone rfl]
    rfl
  | succ k _ ih =>
    rw [List.replicate_succ', insert_all_checked_append, ih]
    rfl

/-- Trial division is sound: no candidate of the block divides `p`. -/
theorem no_divisor_sound (p : Nat) : ∀ (k lo : Nat), no_divisor p lo k = true →
    ∀ m, lo ≤ m → m < lo + 2 ^ k → ¬ m ∣ p := by
  intro k
  induction k with
  | zero =>
    intro lo h m h1 h2 hd
    have : m = lo := by simp at h2; omega
    subst this
    simp [no_divisor] at h
    exact h (Nat.mod_eq_zero_of_dvd hd)
  | succ k ih =>
    intro lo h m h1 h2
    simp only [no_divisor, Bool.and_eq_true] at h
    by_cases hm : m < lo + 2 ^ k
    · exact ih lo h.1 m h1 hm
    · refine ih (lo + 2 ^ k) h.2 m (by omega) ?_
      rw [pow_succ] at h2; omega

/-- The capacity 1610612741 is a prime: no number from 2 to 40961 divides it,
and `40962 * 40962` is above it. -/
theorem prime_1610612741 : Nat.Prime 1610612741 := by
  rw [Nat.prime_def_le_sqrt]
  refine ⟨by norm_num, ?_⟩
  intro m hm1 hm2
  have hs : Nat.sqrt 1610612741 < 40962 := by
    rw [Nat.sqrt_lt']; norm_num
  have h1 : no_divisor 1610612741 2 15 = true := by decide
  have h2 : no_divisor 1610612741 32770 13 = true := by decide
  by_cases hm : m < 32770
  · exact no_divisor_sound 1610612741 15 2 h1 m hm1 (by norm_num; omega)
  · exact no_divisor_sound 1610612741 13 32770 h2 m (by omega) (by norm_num; omega)

/-- The two six-letter keys of the overflow examples have the same hash. -/
theorem hash_aaaaan :
    htable_word_to_int ['a', 'a', 'a', 'a', 'a', 'n'] = 2869595245 ∧
      htable_word_to_int ['a', 'a', 'a', 'a', 'c', '0'] = 2869595245 := by
  decide

/-- In a double-hashing table of capacity 1610612741 that holds the key
`aaaaan`, a call for the key `aaaac0` starts at the same slot 1258982504 with
step 1258982506; the sum 2517965010 is above `INT_MAX`. -/
theorem walk_overflow_example :
    insert_all_checked (htable_new hashing_t.DOUBLE_H 1610612741)
        [['a', 'a', 'a', 'a', 'a', 'n']] =
      some (insert_all (htable_new hashing_t.DOUBLE_H 1610612741)
        [['a', 'a', 'a', 'a', 'a', 'n']]) ∧
    htable_insert_checked (insert_all (htable_new hashing_t.DOUBLE_H 1610612741)
        [['a', 'a', 'a', 'a', 'a', 'n']]) ['a', 'a', 'a', 'a', 'c', '0'] = none ∧
    htable_search_checked (insert_all (htable_new hashing_t.DOUBLE_H 1610612741)
        [['a', 'a', 'a', 'a', 'a', 'n']]) ['a', 'a', 'a', 'a', 'c', '0'] = none := by
  refine walk_overflow hashing_t.DOUBLE_H 1610612741 _ _ (by norm_num) (by decide) ?_ ?_
  · rw [hash_aaaaan.1, hash_aaaaan.2]
  · rw [hash_aaaaan.2]
    unfold step_of htable_step INT_MAX
    rw [if_pos (show (htable_new hashing_t.DOUBLE_H 1610612741).method = hashing_t.DOUBLE_H
      from rfl)]
    show 2147483647 < 2869595245 % 1610612741 + (1 + 2869595245 % (1610612741 - 1))
    norm_num

/-! ## The range of int in the statistics and the exit of main -/

/-- Within the range of `int` the checked loop of `htable_print_stats` prints
the lines of `print_stats_line` for `i, i + 1, ..., i + fuel - 1`. -/
theorem print_stats_loop_checked_eq (h : htablerec) (N : Nat) (hN : 100 * N ≤ INT_MAX)
    (hcap : h.capacity * 100 ≤ INT_MAX) :
    ∀ (fuel i : Nat), i + fuel ≤ N + 1 →
      print_stats_loop_checked h N fuel i =
        some ((List.range' i fuel).filterMap (fun i => print_stats_line h (100 * i / N))) := by
  intro fuel
  induction fuel with
  | zero => intro i _; rfl
  | succ fuel ih =>
    intro i hi
    have h1 : 100 * i ≤ INT_MAX := le_trans (Nat.mul_le_mul_left 100 (by omega)) hN
    have h2 : h.capacity * (100 * i / N) ≤ INT_MAX := by
      refine le_trans (Nat.mul_le_mul_left _ ?_) hcap
      apply Nat.div_le_of_le_mul
      rw [Nat.mul_comm N 100]
      exact Nat.mul_le_mul_left 100 (by omega)
    rw [print_stats_loop_checked, if_pos h1, print_stats_line_checked, if_pos h2,
      ih (i + 1) (by omega), List.range'_succ, List.filterMap_cons]
    cases print_stats_line h (100 * i / N) <;> rfl

/-- Within the range of `int` no product of `htable_print_stats` overflows. -/
theorem htable_print_stats_checked_eq (h : htablerec) (N : Nat) (hN : 100 * N ≤ INT_MAX)
    (hcap : h.capacity * 100 ≤ INT_MAX) :
    htable_print_stats_checked h N = some (htable_print_stats h N) :=
  print_stats_loop_checked_eq h N hN hcap N 1 (by omega)

/-- The loop of `htable_print_stats` overflows when it reaches an `i` with
`100 * i` above `INT_MAX`. -/
theorem print_stats_loop_checked_overflow (h : htablerec) (N : Nat) :
    ∀ (fuel i j : Nat), j < fuel → INT_MAX < 100 * (i + j) →
      print_stats_loop_checked h N fuel i = none := by
  intro fuel
  induction fuel with
  | zero => intro i j hj; omega
  | succ fuel ih =>
    intro i j hj hover
    rw [print_stats_loop_checked]
    by_cases h1 : 100 * i ≤ INT_MAX
    · rw [if_pos h1]
      have hj0 : j ≠ 0 := by
        intro h0
        rw [h0] at hover
        omega
      have hrest := ih (i + 1) (j - 1) (by omega)
        (by rw [show i + 1 + (j - 1) = i + j by omega]; exact hover)
      rw [hrest]
      cases print_stats_line_checked h (100 * i / N) <;> rfl
    · rw [if_neg h1]

/-- When `main` reports, the capacity handed to `htable_new` was positive and
the calls are those of the reporting block. -/
theorem main_run_some (fuel : Nat) (f : main_flags) (calls : List report)
    (hrun : main_run fuel f = some calls) :
    calls = main_reports f ∧ ∃ c, main_tablesize fuel f = some c ∧ 0 < c := by
  unfold main_run at hrun
  cases hsize : main_tablesize fuel f with
  | none => rw [hsize] at hrun; exact absurd hrun (by simp)
  | some c =>
    rw [hsize] at hrun
    by_cases hpos : 0 < c
    · simp only [if_pos hpos] at hrun
      exact ⟨(Option.some.inj hrun).symm, c, rfl, hpos⟩
    · simp only [if_neg hpos] at hrun
      exact absurd hrun (by simp)

theorem main_run_of_positive (fuel : Nat) (f : main_flags) (c : Int)
    (hsize : main_tablesize fuel f = some c) (hpos : 0 < c) :
    main_run fuel f = some (main_reports f) := by
  unfold main_run
  rw [hsize]
  exact if_pos hpos

/-- With the snapshot count 0 the first test of the reporting block fails. -/
theorem stats_reports_of_zero (f : main_flags) (h0 : f.snapshot = 0) :
    (f.p = 1 → ∀ n, report.stats n ∈ main_reports f ↔ n = DEFAULT_SNAPSHOT) ∧
    (f.p ≠ 1 → ∀ n, report.stats n ∉ main_reports f) := by
  have hfirst : ¬ (f.s = 1 ∧ f.snapshot ≠ 0 ∧ f.p = 1) := fun h => h.2.1 h0
  constructor
  · intro hp n
    unfold main_reports
    rw [if_neg hfirst, if_pos hp]
    by_cases he : f.e = 1
    · rw [if_pos he, if_neg (by omega)]
      simp
    · rw [if_neg he]
      simp
  · intro hp n
    unfold main_reports
    rw [if_neg hfirst, if_neg hp]
    by_cases he : f.e = 1
    · rw [if_pos he]
      by_cases hp0 : f.p = 0
      · rw [if_pos hp0]; simp
      · rw [if_neg hp0]; simp
    · rw [if_neg he]
      simp

/-! ## The claims -/

/-- Claim C1 fails as stated: double hashing, the prime capacity 1610612741 and
the two words `aaaaan`, `aaaac0`.  Both hash to 2869595245, so the second
insertion meets the first key at slot 1258982504 and computes `index + step` =
1258982504 + 1258982506, which is above `INT_MAX`: the run of the insertions has
no defined result, and no table to search. -/
theorem word_counting_walk_overflow :
    Nat.Prime 1610612741 ∧
    ([['a', 'a', 'a', 'a', 'a', 'n'], ['a', 'a', 'a', 'a', 'c', '0']] : List Word).dedup.length
      ≤ 1610612741 ∧
    insert_all_checked (htable_new hashing_t.DOUBLE_H 1610612741)
      [['a', 'a', 'a', 'a', 'a', 'n'], ['a', 'a', 'a', 'a', 'c', '0']] = none := by
  refine ⟨prime_1610612741, by decide, ?_⟩
  obtain ⟨hrun, hins, _⟩ := walk_overflow_example
  rw [show ([['a', 'a', 'a', 'a', 'a', 'n'], ['a', 'a', 'a', 'a', 'c', '0']] : List Word) =
    [['a', 'a', 'a', 'a', 'a', 'n']] ++ [['a', 'a', 'a', 'a', 'c', '0']] from rfl,
    insert_all_checked_append, hrun, Option.some_bind, hins]
  rfl

/-- Claim C1 as amended: word counting is correct within the range of `int`.
For linear probing with a capacity above 1 and below `2 ^ 31`, or double hashing
with a prime capacity of at most `2 ^ 30`, and a list with at most `capacity`
distinct words in which no word occurs `2 ^ 31` times: inserting every word of
the list into a table made by `htable_new` overflows nowhere, and
`htable_search` of any string then returns its number of occurrences in the
list (0 for a string that is not in the list), also without overflow. -/
theorem word_counting_correct (ht : hashing_t) (cap : Nat) (ws : List Word) (w : Word)
    (hcap : (ht = hashing_t.LINEAR_P ∧ 1 < cap ∧ cap < 2 ^ 31) ∨
      (ht = hashing_t.DOUBLE_H ∧ Nat.Prime cap ∧ 2 * cap ≤ 2 ^ 31))
    (hfit : ws.dedup.length ≤ cap) (hcount : ∀ v, ws.count v < 2 ^ 31) :
    insert_all_checked (htable_new ht cap) ws = some (insert_all (htable_new ht cap) ws) ∧
    htable_search_checked (insert_all (htable_new ht cap) ws) w = some (ws.count w) ∧
    htable_search (insert_all (htable_new ht cap) ws) w = ws.count w := by
  have hone : 1 < cap := by
    rcases hcap with ⟨_, h1, _⟩ | ⟨_, hpr, _⟩
    · exact h1
    · exact hpr.one_lt
  have hpos : 0 < cap := by omega
  have hrange : (ht = hashing_t.LINEAR_P ∧ cap < 2 ^ 31) ∨ 2 * cap ≤ 2 ^ 31 := by
    rcases hcap with ⟨hl, _, h2⟩ | ⟨_, _, h2⟩
    · exact Or.inl ⟨hl, h2⟩
    · exact Or.inr h2
  have hcap' : (ht = hashing_t.LINEAR_P ∧ 1 < cap) ∨
      (ht = hashing_t.DOUBLE_H ∧ Nat.Prime cap) := by
    rcases hcap with ⟨hl, h1, _⟩ | ⟨hd, hpr, _⟩
    · exact Or.inl ⟨hl, h1⟩
    · exact Or.inr ⟨hd, hpr⟩
  have hsearch : htable_search (insert_all (htable_new ht cap) ws) w = ws.count w := by
    obtain ⟨hcnt, hin, _⟩ := counts_words_insert_all ht cap ws hcap' hfit
    have hinv := table_inv_insert_all ht cap hpos ws
    by_cases hw : w ∈ ws
    · obtain ⟨i, hst⟩ := hin w hw
      rw [search_of_stored _ w i hinv.2.1 hst, hcnt w i hst]
    · rw [List.count_eq_zero_of_not_mem hw]
      refine search_of_not_stored _ w ?_ ?_
      · rw [(insert_all_capacity ht cap ws).1]; exact hpos
      · exact fun i hst => hw (stored_mem_inserted ht cap hpos ws w i hst)
  refine ⟨insert_all_checked_eq ht cap ws hone hrange hcount, ?_, hsearch⟩
  rw [search_checked_reachable ht cap ws w hone hrange, hsearch]

/-- An instance of `word_counting_correct`: double hashing, capacity 5, the words
`the cat the`. -/
theorem word_counting_correct_witness :
    ((hashing_t.DOUBLE_H = hashing_t.LINEAR_P ∧ 1 < 5 ∧ 5 < 2 ^ 31) ∨
      (hashing_t.DOUBLE_H = hashing_t.DOUBLE_H ∧ Nat.Prime 5 ∧ 2 * 5 ≤ 2 ^ 31)) ∧
    ([['t', 'h', 'e'], ['c', 'a', 't'], ['t', 'h', 'e']] : List Word).dedup.length ≤ 5 ∧
    (∀ v, ([['t', 'h', 'e'], ['c', 'a', 't'], ['t', 'h', 'e']] : List Word).count v < 2 ^ 31) ∧
    (insert_all_checked (htable_new hashing_t.DOUBLE_H 5)
        [['t', 'h', 'e'], ['c', 'a', 't'], ['t', 'h', 'e']] =
      some (insert_all (htable_new hashing_t.DOUBLE_H 5)
        [['t', 'h', 'e'], ['c', 'a', 't'], ['t', 'h', 'e']]) ∧
    htable_search_checked (insert_all (htable_new hashing_t.DOUBLE_H 5)
        [['t', 'h', 'e'], ['c', 'a', 't'], ['t', 'h', 'e']]) ['t', 'h', 'e'] =
      some (([['t', 'h', 'e'], ['c', 'a', 't'], ['t', 'h', 'e']] : List Word).count
        ['t', 'h', 'e']) ∧
    htable_search (insert_all (htable_new hashing_t.DOUBLE_H 5)
        [['t', 'h', 'e'], ['c', 'a', 't'], ['t', 'h', 'e']]) ['t', 'h', 'e'] =
      ([['t', 'h', 'e'], ['c', 'a', 't'], ['t', 'h', 'e']] : List Word).count
        ['t', 'h', 'e']) :=
  ⟨Or.inr ⟨rfl, Nat.prime_five, by decide⟩, by decide, count_lt_of_length _ (by decide),
    word_counting_correct hashing_t.DOUBLE_H 5
      [['t', 'h', 'e'], ['c', 'a', 't'], ['t', 'h', 'e']] ['t', 'h', 'e']
      (Or.inr ⟨rfl, Nat.prime_five, by decide⟩) (by decide)
      (count_lt_of_length _ (by decide))⟩

/-- Claim C3 fails as stated: in the double-hashing table of capacity
1610612741 that holds the key `aaaaan`, the search for `aaaac0`, which was never
inserted, starts at the occupied slot 1258982504 with step 1258982506; their
sum is above `INT_MAX`, so the search has no defined result and does not
return 0. -/
theorem search_never_inserted_overflow :
    (['a', 'a', 'a', 'a', 'c', '0'] : Word) ∉
      ([['a', 'a', 'a', 'a', 'a', 'n']] : List Word) ∧
    insert_all_checked (htable_new hashing_t.DOUBLE_H 1610612741)
        [['a', 'a', 'a', 'a', 'a', 'n']] =
      some (insert_all (htable_new hashing_t.DOUBLE_H 1610612741)
        [['a', 'a', 'a', 'a', 'a', 'n']]) ∧
    htable_search_checked (insert_all (htable_new hashing_t.DOUBLE_H 1610612741)
        [['a', 'a', 'a', 'a', 'a', 'n']]) ['a', 'a', 'a', 'a', 'c', '0'] = none :=
  ⟨by decide, walk_overflow_example.1, walk_overflow_example.2.2⟩

/-- Claim C3 as amended: for either strategy and any capacity above 1 in the
range of `int` (below `2 ^ 31` for linear probing, at most `2 ^ 30` otherwise),
in the table reached from `htable_new` by any sequence of `htable_insert`
calls, failed ones included, in which no word is inserted `2 ^ 31` times,
`htable_search` of a key that was never passed to `htable_insert` returns 0,
and no call overflows. -/
theorem search_never_inserted (ht : hashing_t) (cap : Nat) (ws : List Word) (key : Word)
    (hcap : 1 < cap)
    (hrange : (ht = hashing_t.LINEAR_P ∧ cap < 2 ^ 31) ∨ 2 * cap ≤ 2 ^ 31)
    (hcount : ∀ w, ws.count w < 2 ^ 31) (hnot : key ∉ ws) :
    insert_all_checked (htable_new ht cap) ws = some (insert_all (htable_new ht cap) ws) ∧
    htable_search_checked (insert_all (htable_new ht cap) ws) key = some 0 ∧
    htable_search (insert_all (htable_new ht cap) ws) key = 0 := by
  have hpos : 0 < cap := Nat.lt_trans Nat.zero_lt_one hcap
  have hsearch : htable_search (insert_all (htable_new ht cap) ws) key = 0 := by
    refine search_of_not_stored _ key ?_ ?_
    · rw [(insert_all_capacity ht cap ws).1]; exact hpos
    · intro i hst
      exact hnot (stored_mem_inserted ht cap hpos ws key i hst)
  refine ⟨insert_all_checked_eq ht cap ws hcap hrange hcount, ?_, hsearch⟩
  rw [search_checked_reachable ht cap ws key hcap hrange, hsearch]

/-- An instance of `search_never_inserted`: a linear-probing table of capacity 2
filled by `a` and `b`, on which inserting `c` fails; `d` was never inserted. -/
theorem search_never_inserted_witness :
    1 < 2 ∧ ((hashing_t.LINEAR_P = hashing_t.LINEAR_P ∧ 2 < 2 ^ 31) ∨ 2 * 2 ≤ 2 ^ 31) ∧
    (∀ w, ([['a'], ['b'], ['c']] : List Word).count w < 2 ^ 31) ∧
    (['d'] : Word) ∉ [['a'], ['b'], ['c']] ∧
    (htable_insert (insert_all (htable_new hashing_t.LINEAR_P 2) [['a'], ['b']]) ['c']).2 = 0 ∧
    (insert_all_checked (htable_new hashing_t.LINEAR_P 2) [['a'], ['b'], ['c']] =
      some (insert_all (htable_new hashing_t.LINEAR_P 2) [['a'], ['b'], ['c']]) ∧
    htable_search_checked
      (insert_all (htable_new hashing_t.LINEAR_P 2) [['a'], ['b'], ['c']]) ['d'] = some 0 ∧
    htable_search (insert_all (htable_new hashing_t.LINEAR_P 2) [['a'], ['b'], ['c']]) ['d']
      = 0) :=
  ⟨by decide, Or.inl ⟨rfl, by decide⟩, count_lt_of_length _ (by decide), by decide, by decide,
    search_never_inserted hashing_t.LINEAR_P 2 [['a'], ['b'], ['c']] ['d']
      (by decide) (Or.inl ⟨rfl, by decide⟩) (count_lt_of_length _ (by decide)) (by decide)⟩

/-- Claim C4 fails as stated: double hashing, capacity 3, the key `b` inserted
2147483648 times.  Insertion number 2147483648 computes `freqs[index] + 1` with
`freqs[index] = INT_MAX`: the sequence of calls has no defined result, and the
frequency of the slot, the one slot counted by `num_keys`, is no longer a
positive `int`. -/
theorem num_keys_frequency_overflow :
    insert_all_checked (htable_new hashing_t.DOUBLE_H 3) (List.replicate 2147483648 ['b']) =
      none :=
  replicate_overflow hashing_t.DOUBLE_H 3 ['b'] (by decide) (Or.inr (by decide)) 2147483647
    (Nat.le_refl _)

/-- Claim C4 as amended: for either strategy and any capacity above 1 in the
range of `int` (below `2 ^ 31` for linear probing, at most `2 ^ 30` otherwise),
after any sequence of `htable_insert` calls on a table made by `htable_new` in
which no word is inserted `2 ^ 31` times, no call has overflowed, every
frequency is at most `INT_MAX`, and `num_keys` equals the number of slots
`0 .. capacity - 1` whose frequency is positive. -/
theorem num_keys_counts_occupied (ht : hashing_t) (cap : Nat) (ws : List Word)
    (hcap : 1 < cap)
    (hrange : (ht = hashing_t.LINEAR_P ∧ cap < 2 ^ 31) ∨ 2 * cap ≤ 2 ^ 31)
    (hcount : ∀ w, ws.count w < 2 ^ 31) :
    insert_all_checked (htable_new ht cap) ws = some (insert_all (htable_new ht cap) ws) ∧
    (∀ i, i < cap → (insert_all (htable_new ht cap) ws).freqs.getD i 0 ≤ INT_MAX) ∧
    (insert_all (htable_new ht cap) ws).num_keys =
      (List.range cap).countP
        (fun i => decide (0 < (insert_all (htable_new ht cap) ws).freqs.getD i 0)) := by
  have hpos : 0 < cap := Nat.lt_trans Nat.zero_lt_one hcap
  obtain ⟨hs, _, hn⟩ := table_inv_insert_all ht cap hpos ws
  have hlen : (insert_all (htable_new ht cap) ws).freqs.length = cap := by
    rw [hs.2.1]; exact (insert_all_capacity ht cap ws).1
  refine ⟨insert_all_checked_eq ht cap ws hcap hrange hcount,
    freqs_in_range ht cap hpos ws hcount, ?_⟩
  rw [hn, occupied_count, ← countP_getD_range, hlen]

/-- An instance of `num_keys_counts_occupied`: double hashing, capacity 3, the
words `a b a`. -/
theorem num_keys_counts_occupied_witness :
    1 < 3 ∧ ((hashing_t.DOUBLE_H = hashing_t.LINEAR_P ∧ 3 < 2 ^ 31) ∨ 2 * 3 ≤ 2 ^ 31) ∧
    (∀ w, ([['a'], ['b'], ['a']] : List Word).count w < 2 ^ 31) ∧
    (insert_all_checked (htable_new hashing_t.DOUBLE_H 3) [['a'], ['b'], ['a']] =
      some (insert_all (htable_new hashing_t.DOUBLE_H 3) [['a'], ['b'], ['a']]) ∧
    (∀ i, i < 3 →
      (insert_all (htable_new hashing_t.DOUBLE_H 3) [['a'], ['b'], ['a']]).freqs.getD i 0 ≤
        INT_MAX) ∧
    (insert_all (htable_new hashing_t.DOUBLE_H 3) [['a'], ['b'], ['a']]).num_keys =
      (List.range 3).countP
        (fun i => decide (0 <
          (insert_all (htable_new hashing_t.DOUBLE_H 3) [['a'], ['b'], ['a']]).freqs.getD
            i 0))) :=
  ⟨by decide, Or.inr (by decide), count_lt_of_length _ (by decide),
    num_keys_counts_occupied hashing_t.DOUBLE_H 3 [['a'], ['b'], ['a']] (by decide)
      (Or.inr (by decide)) (count_lt_of_length _ (by decide))⟩

/-- Claim C5 fails as stated: in the double-hashing table of capacity
1610612741 that holds the key `aaaaan`, the call `htable_insert(h, "aaaac0")`
meets that key at slot 1258982504 and computes `index + step` = 1258982504 +
1258982506, above `INT_MAX`: the call has no defined result, so it is not the
placement in the first free slot of the probe walk that the claim describes. -/
theorem placement_walk_overflow :
    insert_all_checked (htable_new hashing_t.DOUBLE_H 1610612741)
        [['a', 'a', 'a', 'a', 'a', 'n']] =
      some (insert_all (htable_new hashing_t.DOUBLE_H 1610612741)
        [['a', 'a', 'a', 'a', 'a', 'n']]) ∧
    (∀ i, ¬ stored (insert_all (htable_new hashing_t.DOUBLE_H 1610612741)
        [['a', 'a', 'a', 'a', 'a', 'n']]) ['a', 'a', 'a', 'a', 'c', '0'] i) ∧
    htable_insert_checked (insert_all (htable_new hashing_t.DOUBLE_H 1610612741)
        [['a', 'a', 'a', 'a', 'a', 'n']]) ['a', 'a', 'a', 'a', 'c', '0'] = none :=
  ⟨walk_overflow_example.1,
    fun i hst => absurd (stored_mem_inserted hashing_t.DOUBLE_H 1610612741 (by decide) _ _ i hst)
      (by decide),
    walk_overflow_example.2.1⟩

/-- Claim C5 as amended: the placement-cost log is append-only within the range
of `int`.  For the table `h` reached from `htable_new` (capacity above 1, below
`2 ^ 31` for linear probing and at most `2 ^ 30` otherwise) by any insertions
and any call `htable_insert(h, str)`, no word being inserted `2 ^ 31` times,
this call counted: no call overflows; the log entries below the old `num_keys`
are kept; if
the key is already in a slot, the log, `num_keys` and the keys are kept and only
the frequency of that slot grows by one; if the key is in no slot and the call
succeeds, the key is placed in the first free slot of its probe walk, log
position old `num_keys` (inside the log) receives the number `c` of occupied
slots walked past, no other log position changes, and `num_keys` grows by 1. -/
theorem placement_log_append_only (ht : hashing_t) (cap : Nat) (ws : List Word) (str : Word)
    (h : htablerec) (hcap : 1 < cap)
    (hrange : (ht = hashing_t.LINEAR_P ∧ cap < 2 ^ 31) ∨ 2 * cap ≤ 2 ^ 31)
    (hcount : ∀ w, (ws ++ [str]).count w < 2 ^ 31)
    (hreach : h = insert_all (htable_new ht cap) ws) :
    insert_all_checked (htable_new ht cap) ws = some h ∧
    htable_insert_checked h str = some (htable_insert h str) ∧
    (∀ i, i < h.num_keys → (htable_insert h str).1.stats.getD i 0 = h.stats.getD i 0) ∧
    ((∃ i, stored h str i) →
      (htable_insert h str).1.stats = h.stats ∧
      (htable_insert h str).1.num_keys = h.num_keys ∧
      (htable_insert h str).1.keys = h.keys ∧
      ∃ i, stored h str i ∧
        (htable_insert h str).1.freqs = h.freqs.set i (h.freqs.getD i 0 + 1)) ∧
    ((∀ i, ¬ stored h str i) → (htable_insert h str).2 ≠ 0 →
      ∃ c, c < cap ∧ (∀ j, j < c → blocked h str (probe_index h str j)) ∧
        h.freqs.getD (probe_index h str c) 0 = 0 ∧
        stored (htable_insert h str).1 str (probe_index h str c) ∧
        h.num_keys < h.stats.length ∧
        (htable_insert h str).1.stats = h.stats.set h.num_keys c ∧
        (htable_insert h str).1.stats.getD h.num_keys 0 = c ∧
        (htable_insert h str).1.num_keys = h.num_keys + 1) := by
  have hpos : 0 < cap := Nat.lt_trans Nat.zero_lt_one hcap
  have hinv : table_inv h := by rw [hreach]; exact table_inv_insert_all ht cap hpos ws
  have hc : h.capacity = cap := by rw [hreach]; exact (insert_all_capacity ht cap ws).1
  have hpos' : 0 < h.capacity := by rw [hc]; exact hpos
  obtain ⟨hs, hp, hn⟩ := hinv
  have hpre : ∀ w, ws.count w < 2 ^ 31 := by
    intro w
    have := hcount w
    rw [List.count_append] at this
    omega
  refine ⟨by rw [hreach]; exact insert_all_checked_eq ht cap ws hcap hrange hpre,
    by rw [hreach]; exact insert_checked_reachable ht cap ws str hcap hrange (hcount str),
    ?_, ?_, ?_⟩
  · intro i hi
    rcases insert_cases h str with ⟨_, he⟩ | ⟨c, _, _, _, he⟩ | ⟨c, _, _, _, _, he⟩
    · rw [he]
    · rw [he]
      exact getD_set_other h.stats h.num_keys i c 0 (Nat.ne_of_gt hi)
    · rw [he]; rfl
  · rintro ⟨i, hst⟩
    rw [insert_of_stored h str i hp hst]
    exact ⟨rfl, rfl, rfl, i, hst, rfl⟩
  · intro hno hne
    rcases insert_of_not_stored h str hpos' hno with ⟨_, he⟩ | ⟨c, hclt, hb, hfree, he⟩
    · rw [he] at hne; exact absurd rfl hne
    · have hlt := probe_index_lt h str c hpos'
      have hlf : probe_index h str c < h.freqs.length := by rw [hs.2.1]; exact hlt
      have hnk : h.num_keys < h.stats.length := by
        rw [hn, hs.2.2, ← hs.2.1]
        exact occupied_count_lt_of_free h _ hlf hfree
      rw [he]
      refine ⟨c, by rw [← hc]; exact hclt, hb, hfree,
        (stored_place_self h str _ c hs hlt).1, hnk, rfl, ?_, rfl⟩
      exact getD_set_self h.stats h.num_keys c 0 hnk

/-- An instance of `placement_log_append_only`: inserting `g`, which collides
twice, into `crowded_table`. -/
theorem placement_log_append_only_witness :
    1 < 3 ∧ ((hashing_t.LINEAR_P = hashing_t.LINEAR_P ∧ 3 < 2 ^ 31) ∨ 2 * 3 ≤ 2 ^ 31) ∧
    (∀ w, (([['a'], ['d']] : List Word) ++ [['g']]).count w < 2 ^ 31) ∧
    crowded_table = insert_all (htable_new hashing_t.LINEAR_P 3) [['a'], ['d']] ∧
    (insert_all_checked (htable_new hashing_t.LINEAR_P 3) [['a'], ['d']] = some crowded_table ∧
    htable_insert_checked crowded_table ['g'] = some (htable_insert crowded_table ['g']) ∧
    (∀ i, i < crowded_table.num_keys →
        (htable_insert crowded_table ['g']).1.stats.getD i 0 = crowded_table.stats.getD i 0) ∧
    ((∃ i, stored crowded_table ['g'] i) →
      (htable_insert crowded_table ['g']).1.stats = crowded_table.stats ∧
      (htable_insert crowded_table ['g']).1.num_keys = crowded_table.num_keys ∧
      (htable_insert crowded_table ['g']).1.keys = crowded_table.keys ∧
      ∃ i, stored crowded_table ['g'] i ∧
        (htable_insert crowded_table ['g']).1.freqs =
          crowded_table.freqs.set i (crowded_table.freqs.getD i 0 + 1)) ∧
    ((∀ i, ¬ stored crowded_table ['g'] i) → (htable_insert crowded_table ['g']).2 ≠ 0 →
      ∃ c, c < 3 ∧ (∀ j, j < c → blocked crowded_table ['g'] (probe_index crowded_table ['g'] j)) ∧
        crowded_table.freqs.getD (probe_index crowded_table ['g'] c) 0 = 0 ∧
        stored (htable_insert crowded_table ['g']).1 ['g'] (probe_index crowded_table ['g'] c) ∧
        crowded_table.num_keys < crowded_table.stats.length ∧
        (htable_insert crowded_table ['g']).1.stats =
          crowded_table.stats.set crowded_table.num_keys c ∧
        (htable_insert crowded_table ['g']).1.stats.getD crowded_table.num_keys 0 = c ∧
        (htable_insert crowded_table ['g']).1.num_keys = crowded_table.num_keys + 1)) :=
  ⟨by decide, Or.inl ⟨rfl, by decide⟩, count_lt_of_length _ (by decide), rfl,
    placement_log_append_only hashing_t.LINEAR_P 3 [['a'], ['d']] ['g'] crowded_table
      (by decide) (Or.inl ⟨rfl, by decide⟩) (count_lt_of_length _ (by decide)) rfl⟩

/-- Claim C6 fails as stated: double hashing with the prime capacity 1610612741.
In the table that holds the key `aaaaan`, which is not full, the probe walk of
`aaaac0` starts at the occupied slot 1258982504 with step 1258982506; the sum
that gives the second index is above `INT_MAX`, so the walk has no second index
and `htable_insert` no defined result: it neither returns 0 nor places the
key. -/
theorem probe_walk_overflow :
    Nat.Prime 1610612741 ∧
    insert_all_checked (htable_new hashing_t.DOUBLE_H 1610612741)
        [['a', 'a', 'a', 'a', 'a', 'n']] =
      some (insert_all (htable_new hashing_t.DOUBLE_H 1610612741)
        [['a', 'a', 'a', 'a', 'a', 'n']]) ∧
    probe_index (insert_all (htable_new hashing_t.DOUBLE_H 1610612741)
        [['a', 'a', 'a', 'a', 'a', 'n']]) ['a', 'a', 'a', 'a', 'c', '0'] 0 = 1258982504 ∧
    step_of (insert_all (htable_new hashing_t.DOUBLE_H 1610612741)
        [['a', 'a', 'a', 'a', 'a', 'n']])
      (htable_word_to_int ['a', 'a', 'a', 'a', 'c', '0']) = 1258982506 ∧
    INT_MAX < 1258982504 + 1258982506 ∧
    htable_insert_checked (insert_all (htable_new hashing_t.DOUBLE_H 1610612741)
        [['a', 'a', 'a', 'a', 'a', 'n']]) ['a', 'a', 'a', 'a', 'c', '0'] = none := by
  have hc := (insert_all_capacity hashing_t.DOUBLE_H 1610612741
    [['a', 'a', 'a', 'a', 'a', 'n']]).1
  have hm := (insert_all_capacity hashing_t.DOUBLE_H 1610612741
    [['a', 'a', 'a', 'a', 'a', 'n']]).2
  refine ⟨prime_1610612741, walk_overflow_example.1, ?_, ?_, by unfold INT_MAX; norm_num,
    walk_overflow_example.2.1⟩
  · unfold probe_index
    rw [probe_seq, hc, hash_aaaaan.2]
  · rw [step_of_double _ _ hm, hc, hash_aaaaan.2]

/-- Claim C6 as amended: for linear probing with a capacity above 1 and below
`2 ^ 31`, and for double hashing with a prime capacity of at most `2 ^ 30`, no
sum `index + step` of a probe walk is above `INT_MAX`, and the first `capacity`
indices of the probe walk of a key are pairwise distinct and cover every slot;
so on the table reached from `htable_new` by any insertions, no word being
inserted `2 ^ 31` times, this call counted, `htable_insert` overflows nowhere
and returns 0 if and only if every slot is occupied and no slot holds the
key. -/
theorem probe_exhaustion_iff_full (ht : hashing_t) (cap : Nat) (ws : List Word) (str : Word)
    (h : htablerec)
    (hcap : (ht = hashing_t.LINEAR_P ∧ 1 < cap ∧ cap < 2 ^ 31) ∨
      (ht = hashing_t.DOUBLE_H ∧ Nat.Prime cap ∧ 2 * cap ≤ 2 ^ 31))
    (hcount : ∀ w, (ws ++ [str]).count w < 2 ^ 31)
    (hreach : h = insert_all (htable_new ht cap) ws) :
    insert_all_checked (htable_new ht cap) ws = some h ∧
    htable_insert_checked h str = some (htable_insert h str) ∧
    (∀ j, probe_index h str j + step_of h (htable_word_to_int str) ≤ INT_MAX) ∧
    (∀ j k, j < cap → k < cap → probe_index h str j = probe_index h str k → j = k) ∧
    (∀ i, i < cap → ∃ j, j < cap ∧ probe_index h str j = i) ∧
    ((htable_insert h str).2 = 0 ↔
      ∀ i, i < cap → h.freqs.getD i 0 ≠ 0 ∧ h.keys.getD i none ≠ some str) := by
  have hc : h.capacity = cap := by rw [hreach]; exact (insert_all_capacity ht cap ws).1
  have hm : h.method = ht := by rw [hreach]; exact (insert_all_capacity ht cap ws).2
  have hone : 1 < cap := by
    rcases hcap with ⟨_, h1, _⟩ | ⟨_, hpr, _⟩
    · exact h1
    · exact hpr.one_lt
  have hrange : (ht = hashing_t.LINEAR_P ∧ cap < 2 ^ 31) ∨ 2 * cap ≤ 2 ^ 31 := by
    rcases hcap with ⟨hl, _, h2⟩ | ⟨_, _, h2⟩
    · exact Or.inl ⟨hl, h2⟩
    · exact Or.inr h2
  have hcap' : (h.method = hashing_t.LINEAR_P ∧ 1 < h.capacity) ∨
      (h.method = hashing_t.DOUBLE_H ∧ Nat.Prime h.capacity) := by
    rw [hc, hm]
    rcases hcap with ⟨hl, h1, _⟩ | ⟨hd, hpr, _⟩
    · exact Or.inl ⟨hl, h1⟩
    · exact Or.inr ⟨hd, hpr⟩
  have hpre : ∀ w, ws.count w < 2 ^ 31 := by
    intro w
    have := hcount w
    rw [List.count_append] at this
    omega
  have hwalk := walk_fits h (htable_word_to_int str) (by rw [hc]; exact hone)
    (by rw [hc, hm]; exact hrange)
  have h1 := probe_index_inj h str hcap'
  have h2 := probe_index_surj h str hcap'
  have h3 := insert_zero_iff_full h str hcap'
  rw [hc] at h1 h2 h3
  exact ⟨by rw [hreach]; exact insert_all_checked_eq ht cap ws hone hrange hpre,
    by rw [hreach]; exact insert_checked_reachable ht cap ws str hone hrange (hcount str),
    fun j => hwalk _ (probe_index_lt h str j (by rw [hc]; omega)), h1, h2, h3⟩

/-- An instance of `probe_exhaustion_iff_full`: inserting `d` into `full_table`
fails. -/
theorem probe_exhaustion_iff_full_witness :
    ((hashing_t.DOUBLE_H = hashing_t.LINEAR_P ∧ 1 < 3 ∧ 3 < 2 ^ 31) ∨
      (hashing_t.DOUBLE_H = hashing_t.DOUBLE_H ∧ Nat.Prime 3 ∧ 2 * 3 ≤ 2 ^ 31)) ∧
    (∀ w, (([['a'], ['b'], ['c']] : List Word) ++ [['d']]).count w < 2 ^ 31) ∧
    full_table = insert_all (htable_new hashing_t.DOUBLE_H 3) [['a'], ['b'], ['c']] ∧
    (htable_insert full_table ['d']).2 = 0 ∧
    (insert_all_checked (htable_new hashing_t.DOUBLE_H 3) [['a'], ['b'], ['c']] =
      some full_table ∧
    htable_insert_checked full_table ['d'] = some (htable_insert full_table ['d']) ∧
    (∀ j, probe_index full_table ['d'] j + step_of full_table (htable_word_to_int ['d']) ≤
      INT_MAX) ∧
    (∀ j k, j < 3 → k < 3 →
        probe_index full_table ['d'] j = probe_index full_table ['d'] k → j = k) ∧
    (∀ i, i < 3 → ∃ j, j < 3 ∧ probe_index full_table ['d'] j = i) ∧
    ((htable_insert full_table ['d']).2 = 0 ↔
      ∀ i, i < 3 → full_table.freqs.getD i 0 ≠ 0 ∧ full_table.keys.getD i none ≠ some ['d'])) :=
  ⟨Or.inr ⟨rfl, Nat.prime_three, by decide⟩, count_lt_of_length _ (by decide), rfl, by decide,
    probe_exhaustion_iff_full hashing_t.DOUBLE_H 3 [['a'], ['b'], ['c']] ['d'] full_table
      (Or.inr ⟨rfl, Nat.prime_three, by decide⟩) (count_lt_of_length _ (by decide)) rfl⟩

/-- Claim C7: for every table state and key, when `htable_insert` returns 0 the
table after the call (keys, frequencies, placement log, `num_keys`, capacity
and strategy) is the table before the call.  The call is the one with every
`int` sum and every array access checked: a call that returns is a call that
has met no overflow, whatever the capacity and the frequencies are. -/
theorem insert_failed_unchanged (h : htablerec) (str : Word) (r : htablerec × Nat)
    (hrun : htable_insert_checked h str = some r) (hfail : r.2 = 0) : r.1 = h := by
  obtain ⟨heq, _⟩ := htable_insert_checked_sound h str r hrun
  rw [← heq] at hfail ⊢
  rcases insert_cases h str with ⟨_, he⟩ | ⟨c, _, _, _, he⟩ | ⟨c, _, _, _, _, he⟩
  · rw [he]
  · rw [he] at hfail; exact absurd hfail Nat.one_ne_zero
  · rw [he] at hfail; exact absurd hfail (Nat.succ_ne_zero _)

/-- An instance of `insert_failed_unchanged`: a full linear-probing table of
capacity 2 and a third key. -/
theorem insert_failed_unchanged_witness :
    htable_insert_checked (insert_all (htable_new hashing_t.LINEAR_P 2) [['a'], ['b']]) ['c'] =
      some (insert_all (htable_new hashing_t.LINEAR_P 2) [['a'], ['b']], 0) ∧
    (insert_all (htable_new hashing_t.LINEAR_P 2) [['a'], ['b']], 0).2 = 0 ∧
    (insert_all (htable_new hashing_t.LINEAR_P 2) [['a'], ['b']], 0).1 =
      insert_all (htable_new hashing_t.LINEAR_P 2) [['a'], ['b']] :=
  ⟨by decide, rfl,
    insert_failed_unchanged (insert_all (htable_new hashing_t.LINEAR_P 2) [['a'], ['b']]) ['c']
      (insert_all (htable_new hashing_t.LINEAR_P 2) [['a'], ['b']], 0) (by decide) rfl⟩

/-- Claim C8: for every capacity above 1 and every key, the double-hashing step
`htable_step = 1 + (hash(key) mod (capacity - 1))` satisfies
`1 ≤ step ≤ capacity - 1`; it is never 0 and never a multiple of the capacity. -/
theorem htable_step_bounds (h : htablerec) (key : Word) (hcap : 1 < h.capacity) :
    htable_step h (htable_word_to_int key) =
        1 + htable_word_to_int key % (h.capacity - 1) ∧
      1 ≤ htable_step h (htable_word_to_int key) ∧
      htable_step h (htable_word_to_int key) ≤ h.capacity - 1 ∧
      htable_step h (htable_word_to_int key) ≠ 0 ∧
      ¬ h.capacity ∣ htable_step h (htable_word_to_int key) := by
  have hm : htable_word_to_int key % (h.capacity - 1) < h.capacity - 1 :=
    Nat.mod_lt _ (by omega)
  have hs : htable_step h (htable_word_to_int key) =
      1 + htable_word_to_int key % (h.capacity - 1) := rfl
  refine ⟨hs, by omega, by omega, by omega, ?_⟩
  intro hd
  have := Nat.le_of_dvd (by omega) hd
  omega

/-- An instance of `htable_step_bounds`: capacity 7 and the key `z`. -/
theorem htable_step_bounds_witness :
    1 < (htable_new hashing_t.DOUBLE_H 7).capacity ∧
    (htable_step (htable_new hashing_t.DOUBLE_H 7) (htable_word_to_int ['z']) =
        1 + htable_word_to_int ['z'] % ((htable_new hashing_t.DOUBLE_H 7).capacity - 1) ∧
      1 ≤ htable_step (htable_new hashing_t.DOUBLE_H 7) (htable_word_to_int ['z']) ∧
      htable_step (htable_new hashing_t.DOUBLE_H 7) (htable_word_to_int ['z']) ≤
        (htable_new hashing_t.DOUBLE_H 7).capacity - 1 ∧
      htable_step (htable_new hashing_t.DOUBLE_H 7) (htable_word_to_int ['z']) ≠ 0 ∧
      ¬ (htable_new hashing_t.DOUBLE_H 7).capacity ∣
        htable_step (htable_new hashing_t.DOUBLE_H 7) (htable_word_to_int ['z'])) :=
  ⟨by decide, htable_step_bounds (htable_new hashing_t.DOUBLE_H 7) ['z'] (by decide)⟩

/-- Claim C9, at the input where the code departs from it: `is_prime(4)` returns
1 although 4 is not prime.  The loop runs over `2 ≤ i < n / 2`, which is empty
for `n = 4`, so the divisor 2 is never tried. -/
theorem is_prime_four : is_prime 4 = 1 ∧ (2 : Nat) ∣ 4 ∧ ¬ Nat.Prime 4 :=
  ⟨by decide, by decide, by decide⟩

/-- Claim C10, at the input where the code departs from it: with any positive
fuel `gen_prime(4)` stops at once and returns 4, which is not prime; the smallest
prime `p ≥ 4` is 5. -/
theorem gen_prime_four :
    (∀ fuel, gen_prime (fuel + 1) 4 = some 4) ∧ ¬ Nat.Prime 4 ∧ Nat.Prime 5 :=
  ⟨fun _ => rfl, by decide, Nat.prime_five⟩

/-- Claim C11, at an input where the code departs from it: with `-t -5` the
capacity that `main` hands to `htable_new` is -5 (the value that `gen_prime(-5)`
returns), which is not above 1. -/
theorem main_tablesize_minus_five :
    (∀ fuel, main_tablesize (fuel + 1) (parse_options [cli_option.t (some (-5))]) = some (-5)) ∧
    (∀ fuel, gen_prime (fuel + 1) (-5) = some (-5)) ∧
    ¬ ((1 : Int) < -5) :=
  ⟨fun _ => rfl, fun _ => rfl, by decide⟩

/-- Claim C12 fails as stated: the products of the sampler are `int` products.
With `N = 30000000` on `full_table`, snapshot `i = 21474837` computes `100 * i`
= 2147483700, above `INT_MAX`; with `N = 2` on a table of capacity 85899348,
snapshot `i = 1` computes `capacity * percentFull` = 85899348 * 50 =
4294967400, above `INT_MAX`.  In both cases the report has no defined lines. -/
theorem print_stats_overflow :
    htable_print_stats_checked full_table 30000000 = none ∧
    INT_MAX < 100 * 21474837 ∧
    htable_print_stats_checked
      (insert_all (htable_new hashing_t.LINEAR_P 85899348) [['a']]) 2 = none ∧
    INT_MAX < 85899348 * (100 * 1 / 2) := by
  refine ⟨?_, by unfold INT_MAX; norm_num, ?_, by unfold INT_MAX; norm_num⟩
  · exact print_stats_loop_checked_overflow full_table 30000000 30000000 1 21474836
      (by norm_num) (by unfold INT_MAX; norm_num)
  · have hc := (insert_all_capacity hashing_t.LINEAR_P 85899348 [['a']]).1
    show print_stats_loop_checked _ 2 2 1 = none
    rw [print_stats_loop_checked, if_pos (by unfold INT_MAX; norm_num),
      print_stats_line_checked, if_neg (by rw [hc]; unfold INT_MAX; norm_num)]

/-- Claim C12 as amended: the statistics sampler within the range of `int`.
For every table with `capacity * 100 < 2 ^ 31` and every `N ≥ 1` with
`100 * N < 2 ^ 31`, no product of `htable_print_stats` overflows, and it prints, in increasing order of `i = 1 .. N`, the line of
exactly those snapshots whose `currentEntries = capacity * (100 * i / N) / 100`
lies in `(0, keyCount]`; the line holds `percentFull = 100 * i / N`,
`currentEntries` and, over the first `currentEntries` log entries, the at-home
percentage `100 * zeros / currentEntries`, the average `sum / currentEntries`
and the maximum (this is `spec_print_stats`).  On a full table the snapshot
`i = N` is printed with `percentFull = 100` and the statistics over all
entries, and with `N = 1` it is the only line. -/
theorem print_stats_refines_spec (h : htablerec) (N : Nat) (hN : 1 ≤ N)
    (hN2 : 100 * N < 2 ^ 31) (hcap100 : h.capacity * 100 < 2 ^ 31) :
    htable_print_stats_checked h N = some (htable_print_stats h N) ∧
    htable_print_stats h N = spec_print_stats h N ∧
    (∀ l, l ∈ htable_print_stats h N ↔
      ∃ i, 1 ≤ i ∧ i ≤ N ∧ spec_stats_line h N i = some l) ∧
    (0 < h.capacity → h.num_keys = h.capacity →
      print_stats_line h (100 * N / N) = some
        { percent_full := 100
          current_entries := h.capacity
          percent_at_home :=
            100 * ((log_first h h.capacity).count 0 : ℚ) / (h.capacity : ℚ)
          average_collisions := ((log_first h h.capacity).sum : ℚ) / (h.capacity : ℚ)
          max_collisions := (log_first h h.capacity).foldr max 0 }) ∧
    (N = 1 → 0 < h.capacity → h.num_keys = h.capacity →
      htable_print_stats h N =
        [{ percent_full := 100
           current_entries := h.capacity
           percent_at_home :=
             100 * ((log_first h h.capacity).count 0 : ℚ) / (h.capacity : ℚ)
           average_collisions := ((log_first h h.capacity).sum : ℚ) / (h.capacity : ℚ)
           max_collisions := (log_first h h.capacity).foldr max 0 }]) := by
  have hN3 : 100 * N ≤ INT_MAX := by
    unfold INT_MAX
    norm_num at hN2
    omega
  have hcap3 : h.capacity * 100 ≤ INT_MAX := by
    unfold INT_MAX
    norm_num at hcap100
    omega
  refine ⟨htable_print_stats_checked_eq h N hN3 hcap3, htable_print_stats_eq_spec h N,
    ?_, ?_, ?_⟩
  · intro l
    rw [htable_print_stats_eq_spec, spec_print_stats, List.mem_filterMap]
    constructor
    · rintro ⟨i, hi, hl⟩
      rw [List.mem_range'_1] at hi
      exact ⟨i, hi.1, by omega, hl⟩
    · rintro ⟨i, h1, h2, hl⟩
      exact ⟨i, by rw [List.mem_range'_1]; omega, hl⟩
  · intro hcap hfull
    rw [print_stats_line_eq_spec]
    exact spec_stats_line_full h N hN hcap hfull
  · intro h1 hcap hfull
    subst h1
    rw [htable_print_stats_eq_spec]
    show List.filterMap (spec_stats_line h 1) [1] = _
    rw [List.filterMap_cons, spec_stats_line_full h 1 hN hcap hfull]
    rfl

/-- An instance of `print_stats_refines_spec`: one snapshot of `full_table`. -/
theorem print_stats_refines_spec_witness :
    1 ≤ 1 ∧ 100 * 1 < 2 ^ 31 ∧ full_table.capacity * 100 < 2 ^ 31 ∧
    (htable_print_stats_checked full_table 1 = some (htable_print_stats full_table 1) ∧
    htable_print_stats full_table 1 = spec_print_stats full_table 1 ∧
    (∀ l, l ∈ htable_print_stats full_table 1 ↔
      ∃ i, 1 ≤ i ∧ i ≤ 1 ∧ spec_stats_line full_table 1 i = some l) ∧
    (0 < full_table.capacity → full_table.num_keys = full_table.capacity →
      print_stats_line full_table (100 * 1 / 1) = some
        { percent_full := 100
          current_entries := full_table.capacity
          percent_at_home :=
            100 * ((log_first full_table full_table.capacity).count 0 : ℚ) /
              (full_table.capacity : ℚ)
          average_collisions :=
            ((log_first full_table full_table.capacity).sum : ℚ) / (full_table.capacity : ℚ)
          max_collisions := (log_first full_table full_table.capacity).foldr max 0 }) ∧
    (1 = 1 → 0 < full_table.capacity → full_table.num_keys = full_table.capacity →
      htable_print_stats full_table 1 =
        [{ percent_full := 100
           current_entries := full_table.capacity
           percent_at_home :=
             100 * ((log_first full_table full_table.capacity).count 0 : ℚ) /
               (full_table.capacity : ℚ)
           average_collisions :=
             ((log_first full_table full_table.capacity).sum : ℚ) / (full_table.capacity : ℚ)
           max_collisions := (log_first full_table full_table.capacity).foldr max 0 }])) :=
  ⟨by decide, by decide, by decide,
    print_stats_refines_spec full_table 1 (by decide) (by decide) (by decide)⟩

/-- Claim C13 fails as stated: on a table of capacity 7 that holds one key, with
`N = 10`, the last snapshot has `capacity * percentFull / 100 = 7 ≥ 1` and prints
no line; the only line printed is the one of `percentFull = 20`. -/
theorem one_key_last_snapshot_skipped :
    one_key_table.capacity = 7 ∧ one_key_table.num_keys = 1 ∧
    1 ≤ one_key_table.capacity * (100 * 10 / 10) / 100 ∧
    print_stats_line one_key_table (100 * 10 / 10) = none ∧
    (htable_print_stats one_key_table 10).map (fun l => l.percent_full) = [20] := by
  decide

/-- Claim C13 as amended: with `N = 10` on a table of capacity above 1, with
`capacity * 100 < 2 ^ 31`, that holds exactly one key, no product of the
report overflows and snapshot `i` prints a line exactly when
`capacity * percentFull / 100 = 1`; that value does not decrease with `i`, so
the snapshots skipped are the earlier ones, where it is 0, and the later ones,
where it is above 1, the last snapshot (`percentFull = 100`) among them. -/
theorem one_key_snapshots (h : htablerec) (hcap : 1 < h.capacity)
    (hcap100 : h.capacity * 100 < 2 ^ 31) (hone : h.num_keys = 1) :
    htable_print_stats_checked h 10 = some (htable_print_stats h 10) ∧
    (∀ i, 1 ≤ i → i ≤ 10 →
      ((print_stats_line h (100 * i / 10)).isSome = true ↔
        h.capacity * (100 * i / 10) / 100 = 1)) ∧
    (∀ l, l ∈ htable_print_stats h 10 ↔
      ∃ i, 1 ≤ i ∧ i ≤ 10 ∧ h.capacity * (100 * i / 10) / 100 = 1 ∧
        print_stats_line h (100 * i / 10) = some l) ∧
    (∀ i j, i ≤ j →
      h.capacity * (100 * i / 10) / 100 ≤ h.capacity * (100 * j / 10) / 100) ∧
    print_stats_line h (100 * 10 / 10) = none := by
  have hiff : ∀ pf, (print_stats_line h pf).isSome = true ↔ h.capacity * pf / 100 = 1 := by
    intro pf
    rw [print_stats_line_isSome, hone]
    omega
  have hcap3 : h.capacity * 100 ≤ INT_MAX := by
    unfold INT_MAX
    norm_num at hcap100
    omega
  refine ⟨htable_print_stats_checked_eq h 10 (by unfold INT_MAX; norm_num) hcap3,
    fun i _ _ => hiff _, ?_, ?_, ?_⟩
  · intro l
    unfold htable_print_stats
    rw [List.mem_filterMap]
    constructor
    · rintro ⟨i, hi, hl⟩
      rw [List.mem_range'_1] at hi
      refine ⟨i, hi.1, by omega, (hiff _).mp ?_, hl⟩
      rw [hl]; rfl
    · rintro ⟨i, h1, h2, _, hl⟩
      exact ⟨i, by rw [List.mem_range'_1]; omega, hl⟩
  · intro i j hij
    apply Nat.div_le_div_right
    apply Nat.mul_le_mul_left
    apply Nat.div_le_div_right
    exact Nat.mul_le_mul_left 100 hij
  · have hnot : ¬ (print_stats_line h (100 * 10 / 10)).isSome = true := by
      rw [hiff]
      have : h.capacity * (100 * 10 / 10) / 100 = h.capacity := by
        show h.capacity * 100 / 100 = h.capacity
        exact Nat.mul_div_cancel _ (by decide)
      omega
    cases hres : print_stats_line h (100 * 10 / 10) with
    | none => rfl
    | some l => rw [hres] at hnot; exact absurd rfl hnot

/-- An instance of `one_key_snapshots`: `one_key_table`. -/
theorem one_key_snapshots_witness :
    1 < one_key_table.capacity ∧ one_key_table.capacity * 100 < 2 ^ 31 ∧
    one_key_table.num_keys = 1 ∧
    (htable_print_stats_checked one_key_table 10 = some (htable_print_stats one_key_table 10) ∧
    (∀ i, 1 ≤ i → i ≤ 10 →
      ((print_stats_line one_key_table (100 * i / 10)).isSome = true ↔
        one_key_table.capacity * (100 * i / 10) / 100 = 1)) ∧
    (∀ l, l ∈ htable_print_stats one_key_table 10 ↔
      ∃ i, 1 ≤ i ∧ i ≤ 10 ∧ one_key_table.capacity * (100 * i / 10) / 100 = 1 ∧
        print_stats_line one_key_table (100 * i / 10) = some l) ∧
    (∀ i j, i ≤ j →
      one_key_table.capacity * (100 * i / 10) / 100 ≤
        one_key_table.capacity * (100 * j / 10) / 100) ∧
    print_stats_line one_key_table (100 * 10 / 10) = none) :=
  ⟨by decide, by decide, by decide,
    one_key_snapshots one_key_table (by decide) (by decide) (by decide)⟩

/-- Claim C14 fails as stated: with `-s 0 -p` (default capacity 113, so `main`
reaches its reporting calls) the statistics report is produced, with the
default count of 10 snapshots. -/
theorem zero_snapshots_still_reports :
    main_reports (parse_options [cli_option.s (some 0), cli_option.p]) = [report.stats 10] ∧
    ¬ (∀ n, report.stats n ∉ main_reports (parse_options [cli_option.s (some 0), cli_option.p])) ∧
    main_run 0 (parse_options [cli_option.s (some 0), cli_option.p]) = some [report.stats 10] :=
  ⟨by decide, fun hno => hno 10 (by decide), by decide⟩

/-- Claim C14 as amended: when the snapshot count is 0 and `main` reaches its
reporting calls (the capacity it hands to `htable_new` is positive, so the
program does not leave in `emalloc`), whatever the other options are, `main`
ignores the count: with `-p` the only statistics report is `htable_print_stats`
with `DEFAULT_SNAPSHOT`, and without `-p` there is no statistics report. -/
theorem zero_snapshots_use_default (fuel : Nat) (f : main_flags) (c : Int)
    (h0 : f.snapshot = 0) (hsize : main_tablesize fuel f = some c) (hpos : 0 < c) :
    main_run fuel f = some (main_reports f) ∧
    (f.p = 1 → ∀ n, report.stats n ∈ main_reports f ↔ n = DEFAULT_SNAPSHOT) ∧
    (f.p ≠ 1 → ∀ n, report.stats n ∉ main_reports f) :=
  ⟨main_run_of_positive fuel f c hsize hpos, stats_reports_of_zero f h0⟩

/-- An instance of `zero_snapshots_use_default`: the options `-e -s 0 -p`, with
the default capacity 113. -/
theorem zero_snapshots_use_default_witness :
    (parse_options [cli_option.e, cli_option.s (some 0), cli_option.p]).snapshot = 0 ∧
    main_tablesize 0 (parse_options [cli_option.e, cli_option.s (some 0), cli_option.p]) =
      some 113 ∧
    (0 : Int) < 113 ∧
    (main_run 0 (parse_options [cli_option.e, cli_option.s (some 0), cli_option.p]) =
      some (main_reports (parse_options [cli_option.e, cli_option.s (some 0), cli_option.p])) ∧
    ((parse_options [cli_option.e, cli_option.s (some 0), cli_option.p]).p = 1 →
      ∀ n, report.stats n ∈
        main_reports (parse_options [cli_option.e, cli_option.s (some 0), cli_option.p]) ↔
          n = DEFAULT_SNAPSHOT) ∧
    ((parse_options [cli_option.e, cli_option.s (some 0), cli_option.p]).p ≠ 1 →
      ∀ n, report.stats n ∉
        main_reports (parse_options [cli_option.e, cli_option.s (some 0), cli_option.p]))) :=
  ⟨rfl, by decide, by decide, zero_snapshots_use_default 0
    (parse_options [cli_option.e, cli_option.s (some 0), cli_option.p]) 113 rfl (by decide)
    (by decide)⟩

/-- Claim C15, at the input where the code departs from it: run with no option
at all, `main` makes no reporting call, so `htable_print` is not called on
stdout; the call sits inside `if (e == 1)`. -/
theorem no_options_no_report :
    main_reports (parse_options []) = [] ∧
    report.frequencies ∉ main_reports (parse_options []) ∧
    main_reports (parse_options [cli_option.e]) = [report.entire_table, report.frequencies] :=
  ⟨by decide, by decide, by decide⟩

/-- Claim C16: on a linear-probing table of capacity 7, after inserting `a`, `b`,
`a`, `c` in that order, `htable_search` gives 2 for `a`, 1 for `b`, 1 for `c`,
0 for `d`, and `num_keys` is 3. -/
theorem scenario_a_b_a_c :
    htable_search (insert_all (htable_new hashing_t.LINEAR_P 7) [['a'], ['b'], ['a'], ['c']])
        ['a'] = 2 ∧
    htable_search (insert_all (htable_new hashing_t.LINEAR_P 7) [['a'], ['b'], ['a'], ['c']])
        ['b'] = 1 ∧
    htable_search (insert_all (htable_new hashing_t.LINEAR_P 7) [['a'], ['b'], ['a'], ['c']])
        ['c'] = 1 ∧
    htable_search (insert_all (htable_new hashing_t.LINEAR_P 7) [['a'], ['b'], ['a'], ['c']])
        ['d'] = 0 ∧
    (insert_all (htable_new hashing_t.LINEAR_P 7) [['a'], ['b'], ['a'], ['c']]).num_keys = 3 := by
  decide

/-- Claim C17: on a new double-hashing table of capacity 2, for every pair of
distinct keys `x`, `y` with equal home indices (hash mod 2), inserting `x` then
`y` leaves `x` in its home slot and places `y` in the other slot with one
recorded collision, and afterwards `htable_search` returns 1 for both. -/
theorem scenario_same_home_index (x y : Word) (hxy : x ≠ y)
    (hhome : htable_word_to_int x % 2 = htable_word_to_int y % 2) :
    stored (insert_all (htable_new hashing_t.DOUBLE_H 2) [x, y]) x (htable_word_to_int x % 2) ∧
    stored (insert_all (htable_new hashing_t.DOUBLE_H 2) [x, y]) y
      ((htable_word_to_int x % 2 + 1) % 2) ∧
    (htable_word_to_int x % 2 + 1) % 2 ≠ htable_word_to_int x % 2 ∧
    (insert_all (htable_new hashing_t.DOUBLE_H 2) [x, y]).stats.getD 0 0 = 0 ∧
    (insert_all (htable_new hashing_t.DOUBLE_H 2) [x, y]).stats.getD 1 0 = 1 ∧
    htable_search (insert_all (htable_new hashing_t.DOUBLE_H 2) [x, y]) x = 1 ∧
    htable_search (insert_all (htable_new hashing_t.DOUBLE_H 2) [x, y]) y = 1 := by
  have hp : htable_word_to_int x % 2 = 0 ∨ htable_word_to_int x % 2 = 1 := by omega
  have hne : some x ≠ some y := fun h => hxy (Option.some.inj h)
  have hne' : some y ≠ some x := fun h => hxy (Option.some.inj h).symm
  rw [same_home_table hashing_t.DOUBLE_H x y hxy hhome]
  rcases hp with hp | hp
  · have hq : htable_word_to_int y % 2 = 0 := by omega
    rw [hp]
    refine ⟨?_, ?_, by decide, ?_, ?_, ?_, ?_⟩
    · simp [stored, place, htable_new]
    · simp [stored, place, htable_new]
    · simp [place, htable_new]
    · simp [place, htable_new]
    · simp [htable_search, search_loop, place, htable_new, hp]
    · simp [htable_search, search_loop, place, htable_new, hq, hne, step_of, htable_step,
        Nat.mod_one]
      try rfl
  · have hq : htable_word_to_int y % 2 = 1 := by omega
    rw [hp]
    refine ⟨?_, ?_, by decide, ?_, ?_, ?_, ?_⟩
    · simp [stored, place, htable_new]
    · simp [stored, place, htable_new]
    · simp [place, htable_new]
    · simp [place, htable_new]
    · simp [htable_search, search_loop, place, htable_new, hp]
    · simp [htable_search, search_loop, place, htable_new, hq, hne, step_of, htable_step,
        Nat.mod_one]
      try rfl

/-- An instance of `scenario_same_home_index`: the keys `a` and `c`, whose home
index is 1. -/
theorem scenario_same_home_index_witness :
    (['a'] : Word) ≠ ['c'] ∧ htable_word_to_int ['a'] % 2 = htable_word_to_int ['c'] % 2 ∧
    (stored (insert_all (htable_new hashing_t.DOUBLE_H 2) [['a'], ['c']]) ['a']
      (htable_word_to_int ['a'] % 2) ∧
    stored (insert_all (htable_new hashing_t.DOUBLE_H 2) [['a'], ['c']]) ['c']
      ((htable_word_to_int ['a'] % 2 + 1) % 2) ∧
    (htable_word_to_int ['a'] % 2 + 1) % 2 ≠ htable_word_to_int ['a'] % 2 ∧
    (insert_all (htable_new hashing_t.DOUBLE_H 2) [['a'], ['c']]).stats.getD 0 0 = 0 ∧
    (insert_all (htable_new hashing_t.DOUBLE_H 2) [['a'], ['c']]).stats.getD 1 0 = 1 ∧
    htable_search (insert_all (htable_new hashing_t.DOUBLE_H 2) [['a'], ['c']]) ['a'] = 1 ∧
    htable_search (insert_all (htable_new hashing_t.DOUBLE_H 2) [['a'], ['c']]) ['c'] = 1) :=
  ⟨by decide, by decide, scenario_same_home_index ['a'] ['c'] (by decide) (by decide)⟩

/-- Claim C18: the tokenizer.  For every input stream and every `limit ≥ 2`, a
call of `getword` that does not return `EOF` leaves a non-empty token of at
most `limit - 1` characters, all lower-case letters or digits, and returns its
length.  The token is `spec_token`: the run of alphanumeric characters and
apostrophes that starts at the first alphanumeric character, without the
apostrophes, cut after `limit - 1` characters and put in lower case. -/
theorem getword_token (s stream : List Char) (limit : Int) (hlimit : 2 ≤ limit)
    (hret : (getword s limit stream).value ≠ EOF) :
    (getword s limit stream).word ≠ [] ∧
    ((getword s limit stream).word.length : Int) ≤ limit - 1 ∧
    (∀ c, c ∈ (getword s limit stream).word → c.isLower = true ∨ c.isDigit = true) ∧
    (getword s limit stream).value = ((getword s limit stream).word.length : Int) ∧
    (getword s limit stream).word = spec_token limit.toNat stream := by
  rcases skip_to_alnum_spec stream with ⟨hnone, _⟩ | ⟨c, cs, hskip, ha, hdrop⟩
  · exfalso
    apply hret
    unfold getword
    rw [hnone]
  · obtain ⟨hspec, hval, hform⟩ := getword_eq_spec s stream limit hlimit c cs hskip ha hdrop
    refine ⟨?_, ?_, ?_, hval, hspec⟩
    · rw [hform]
      exact List.cons_ne_nil _ _
    · rw [hform, List.length_cons, List.length_map]
      have := List.length_take_le (limit.toNat - 2)
        ((cs.takeWhile (fun c => isalnum c || decide (c = apostrophe))).filter isalnum)
      omega
    · intro x hx
      rw [hform] at hx
      rcases List.mem_cons.mp hx with hxc | hxl
      · rw [hxc]; exact tolower_lower_or_digit c ha
      · obtain ⟨y, hy, hyx⟩ := List.mem_map.mp hxl
        have hy2 := List.mem_of_mem_take hy
        rw [← hyx]
        exact tolower_lower_or_digit y (List.mem_filter.mp hy2).2

/-- An instance of `getword_token`: the stream ` It's, ok` and the limit 256 of
`main` give the token `its`. -/
theorem getword_token_witness :
    (2 : Int) ≤ 256 ∧
    (getword [] 256 [' ', 'I', 't', apostrophe, 's', ',', ' ', 'o', 'k']).value ≠ EOF ∧
    (getword [] 256 [' ', 'I', 't', apostrophe, 's', ',', ' ', 'o', 'k']).word =
      ['i', 't', 's'] ∧
    ((getword [] 256 [' ', 'I', 't', apostrophe, 's', ',', ' ', 'o', 'k']).word ≠ [] ∧
    ((getword [] 256 [' ', 'I', 't', apostrophe, 's', ',', ' ', 'o', 'k']).word.length : Int) ≤
      256 - 1 ∧
    (∀ c, c ∈ (getword [] 256 [' ', 'I', 't', apostrophe, 's', ',', ' ', 'o', 'k']).word →
      c.isLower = true ∨ c.isDigit = true) ∧
    (getword [] 256 [' ', 'I', 't', apostrophe, 's', ',', ' ', 'o', 'k']).value =
      ((getword [] 256 [' ', 'I', 't', apostrophe, 's', ',', ' ', 'o', 'k']).word.length : Int) ∧
    (getword [] 256 [' ', 'I', 't', apostrophe, 's', ',', ' ', 'o', 'k']).word =
      spec_token (256 : Int).toNat [' ', 'I', 't', apostrophe, 's', ',', ' ', 'o', 'k']) :=
  ⟨by decide, by decide, by decide,
    getword_token [] [' ', 'I', 't', apostrophe, 's', ',', ' ', 'o', 'k'] 256
      (by decide) (by decide)⟩

/-- Claim C19 fails as stated: double hashing, capacity 5, the key `the`
inserted 2147483647 times.  The search then returns 2147483647 = `INT_MAX`, and
one more `htable_insert` computes `freqs[index] + 1` above `INT_MAX`: it has no
defined result, so it returns neither 0 nor the value of the search plus one. -/
theorem insert_search_overflow :
    insert_all_checked (htable_new hashing_t.DOUBLE_H 5)
        (List.replicate 2147483647 ['t', 'h', 'e']) =
      some (insert_all (htable_new hashing_t.DOUBLE_H 5)
        (List.replicate 2147483647 ['t', 'h', 'e'])) ∧
    htable_search_checked (insert_all (htable_new hashing_t.DOUBLE_H 5)
        (List.replicate 2147483647 ['t', 'h', 'e'])) ['t', 'h', 'e'] = some 2147483647 ∧
    htable_insert_checked (insert_all (htable_new hashing_t.DOUBLE_H 5)
        (List.replicate 2147483647 ['t', 'h', 'e'])) ['t', 'h', 'e'] = none := by
  obtain ⟨h1, h2, _, h4⟩ := same_key_checked hashing_t.DOUBLE_H 5 ['t', 'h', 'e'] 2147483647
    (by decide) (Or.inr (by decide)) (Nat.le_refl _)
  exact ⟨h1, h2, h4 rfl⟩

/-- Claim C19 as amended: insert and search agree within the range of `int`.
For either strategy, any capacity above 1 (below `2 ^ 31` for linear probing,
at most `2 ^ 30` otherwise), the table `h` reached from `htable_new` by any
insertions and any key, no word being inserted `2 ^ 31` times, this call
counted: no call overflows, `htable_insert` returns 0 or the value of `htable_search` before the call plus
one (1 when no slot holds the key, the incremented frequency when a slot holds
it), and when it returns `r > 0` the search on
the resulting table returns `r`. -/
theorem insert_search_agree (ht : hashing_t) (cap : Nat) (ws : List Word) (key : Word)
    (h : htablerec) (hcap : 1 < cap)
    (hrange : (ht = hashing_t.LINEAR_P ∧ cap < 2 ^ 31) ∨ 2 * cap ≤ 2 ^ 31)
    (hcount : ∀ w, (ws ++ [key]).count w < 2 ^ 31)
    (hreach : h = insert_all (htable_new ht cap) ws) :
    (insert_all_checked (htable_new ht cap) ws = some h ∧
      htable_search_checked h key = some (htable_search h key) ∧
      htable_insert_checked h key = some (htable_insert h key) ∧
      htable_search_checked (htable_insert h key).1 key =
        some (htable_search (htable_insert h key).1 key)) ∧
    ((htable_insert h key).2 = 0 ∨ (htable_insert h key).2 = htable_search h key + 1) ∧
    ((∀ i, ¬ stored h key i) → (htable_insert h key).2 ≠ 0 → (htable_insert h key).2 = 1) ∧
    (∀ i, stored h key i → (htable_insert h key).2 = h.freqs.getD i 0 + 1) ∧
    (0 < (htable_insert h key).2 →
      htable_search (htable_insert h key).1 key = (htable_insert h key).2) := by
  have hpos : 0 < cap := Nat.lt_trans Nat.zero_lt_one hcap
  have hinv : table_inv h := by rw [hreach]; exact table_inv_insert_all ht cap hpos ws
  have hc : h.capacity = cap := by rw [hreach]; exact (insert_all_capacity ht cap ws).1
  have hpos' : 0 < h.capacity := by rw [hc]; exact hpos
  have hinv' : table_inv (htable_insert h key).1 := table_inv_insert h key hpos' hinv
  obtain ⟨hs, hp, _⟩ := hinv
  have hpre : ∀ w, ws.count w < 2 ^ 31 := by
    intro w
    have := hcount w
    rw [List.count_append] at this
    omega
  have hafter : htable_search_checked (htable_insert h key).1 key =
      some (htable_search (htable_insert h key).1 key) := by
    rw [hreach, ← insert_all_append]
    exact search_checked_reachable ht cap (ws ++ [key]) key hcap hrange
  refine ⟨⟨by rw [hreach]; exact insert_all_checked_eq ht cap ws hcap hrange hpre,
    by rw [hreach]; exact search_checked_reachable ht cap ws key hcap hrange,
    by rw [hreach]; exact insert_checked_reachable ht cap ws key hcap hrange (hcount key),
    hafter⟩, ?_⟩
  clear hafter
  by_cases hst : ∃ i, stored h key i
  · obtain ⟨i, hi⟩ := hst
    have hlf : i < h.freqs.length := by rw [hs.2.1]; exact hi.1
    have hins := insert_of_stored h key i hp hi
    rw [hins] at hinv' ⊢
    refine ⟨Or.inr ?_, fun hno => absurd hi (hno i), fun k hk => ?_, fun _ => ?_⟩
    · rw [search_of_stored h key i hp hi]
    · rw [stored_unique h key k i hp hk hi]
    · rw [search_of_stored _ key i hinv'.2.1 (stored_bump h key i i hs hi.1 hi),
        bump_freqs h i i hlf, if_pos rfl]
  · have hno : ∀ i, ¬ stored h key i := fun i hi => hst ⟨i, hi⟩
    rcases insert_of_not_stored h key hpos' hno with ⟨_, he⟩ | ⟨c, _, _, hfree, he⟩
    · rw [he]
      exact ⟨Or.inl rfl, fun _ hne => absurd rfl hne, fun i hi => absurd hi (hno i),
        fun hlt => absurd hlt (Nat.lt_irrefl 0)⟩
    · have hplt := probe_index_lt h key c hpos'
      have hsp := stored_place_self h key (probe_index h key c) c hs hplt
      rw [he] at hinv' ⊢
      refine ⟨Or.inr ?_, fun _ _ => rfl, fun i hi => absurd hi (hno i), fun _ => ?_⟩
      · rw [search_of_not_stored h key hpos' hno]
      · rw [search_of_stored _ key _ hinv'.2.1 hsp.1, hsp.2, hfree]

/-- An instance of `insert_search_agree`: inserting `d`, which is already there,
into `crowded_table`. -/
theorem insert_search_agree_witness :
    1 < 3 ∧ ((hashing_t.LINEAR_P = hashing_t.LINEAR_P ∧ 3 < 2 ^ 31) ∨ 2 * 3 ≤ 2 ^ 31) ∧
    (∀ w, (([['a'], ['d']] : List Word) ++ [['d']]).count w < 2 ^ 31) ∧
    crowded_table = insert_all (htable_new hashing_t.LINEAR_P 3) [['a'], ['d']] ∧
    ((insert_all_checked (htable_new hashing_t.LINEAR_P 3) [['a'], ['d']] = some crowded_table ∧
      htable_search_checked crowded_table ['d'] = some (htable_search crowded_table ['d']) ∧
      htable_insert_checked crowded_table ['d'] = some (htable_insert crowded_table ['d']) ∧
      htable_search_checked (htable_insert crowded_table ['d']).1 ['d'] =
        some (htable_search (htable_insert crowded_table ['d']).1 ['d'])) ∧
    ((htable_insert crowded_table ['d']).2 = 0 ∨
        (htable_insert crowded_table ['d']).2 = htable_search crowded_table ['d'] + 1) ∧
    ((∀ i, ¬ stored crowded_table ['d'] i) → (htable_insert crowded_table ['d']).2 ≠ 0 →
      (htable_insert crowded_table ['d']).2 = 1) ∧
    (∀ i, stored crowded_table ['d'] i →
      (htable_insert crowded_table ['d']).2 = crowded_table.freqs.getD i 0 + 1) ∧
    (0 < (htable_insert crowded_table ['d']).2 →
      htable_search (htable_insert crowded_table ['d']).1 ['d'] =
        (htable_insert crowded_table ['d']).2)) :=
  ⟨by decide, Or.inl ⟨rfl, by decide⟩, count_lt_of_length _ (by decide), rfl,
    insert_search_agree hashing_t.LINEAR_P 3 [['a'], ['d']] ['d'] crowded_table (by decide)
      (Or.inl ⟨rfl, by decide⟩) (count_lt_of_length _ (by decide)) rfl⟩

/-- Claim C20 fails as stated: in the double-hashing table of capacity
1610612741 that holds the key `aaaaan`, a call of `htable_insert` or of
`htable_search` for `aaaac0` computes `index + step` = 1258982504 + 1258982506
at the first slot, above `INT_MAX`; the next index `(index + step) % capacity`
is not defined, so the accesses at it are not inside `0 .. capacity - 1`. -/
theorem access_walk_overflow :
    (insert_all (htable_new hashing_t.DOUBLE_H 1610612741)
      [['a', 'a', 'a', 'a', 'a', 'n']]).capacity = 1610612741 ∧
    htable_word_to_int ['a', 'a', 'a', 'a', 'c', '0'] % 1610612741 = 1258982504 ∧
    step_of (insert_all (htable_new hashing_t.DOUBLE_H 1610612741)
        [['a', 'a', 'a', 'a', 'a', 'n']])
      (htable_word_to_int ['a', 'a', 'a', 'a', 'c', '0']) = 1258982506 ∧
    htable_insert_checked (insert_all (htable_new hashing_t.DOUBLE_H 1610612741)
        [['a', 'a', 'a', 'a', 'a', 'n']]) ['a', 'a', 'a', 'a', 'c', '0'] = none ∧
    htable_search_checked (insert_all (htable_new hashing_t.DOUBLE_H 1610612741)
        [['a', 'a', 'a', 'a', 'a', 'n']]) ['a', 'a', 'a', 'a', 'c', '0'] = none := by
  have hc := (insert_all_capacity hashing_t.DOUBLE_H 1610612741
    [['a', 'a', 'a', 'a', 'a', 'n']]).1
  have hm := (insert_all_capacity hashing_t.DOUBLE_H 1610612741
    [['a', 'a', 'a', 'a', 'a', 'n']]).2
  refine ⟨hc, ?_, ?_, walk_overflow_example.2.1, walk_overflow_example.2.2⟩
  · rw [hash_aaaaan.2]
  · rw [step_of_double _ _ hm, hc, hash_aaaaan.2]

/-- Claim C20 as amended: access safety within the range of `int`.  In the table
`h` reached from `htable_new` (any strategy, capacity above 1, below `2 ^ 31`
for linear probing and at most `2 ^ 30` otherwise) by any insertions, no word
being inserted `2 ^ 31` times, the call at hand counted, the three arrays have
`capacity` entries; `htable_insert` and `htable_search` with every access and
every `int` sum checked never fail and compute what the unchecked functions
compute, so no sum `index + step` is above `INT_MAX` and every slot index
they read or write lies in `0 .. capacity - 1` (these are the indices of the
probe walk); the log position `num_keys` is below the capacity whenever a new
key is placed; and every slot with a positive frequency has a key, so `strcmp`
never meets an absent key. -/
theorem access_safety (ht : hashing_t) (cap : Nat) (ws : List Word) (str : Word)
    (h : htablerec) (hcap : 1 < cap)
    (hrange : (ht = hashing_t.LINEAR_P ∧ cap < 2 ^ 31) ∨ 2 * cap ≤ 2 ^ 31)
    (hcount : ∀ w, (ws ++ [str]).count w < 2 ^ 31)
    (hreach : h = insert_all (htable_new ht cap) ws) :
    insert_all_checked (htable_new ht cap) ws = some h ∧
    (h.keys.length = cap ∧ h.freqs.length = cap ∧ h.stats.length = cap) ∧
    htable_insert_checked h str = some (htable_insert h str) ∧
    htable_search_checked h str = some (htable_search h str) ∧
    (∀ j, probe_index h str j + step_of h (htable_word_to_int str) ≤ INT_MAX) ∧
    (∀ j, probe_index h str j < cap) ∧
    ((htable_insert h str).1.num_keys = h.num_keys + 1 → h.num_keys < cap) ∧
    (∀ i, i < cap → 0 < h.freqs.getD i 0 → h.keys.getD i none ≠ none) := by
  have hpos : 0 < cap := Nat.lt_trans Nat.zero_lt_one hcap
  have hinv : table_inv h := by rw [hreach]; exact table_inv_insert_all ht cap hpos ws
  have hc : h.capacity = cap := by rw [hreach]; exact (insert_all_capacity ht cap ws).1
  have hpos' : 0 < h.capacity := by rw [hc]; exact hpos
  have hm : h.method = ht := by rw [hreach]; exact (insert_all_capacity ht cap ws).2
  have hpre : ∀ w, ws.count w < 2 ^ 31 := by
    intro w
    have := hcount w
    rw [List.count_append] at this
    omega
  have hwalk := walk_fits h (htable_word_to_int str) (by rw [hc]; exact hcap)
    (by rw [hc, hm]; exact hrange)
  refine ⟨by rw [hreach]; exact insert_all_checked_eq ht cap ws hcap hrange hpre, ?_,
    by rw [hreach]; exact insert_checked_reachable ht cap ws str hcap hrange (hcount str),
    htable_search_checked_eq h str hinv hpos' hwalk,
    fun j => hwalk _ (probe_index_lt h str j hpos'),
    fun j => by rw [← hc]; exact probe_index_lt h str j hpos', ?_, ?_⟩
  · obtain ⟨h1, h2, h3⟩ := hinv.1
    exact ⟨h1.trans hc, h2.trans hc, h3.trans hc⟩
  · intro hgrow
    obtain ⟨hs, _, hn⟩ := hinv
    rcases insert_cases h str with ⟨_, he⟩ | ⟨c, _, _, hfree, _⟩ | ⟨c, _, _, _, _, he⟩
    · rw [he] at hgrow
      exact absurd hgrow (Nat.ne_of_lt (Nat.lt_succ_self _))
    · have hlf : probe_index h str c < h.freqs.length := by
        rw [hs.2.1]; exact probe_index_lt h str c hpos'
      have := occupied_count_lt_of_free h _ hlf hfree
      rw [hs.2.1, hc] at this
      rw [hn]; exact this
    · rw [he] at hgrow
      exact absurd hgrow (Nat.ne_of_lt (Nat.lt_succ_self _))
  · intro i hi hocc
    exact key_present_of_occupied h hinv.2.1 i (by rw [hc]; exact hi) (Nat.pos_iff_ne_zero.mp hocc)

/-- An instance of `access_safety`: inserting `g` into `crowded_table`. -/
theorem access_safety_witness :
    1 < 3 ∧ ((hashing_t.LINEAR_P = hashing_t.LINEAR_P ∧ 3 < 2 ^ 31) ∨ 2 * 3 ≤ 2 ^ 31) ∧
    (∀ w, (([['a'], ['d']] : List Word) ++ [['g']]).count w < 2 ^ 31) ∧
    crowded_table = insert_all (htable_new hashing_t.LINEAR_P 3) [['a'], ['d']] ∧
    (insert_all_checked (htable_new hashing_t.LINEAR_P 3) [['a'], ['d']] = some crowded_table ∧
    (crowded_table.keys.length = 3 ∧ crowded_table.freqs.length = 3 ∧
        crowded_table.stats.length = 3) ∧
    htable_insert_checked crowded_table ['g'] = some (htable_insert crowded_table ['g']) ∧
    htable_search_checked crowded_table ['g'] = some (htable_search crowded_table ['g']) ∧
    (∀ j, probe_index crowded_table ['g'] j + step_of crowded_table (htable_word_to_int ['g']) ≤
      INT_MAX) ∧
    (∀ j, probe_index crowded_table ['g'] j < 3) ∧
    ((htable_insert crowded_table ['g']).1.num_keys = crowded_table.num_keys + 1 →
      crowded_table.num_keys < 3) ∧
    (∀ i, i < 3 → 0 < crowded_table.freqs.getD i 0 → crowded_table.keys.getD i none ≠ none)) :=
  ⟨by decide, Or.inl ⟨rfl, by decide⟩, count_lt_of_length _ (by decide), rfl,
    access_safety hashing_t.LINEAR_P 3 [['a'], ['d']] ['g'] crowded_table (by decide)
      (Or.inl ⟨rfl, by decide⟩) (count_lt_of_length _ (by decide)) rfl⟩

/-- Claim C21 fails as stated: linear probing, capacity 3, the key `c` inserted
2147483648 times.  Insertion number 2147483648 computes `freqs[index] + 1` with
`freqs[index] = INT_MAX`: the sequence of calls has no defined result, and the
frequency that `htable_print` tests with `freqs[i] > 0` is no longer a positive
`int`, so the word held by the slot is not printed exactly once. -/
theorem key_frequency_overflow :
    insert_all_checked (htable_new hashing_t.LINEAR_P 3) (List.replicate 2147483648 ['c']) =
      none :=
  replicate_overflow hashing_t.LINEAR_P 3 ['c'] (by decide) (Or.inl ⟨rfl, by decide⟩) 2147483647
    (Nat.le_refl _)

/-- Claim C21 as amended: key uniqueness within the range of `int`.  For either
strategy and any capacity above 1 (below `2 ^ 31` for linear probing, at most
`2 ^ 30` otherwise), in the table `h` reached from `htable_new` by any
insertions in which no word is inserted `2 ^ 31` times, no call has overflowed,
every frequency is at most `INT_MAX`, two occupied slots with equal keys are
the same slot, so the keys printed by `htable_print` are
pairwise distinct: a word held by a slot is printed exactly once, with the
frequency of its slot, and a word held by no slot is not printed. -/
theorem key_uniqueness (ht : hashing_t) (cap : Nat) (ws : List Word) (h : htablerec)
    (hcap : 1 < cap)
    (hrange : (ht = hashing_t.LINEAR_P ∧ cap < 2 ^ 31) ∨ 2 * cap ≤ 2 ^ 31)
    (hcount : ∀ w, ws.count w < 2 ^ 31)
    (hreach : h = insert_all (htable_new ht cap) ws) :
    insert_all_checked (htable_new ht cap) ws = some h ∧
    (∀ i, i < cap → h.freqs.getD i 0 ≤ INT_MAX) ∧
    (∀ i k, i < cap → k < cap → 0 < h.freqs.getD i 0 → 0 < h.freqs.getD k 0 →
      h.keys.getD i none = h.keys.getD k none → i = k) ∧
    ((htable_print h).map Prod.snd).Nodup ∧
    (∀ w, (∃ i, stored h w i) → ((htable_print h).map Prod.snd).countP (fun k => decide (k = some w)) = 1) ∧
    (∀ w, (∀ i, ¬ stored h w i) → ((htable_print h).map Prod.snd).countP (fun k => decide (k = some w)) = 0) ∧
    (∀ w i, stored h w i → (h.freqs.getD i 0, some w) ∈ htable_print h) := by
  have hpos : 0 < cap := Nat.lt_trans Nat.zero_lt_one hcap
  have hinv : table_inv h := by rw [hreach]; exact table_inv_insert_all ht cap hpos ws
  have hc : h.capacity = cap := by rw [hreach]; exact (insert_all_capacity ht cap ws).1
  have hnd := htable_print_keys_nodup h hinv
  refine ⟨by rw [hreach]; exact insert_all_checked_eq ht cap ws hcap hrange hcount,
    by rw [hreach]; exact freqs_in_range ht cap hpos ws hcount, ?_, hnd, ?_, ?_, ?_⟩
  · intro i k hi hk hoi hok heq
    exact occupied_keys_inj h hinv.2.1 i k (by rw [hc]; exact hi) (by rw [hc]; exact hk)
      hoi hok heq
  · intro w hst
    exact List.count_eq_one_of_mem hnd ((mem_htable_print_keys h w).mpr hst)
  · intro w hno
    have hnot : some w ∉ (htable_print h).map Prod.snd := by
      intro hmem
      obtain ⟨i, hi⟩ := (mem_htable_print_keys h w).mp hmem
      exact hno i hi
    rw [List.countP_eq_zero]
    intro k hk
    simp only [decide_eq_true_eq]
    intro hkw
    exact hnot (hkw ▸ hk)
  · intro w i hst
    unfold htable_print
    rw [List.mem_filterMap]
    refine ⟨i, List.mem_range.mpr hst.1, ?_⟩
    rw [if_pos (Nat.pos_iff_ne_zero.mpr hst.2.1), hst.2.2]

/-- An instance of `key_uniqueness`: the table `crowded_table`. -/
theorem key_uniqueness_witness :
    1 < 3 ∧ ((hashing_t.LINEAR_P = hashing_t.LINEAR_P ∧ 3 < 2 ^ 31) ∨ 2 * 3 ≤ 2 ^ 31) ∧
    (∀ w, ([['a'], ['d']] : List Word).count w < 2 ^ 31) ∧
    crowded_table = insert_all (htable_new hashing_t.LINEAR_P 3) [['a'], ['d']] ∧
    htable_print crowded_table = [(1, some ['a']), (1, some ['d'])] ∧
    (insert_all_checked (htable_new hashing_t.LINEAR_P 3) [['a'], ['d']] = some crowded_table ∧
    (∀ i, i < 3 → crowded_table.freqs.getD i 0 ≤ INT_MAX) ∧
    (∀ i k, i < 3 → k < 3 → 0 < crowded_table.freqs.getD i 0 →
      0 < crowded_table.freqs.getD k 0 →
      crowded_table.keys.getD i none = crowded_table.keys.getD k none → i = k) ∧
    ((htable_print crowded_table).map Prod.snd).Nodup ∧
    (∀ w, (∃ i, stored crowded_table w i) →
      ((htable_print crowded_table).map Prod.snd).countP (fun k => decide (k = some w)) = 1) ∧
    (∀ w, (∀ i, ¬ stored crowded_table w i) →
      ((htable_print crowded_table).map Prod.snd).countP (fun k => decide (k = some w)) = 0) ∧
    (∀ w i, stored crowded_table w i →
      (crowded_table.freqs.getD i 0, some w) ∈ htable_print crowded_table)) :=
  ⟨by decide, Or.inl ⟨rfl, by decide⟩, count_lt_of_length _ (by decide), rfl, by decide,
    key_uniqueness hashing_t.LINEAR_P 3 [['a'], ['d']] crowded_table (by decide)
      (Or.inl ⟨rfl, by decide⟩) (count_lt_of_length _ (by decide)) rfl⟩

end Htable
